import Mathlib

/-
Verification of the planar-embedding core of this repository: the
EmbedderMaxFace / EmbedderMinDepthMaxFaceLayers subsystem
(src/ogdf/src/ogdf/planarity/EmbedderMaxFace.cpp and the
EmbedderMinDepthMaxFaceLayers translation unit).

Shallow embedding conventions:

* The BC-tree (an external collaborator, class BCTree) is modelled by the
  inductive type `BTree`: a rooted tree of B-nodes; each B-node carries its
  id and the list of its child C-nodes, each child C-node carrying the cut
  vertex id and the list of its own child B-nodes.  In the source, BC-tree
  edges are directed from child to parent ("HINT: Edges are directed from
  child to parent in BC-trees"), so `e->target() == bT` filters exactly the
  child C-nodes of `bT`, and a C-node's unique outgoing edge goes to its
  parent B-node.

* The SPQR-based face-size oracle (EmbedderMaxFaceBiconnectedGraphs<int>::
  computeSize and its Layers twin) is an external collaborator; it is
  modelled as an abstract function `Oracle` of the block id, the optional
  anchor vertex, the node-length assignment and the edge-length assignment.

* The auxiliary copy of cut vertex `c` inside block `B` is addressed by the
  pair `(B, c)`; NodeArray tables indexed by auxiliary-graph nodes or by
  per-block copies (nodeLength, cstrLength, md_nodeLength, mf_nodeLength,
  mf_cstrLength) become functions `Nat × Nat → Int` initialised to 0,
  matching the `init(..., 0)` calls in doCall / computeBlockGraphs.
-/

/-- A rooted BC-tree fragment: a B-node `mk bid cuts` with block id `bid`
and child C-nodes `cuts`; each `(v, bs)` in `cuts` is a child cut vertex
with original-vertex id `v` and child blocks `bs`. -/
inductive BTree where
| mk (bid : Nat) (cuts : List (Nat × List BTree)) : BTree

def BTree.bid : BTree → Nat
| .mk b _ => b

def BTree.cuts : BTree → List (Nat × List BTree)
| .mk _ cuts => cuts

/-- The SPQR-based face-size oracle `computeSize`: block id, optional anchor
vertex, node lengths, edge lengths.  External collaborator, kept abstract. -/
def Oracle : Type := Nat → Option Nat → (Nat → Int) → (Nat → Int) → Int

/-- The mutable tables threaded through the bottom-up pass:
`nodeLength[(B, v)]` and `cstrLength[(B, v)]` for the copy of vertex `v`
inside block `B` (EmbedderMaxFace: per-block NodeArrays; Layers variant:
NodeArrays on the auxiliary graph — same keying, one copy per block). -/
structure MFState where
  nodeLength : Nat × Nat → Int
  cstrLength : Nat × Nat → Int

/-- Point update of a table. -/
def updF (f : Nat × Nat → Int) (k : Nat × Nat) (x : Int) : Nat × Nat → Int :=
  fun k2 => if k2 = k then x else f k2

/-- The all-zero initial tables (`init(..., 0)`). -/
def mfZero : MFState := ⟨fun _ => 0, fun _ => 0⟩

mutual

/-- Models `EmbedderMaxFace::constraintMaxFace(bT, cH)`
(EmbedderMaxFace.cpp:173-208): for every child cut vertex `vT` of `bT`
(incoming tree edges), recursively process the child blocks of `vT` and
store the sum of their results as the node length of `vT`'s copy in `bT`;
then call the oracle anchored at `cH` with edge lengths 1, store the result
in `cstrLength[(bT, cH)]` and return it. -/
def cmfB (o : Oracle) : BTree → Nat → MFState → Int × MFState
| .mk b cuts, c, st =>
  let st1 := cmfCuts o b cuts st
  let r := o b (some c) (fun v => st1.nodeLength (b, v)) (fun _ => 1)
  (r, ⟨st1.nodeLength, updF st1.cstrLength (b, c) r⟩)

/-- The loop over the child cut vertices of block `b`
(EmbedderMaxFace.cpp:177-197). -/
def cmfCuts (o : Oracle) (b : Nat) : List (Nat × List BTree) → MFState → MFState
| [], st => st
| (v, bs) :: rest, st =>
  let p := cmfKids o v bs st
  cmfCuts o b rest ⟨updF p.2.nodeLength (b, v) p.1, p.2.cstrLength⟩

/-- The inner loop over the child blocks of one cut vertex `v`, summing the
recursive `constraintMaxFace` results (EmbedderMaxFace.cpp:186-195). -/
def cmfKids (o : Oracle) (v : Nat) : List BTree → MFState → Int × MFState
| [], st => (0, st)
| t :: rest, st =>
  let p := cmfB o t v st
  let q := cmfKids o v rest p.2
  (p.1 + q.1, q.2)

end

mutual

/-- Models `EmbedderMinDepthMaxFaceLayers::mf_constraintMaxFace(bT, cH)`
(lines 583-620 of the EmbedderMinDepthMaxFaceLayers translation unit):
identical recursion, except that `mf_nodeLength[cH] = 0` is assigned
explicitly before the oracle call. -/
def mfCmfB (o : Oracle) : BTree → Nat → MFState → Int × MFState
| .mk b cuts, c, st =>
  let st1 := mfCmfCuts o b cuts st
  let st2 : MFState := ⟨updF st1.nodeLength (b, c) 0, st1.cstrLength⟩
  let r := o b (some c) (fun v => st2.nodeLength (b, v)) (fun _ => 1)
  (r, ⟨st2.nodeLength, updF st2.cstrLength (b, c) r⟩)

/-- Child-cut loop of `mf_constraintMaxFace` (lines 587-607). -/
def mfCmfCuts (o : Oracle) (b : Nat) : List (Nat × List BTree) → MFState → MFState
| [], st => st
| (v, bs) :: rest, st =>
  let p := mfCmfKids o v bs st
  mfCmfCuts o b rest ⟨updF p.2.nodeLength (b, v) p.1, p.2.cstrLength⟩

/-- Child-block loop of `mf_constraintMaxFace` (lines 595-605). -/
def mfCmfKids (o : Oracle) (v : Nat) : List BTree → MFState → Int × MFState
| [], st => (0, st)
| t :: rest, st =>
  let p := mfCmfB o t v st
  let q := mfCmfKids o v rest p.2
  (p.1 + q.1, q.2)

end

mutual

/-- All block ids occurring in a BC-subtree. -/
def BTree.blockIds : BTree → List Nat
| .mk b cuts => b :: cutsBlockIds cuts

def cutsBlockIds : List (Nat × List BTree) → List Nat
| [] => []
| (_, bs) :: rest => kidsBlockIds bs ++ cutsBlockIds rest

def kidsBlockIds : List BTree → List Nat
| [] => []
| t :: rest => t.blockIds ++ kidsBlockIds rest

end

mutual

/-- Structural well-formedness of a BC-subtree, as guaranteed by the BCTree
collaborator: the child cut vertices of a block are pairwise distinct
original vertices, and the cut vertex attaching a child block is not also
one of that child block's own child cut vertices (in a BC-tree, consecutive
C-nodes on a tree path are distinct cut vertices). -/
def BTree.wfb : BTree → Bool
| .mk _ cuts => ((cuts.map Prod.fst).Nodup : Prop) && cutsWfb cuts

def cutsWfb : List (Nat × List BTree) → Bool
| [] => true
| (v, bs) :: rest => kidsWfb v bs && cutsWfb rest

def kidsWfb (v : Nat) : List BTree → Bool
| [] => true
| t :: rest => !((t.cuts.map Prod.fst).contains v) && t.wfb && kidsWfb v rest

end

mutual

/-- Functional specification of `constraintMaxFace(B, c)` (and of
`mf_constraintMaxFace`), following spec section 4.4: the oracle anchored at
`c` on block `B`, with edge lengths 1 and the node length of each child cut
vertex `v` equal to the sum of the recursive values of the child blocks
attached at `v` (all other node lengths 0, in particular the anchor's). -/
def cstrSpec (o : Oracle) : BTree → Nat → Int
| .mk b cuts, c => o b (some c) (cutsLens o cuts) (fun _ => 1)

/-- Node-length assignment of the specification: child cut vertices get
their subtree sums, every other vertex gets 0. -/
def cutsLens (o : Oracle) : List (Nat × List BTree) → Nat → Int
| [], _ => 0
| (v, bs) :: rest, w => if w = v then kidsSum o v bs else cutsLens o rest w

/-- Sum of the recursive specification values over the child blocks of `v`. -/
def kidsSum (o : Oracle) (v : Nat) : List BTree → Int
| [] => 0
| t :: rest => cstrSpec o t v + kidsSum o v rest

end

/-- The node-length table is zero on all copies belonging to the given blocks
(the state in which `doCall` leaves the tables before the bottom-up pass). -/
def zeroOnL (st : MFState) (ids : List Nat) : Prop :=
  ∀ k : Nat × Nat, k.1 ∈ ids → st.nodeLength k = 0

/-- A concrete example oracle used by witnesses. -/
def exO : Oracle := fun b _ nl _ => nl 1 + nl 3 + Int.ofNat b + 5

/-- A concrete example BC-tree used by witnesses: root block 0 with child
cut vertices 1 (one child block 2) and 3 (child blocks 4 and 6). -/
def exT : BTree := BTree.mk 0 [(1, [BTree.mk 2 []]), (3, [BTree.mk 4 [], BTree.mk 6 []])]

/-- Point update of a `Nat`-keyed table. -/
def updN (f : Nat → Int) (k : Nat) (x : Int) : Nat → Int :=
  fun k2 => if k2 = k then x else f k2

/-- State of the top-down pass (`maximumFaceRec` / `mf_maximumFaceRec`):
the `nodeLength` and `cstrLength` tables, the `mf_maxFaceSize` table of the
Layers variant, plus two instrumentation traces: `cands` records every
candidate `(B, size of a maximum face in B)` computed at the head of a
recursive call, and `events` records every reassignment
`nodeLength[B''][c] := L - cstrLength(B'', c)` as `(B, c, B'', value)`. -/
structure TDState where
  nodeLength : Nat × Nat → Int
  cstrLength : Nat × Nat → Int
  maxFaceSize : Nat → Int
  cands : List (Nat × Int)
  events : List (Nat × Nat × Nat × Int)

/-- The oracle call computing the size of a maximum face in block `b` under
the current node lengths, without an anchor (EmbedderMaxFace.cpp:217-218). -/
def tdEll (o : Oracle) (b : Nat) (st : TDState) : Int :=
  o b none (fun w => st.nodeLength (b, w)) (fun _ => 1)

/-- The oracle call recomputing `cstrLength[bT][cH]` anchored at the child
cut vertex `v` (EmbedderMaxFace.cpp:227-234), and its storage. -/
def tdCst (o : Oracle) (b : Nat) (v : Nat) (st : TDState) : Int :=
  o b (some v) (fun w => st.nodeLength (b, w)) (fun _ => 1)

def tdRecompute (o : Oracle) (b : Nat) (v : Nat) (st : TDState) : TDState :=
  { st with cstrLength := updF st.cstrLength (b, v) (tdCst o b v st) }

/-- The reassignment `nodeLength[pT][pB] = L - cstrLength[pT][pB]`
(EmbedderMaxFace.cpp:260), with its trace event. -/
def tdAssign (b : Nat) (v : Nat) (L : Int) (pB : Nat) (st : TDState) : TDState :=
  { st with nodeLength := updF st.nodeLength (pB, v) (L - st.cstrLength (pB, v)),
            events := st.events ++ [(b, v, pB, L - st.cstrLength (pB, v))] }

/-- Trace of the candidate computed at the head of a recursive call. -/
def tdCand (b : Nat) (ell : Int) (st : TDState) : TDState :=
  { st with cands := st.cands ++ [(b, ell)] }

/-- Storage `mf_maxFaceSize[bT] = m_ell_opt` of the Layers variant
(line 645 of the translation unit). -/
def tdStoreSize (b : Nat) (ell : Int) (st : TDState) : TDState :=
  { st with maxFaceSize := updN st.maxFaceSize b ell }

mutual

/-- Models `EmbedderMaxFace::maximumFaceRec(bT, bT_opt, ell_opt)`
(EmbedderMaxFace.cpp:211-277).  The returned pair is `(bT_opt, ell_opt)`;
it starts as `(bT, size of a maximum face in B)` and the loop over the
child cut vertices updates it from the recursive calls. -/
def mfrB (o : Oracle) : BTree → TDState → (Nat × Int) × TDState
| .mk b cuts, st => mfrCuts o b cuts (b, tdEll o b st) (tdCand b (tdEll o b st) st)

/-- The loop over the child cut vertices `cT` of `bT`
(EmbedderMaxFace.cpp:220-272).  For each child cut `v`:
`cstrLength[bT][cH]` is recomputed by the oracle anchored at `v`
(lines 227-234); then `L` is accumulated over the edges of `cT` with
`e2->source() == cT` (line 241), and in a BC-tree the unique such edge is
the one from `cT` to its parent block `bT` itself, so `L` is exactly the
value just stored in `cstrLength[bT][cH]`; then the loop over the child
blocks of `v` runs (lines 250-271). -/
def mfrCuts (o : Oracle) (b : Nat) :
    List (Nat × List BTree) → Nat × Int → TDState → (Nat × Int) × TDState
| [], acc, st => (acc, st)
| (v, bs) :: rest, acc, st =>
  let p := mfrKids o b v ((tdRecompute o b v st).cstrLength (b, v)) bs acc (tdRecompute o b v st)
  mfrCuts o b rest p.1 p.2

/-- The loop over the unprocessed neighbor blocks of the cut vertex `v`
(EmbedderMaxFace.cpp:250-271): reassign
`nodeLength[pT][pB] = L - cstrLength[pT][pB]`, recurse, and keep the
candidate with the larger `ell`. -/
def mfrKids (o : Oracle) (b : Nat) (v : Nat) (L : Int) :
    List BTree → Nat × Int → TDState → (Nat × Int) × TDState
| [], acc, st => (acc, st)
| t :: rest, acc, st =>
  let p := mfrB o t (tdAssign b v L t.bid st)
  mfrKids o b v L rest (if p.1.2 > acc.2 then p.1 else acc) p.2

end

mutual

/-- Models `EmbedderMinDepthMaxFaceLayers::mf_maximumFaceRec(bT, bT_opt,
ell_opt)` (lines 623-700 of the translation unit): the same recursion as
`EmbedderMaxFace::maximumFaceRec`, except that the block's own candidate
value is additionally stored in `mf_maxFaceSize[bT]` (line 645). -/
def mfmB (o : Oracle) : BTree → TDState → (Nat × Int) × TDState
| .mk b cuts, st =>
  mfmCuts o b cuts (b, tdEll o b st) (tdStoreSize b (tdEll o b st) (tdCand b (tdEll o b st) st))

/-- Child-cut loop of `mf_maximumFaceRec` (lines 647-693); `L` is summed
over the edges with `e2->source() == cT` (line 664), whose unique instance
in a BC-tree is the edge from `cT` to its parent block `bT`. -/
def mfmCuts (o : Oracle) (b : Nat) :
    List (Nat × List BTree) → Nat × Int → TDState → (Nat × Int) × TDState
| [], acc, st => (acc, st)
| (v, bs) :: rest, acc, st =>
  let p := mfmKids o b v ((tdRecompute o b v st).cstrLength (b, v)) bs acc (tdRecompute o b v st)
  mfmCuts o b rest p.1 p.2

/-- Neighbor-block loop of `mf_maximumFaceRec` (lines 672-692). -/
def mfmKids (o : Oracle) (b : Nat) (v : Nat) (L : Int) :
    List BTree → Nat × Int → TDState → (Nat × Int) × TDState
| [], acc, st => (acc, st)
| t :: rest, acc, st =>
  let p := mfmB o t (tdAssign b v L t.bid st)
  mfmKids o b v L rest (if p.1.2 > acc.2 then p.1 else acc) p.2

end

mutual

/-- The blocks attached below cut vertex `v` in the BC-tree, i.e. all blocks
incident to `v` other than its parent block. -/
def childBlocksAt : BTree → Nat → List Nat
| .mk _ cuts, v => cutsChildBlocksAt cuts v

def cutsChildBlocksAt : List (Nat × List BTree) → Nat → List Nat
| [], _ => []
| (v0, bs) :: rest, v =>
  (if v0 = v then bs.map BTree.bid else []) ++ kidsChildBlocksAt bs v ++ cutsChildBlocksAt rest v

def kidsChildBlocksAt : List BTree → Nat → List Nat
| [], _ => []
| t :: rest, v => childBlocksAt t v ++ kidsChildBlocksAt rest v

end

/-- Concrete oracle for the bowtie-like instance used against claim C2:
every block is a triangle through cut vertex 1, so any face size is the
node length of the copy of vertex 1 plus three edge lengths (the two
non-cut corners have node length 0). -/
def cxO : Oracle := fun _ _ nl el => nl 1 + el 0 + el 1 + el 2

/-- BC-tree of the instance: root block 0 and two further triangle blocks 2
and 3, all sharing the cut vertex 1. -/
def cxT : BTree := BTree.mk 0 [(1, [BTree.mk 2 [], BTree.mk 3 []])]

/-- The bottom-up pass of `doCall` on this instance: `constraintMaxFace` on
the child blocks 2 and 3 of cut vertex 1 (EmbedderMaxFace.cpp:104-113). -/
def cxRun1 : Int × MFState := cmfB cxO (BTree.mk 2 []) 1 mfZero

def cxRun2 : Int × MFState := cmfB cxO (BTree.mk 3 []) 1 cxRun1.2

/-- The state in which `doCall` starts `maximumFaceRec` on this instance:
the bottom-up `cstrLength` tables and the node length of vertex 1's copy in
the root block set to the sum of the children's values
(EmbedderMaxFace.cpp:114). -/
def cxSt : TDState :=
  ⟨updF cxRun2.2.nodeLength (0, 1) (cxRun1.1 + cxRun2.1), cxRun2.2.cstrLength,
   fun _ => 0, [], []⟩

/-- Lexicographic "at least as good" for the min-depth / max-face selection:
strictly smaller depth, or equal depth and at least as large face size. -/
def lexGE (d1 f1 d2 f2 : Int) : Prop := d1 < d2 ∨ (d1 = d2 ∧ f2 ≤ f1)

/-- Models the `bT_opt` selection loop of
`EmbedderMinDepthMaxFaceLayers::doCall` (lines 169-182 of the translation
unit): iterate over the BC-tree nodes — each given as
`(id, is a B-component, md_minDepth, mf_maxFaceSize)` — skipping non-B
nodes, and take a node whenever its depth is strictly smaller, or equal
with a strictly larger max face size.  `d_opt` starts at
`maxint = 0xFFFFFF`, `ell_opt` at `-1`, and `bT_opt` is uninitialised
(modelled as `none`). -/
def chooseOptLoop : List (Nat × Bool × Int × Int) → Option Nat × Int × Int →
    Option Nat × Int × Int
| [], acc => acc
| (n, isB, d, f) :: rest, acc =>
  if isB = true then
    if d < acc.2.1 ∨ (d = acc.2.1 ∧ f > acc.2.2) then chooseOptLoop rest (some n, d, f)
    else chooseOptLoop rest acc
  else chooseOptLoop rest acc

def chooseOpt (l : List (Nat × Bool × Int × Int)) : Option Nat × Int × Int :=
  chooseOptLoop l (none, 0xFFFFFF, -1)

/-- A directed adjacency entry (dart) of the original graph: an edge id
plus whether it is the source-side entry (`adjSource`; the target side is
the twin). -/
abbrev Dart := Nat × Bool

/-- `e->adjSource()`. -/
def adjSourceDart (e : Nat) : Dart := (e, true)

/-- `adj->twin()`. -/
def dartTwin (d : Dart) : Dart := (d.1, !d.2)

/-- The inputs inspected by the base-case dispatch of `doCall`: the number
of nodes and edges of `G`, the id of `G.firstEdge()`, and the number of
nodes of the BC-tree built by the collaborator. -/
structure GIn where
  numNodes : Nat
  numEdges : Nat
  firstEdge : Nat
  bcNodes : Nat

/-- The observable outcome of `doCall`: the external adjacency entry, the
list of biconnected-base-case `embed` oracle calls with their node- and
edge-length arguments, whether the BC-tree was constructed, whether the
bottom-up/top-down tree passes ran, and whether `G.sort` was applied to a
freshly built rotation system. -/
structure DoCallOut where
  adjExternal : Option Dart
  embedCalls : List ((Nat → Int) × (Nat → Int))
  builtBCTree : Bool
  ranTreePasses : Bool
  sortApplied : Bool

/-- Models the dispatch shared by `EmbedderMaxFace::doCall`
(EmbedderMaxFace.cpp:40-134) and `EmbedderMinDepthMaxFaceLayers::doCall`
(lines 49-198 of the translation unit):
`adjExternal = nullptr`; if `G.numberOfNodes() <= 1` return; if
`G.numberOfEdges() == 1` set `adjExternal = e->adjSource()` of the first
edge and return; build the BC-tree; if it has exactly one node, call the
oracle's `embed` on `G` with node lengths 0 and edge lengths 1, set
`adjExternal = m_adjExternal->twin()` and return; otherwise run the tree
passes and the embedding reconstruction (abstracted as `rest`). -/
def doCallSkel (embedO : (Nat → Int) → (Nat → Int) → Dart) (rest : DoCallOut)
    (g : GIn) : DoCallOut :=
  if g.numNodes ≤ 1 then ⟨none, [], false, false, false⟩
  else if g.numEdges = 1 then ⟨some (adjSourceDart g.firstEdge), [], false, false, false⟩
  else if g.bcNodes = 1 then
    ⟨some (dartTwin (embedO (fun _ => 0) (fun _ => 1))),
     [((fun _ => 0), (fun _ => 1))], true, false, false⟩
  else { rest with builtBCTree := true, ranTreePasses := true, sortApplied := true }

/-- The tables of the min-depth bottom-up traversal: `md_m_cB`, keyed by the
child block (the source endpoint determines the BC-tree edge), and
`md_nodeLength` on auxiliary copies `(block, cut vertex)`. -/
structure MDState where
  m_cB : Nat → Int
  mdNL : Nat × Nat → Int

/-- The loop setting `md_nodeLength[*it] = 1` for the copies (in block `b`)
of the cut vertices collected in `M_B` (lines 240-242 of the translation
unit). -/
def setOnes (b : Nat) : List Nat → (Nat × Nat → Int) → Nat × Nat → Int
| [], f => f
| v :: rest, f => setOnes b rest (updF f (b, v) 1)

/-- The `m_B` / `M_B` update after one recursive value `r` for cut vertex
`v` (lines 224-236 of the translation unit): on a strictly larger value,
reset `M_B` to the copy of `v`; on an equal value, append it unless
present. -/
def mdUpd (v : Nat) (r : Int) (acc : Int × List Nat) : Int × List Nat :=
  if acc.1 < r then (r, [v])
  else if acc.1 = r ∧ ¬ v ∈ acc.2 then (acc.1, acc.2 ++ [v])
  else acc

mutual

/-- Models `EmbedderMinDepthMaxFaceLayers::md_bottomUpTraversal(bT, cH)`
(lines 201-269 of the translation unit): recursive descent over the child
cut vertices and their child blocks, storing each recursive value in
`md_m_cB` and accumulating `(m_B, M_B)`; then the copies of `M_B` in the
block graph get node length 1; if `M_B` is empty the call returns 1;
otherwise the face-size oracle runs anchored at the copy of `cH` with all
edge lengths 0, and the call returns `m_B` if the constrained face size
equals `|M_B|`, else `m_B + 2`. -/
def mdBU (o : Oracle) : BTree → Nat → MDState → Int × MDState
| .mk b cuts, c, st =>
  let q := mdCuts o cuts 0 [] st
  let st2 : MDState := ⟨q.2.2.m_cB, setOnes b q.2.1 q.2.2.mdNL⟩
  if q.2.1 = ([] : List Nat) then (1, st2)
  else if o b (some c) (fun w => st2.mdNL (b, w)) (fun _ => 0) = (q.2.1.length : Int)
    then (q.1, st2)
  else (q.1 + 2, st2)

/-- Loop over the child cut vertices (lines 207-238). -/
def mdCuts (o : Oracle) : List (Nat × List BTree) → Int → List Nat → MDState →
    Int × List Nat × MDState
| [], mB, MB, st => (mB, MB, st)
| (v, bs) :: rest, mB, MB, st =>
  let q := mdKids o v bs mB MB st
  mdCuts o rest q.1 q.2.1 q.2.2

/-- Loop over the child blocks of one cut vertex (lines 215-237): recurse,
store `md_m_cB[e] = result`, update `(m_B, M_B)`. -/
def mdKids (o : Oracle) (v : Nat) : List BTree → Int → List Nat → MDState →
    Int × List Nat × MDState
| [], mB, MB, st => (mB, MB, st)
| t :: rest, mB, MB, st =>
  let p := mdBU o t v st
  let st1 : MDState := ⟨updN p.2.m_cB t.bid p.1, p.2.mdNL⟩
  if mB < p.1 then mdKids o v rest p.1 [v] st1
  else if mB = p.1 ∧ ¬ v ∈ MB then mdKids o v rest mB (MB ++ [v]) st1
  else mdKids o v rest mB MB st1

end

mutual

/-- Functional specification of `md_bottomUpTraversal`: its recursive value
as a function of the tree alone. -/
def mdSpec (o : Oracle) : BTree → Nat → Int
| .mk b cuts, c =>
  if (mdAccCuts o cuts (0, [])).2 = [] then 1
  else if o b (some c) (fun w => if w ∈ (mdAccCuts o cuts (0, [])).2 then 1 else 0)
      (fun _ => 0) = (((mdAccCuts o cuts (0, [])).2.length : Nat) : Int)
    then (mdAccCuts o cuts (0, [])).1
  else (mdAccCuts o cuts (0, [])).1 + 2

/-- Pure accumulator fold over the child cut vertices. -/
def mdAccCuts (o : Oracle) : List (Nat × List BTree) → Int × List Nat → Int × List Nat
| [], acc => acc
| (v, bs) :: rest, acc => mdAccCuts o rest (mdAccKids o v bs acc)

/-- Pure accumulator fold over the child blocks of one cut vertex. -/
def mdAccKids (o : Oracle) (v : Nat) : List BTree → Int × List Nat → Int × List Nat
| [], acc => acc
| t :: rest, acc => mdAccKids o v rest (mdUpd v (mdSpec o t v) acc)

end

/-- Generic fold of `mdUpd` over a list of `(cut vertex, value)` pairs. -/
def mdFold : List (Nat × Int) → Int × List Nat → Int × List Nat
| [], acc => acc
| (v, r) :: rest, acc => mdFold rest (mdUpd v r acc)

/-- The `(cut vertex, recursive value)` pairs processed by the bottom-up
traversal of one block, in processing order. -/
def mdPairs (o : Oracle) : List (Nat × List BTree) → List (Nat × Int)
| [] => []
| (v, bs) :: rest => bs.map (fun t => (v, mdSpec o t v)) ++ mdPairs o rest

/-- The original graph for the reconstruction phase: each entry of `edges`
is `(edge id, source vertex, target vertex)`. -/
structure G2 where
  edges : List (Nat × Nat × Nat)

def esrc (g : G2) (e : Nat) : Nat :=
  (((g.edges.find? (fun p => p.1 = e)).map (fun p => p.2.1)).getD 0)

def etgt (g : G2) (e : Nat) : Nat :=
  (((g.edges.find? (fun p => p.1 = e)).map (fun p => p.2.2)).getD 0)

def edgeIds (g : G2) : List Nat := g.edges.map Prod.fst

/-- `eG->adjSource()` if the current vertex is the edge's source, else
`eG->adjTarget()` (EmbedderMaxFace.cpp:412-426). -/
def dartAt (g : G2) (v e : Nat) : Dart := if esrc g e = v then (e, true) else (e, false)

/-- The embedding of one block as produced by the face-size oracle's
`embed` plus `CombinatorialEmbedding`: for each vertex of the block, the
cyclic list of its incident block edges in the embedded order, and the
adjacency entry `ae->twin()` that the block would contribute to
`*pAdjExternal` (EmbedderMaxFace.cpp:313-325, already mapped back to the
original graph). -/
structure BlockEmb where
  bid : Nat
  rot : List (Nat × List Nat)
  ext : Dart

/-- Input of the reconstruction phase.  `blocks` carries the
oracle-embedded blocks; `isCut`/`blocksAt`/`parentBlk` describe the
BC-tree incidence consulted by `embedBlock` (`typeOfGNode`, the loop over
`cT2->adjEntries`, and `parent_bT_of_cT2`); `start b v` abstracts the
position of the adjacency entry `ae` at which the insertion loop enters the
cyclic order of `v`'s copy in block `b` — the face walk of the source
(EmbedderMaxFace.cpp:360-390) and the dual-graph fallback of the Layers
variant only decide this start position. -/
structure EmbedIn where
  g : G2
  blocks : List BlockEmb
  isCut : Nat → Bool
  blocksAt : Nat → List Nat
  parentBlk : Nat → Nat
  start : Nat → Nat → Nat

def lookupBlk (l : List BlockEmb) (b : Nat) : BlockEmb :=
  (l.find? (fun blk => blk.bid = b)).getD ⟨b, [], (0, true)⟩

/-- The insertion loop starts at entry `ae` and walks the full cyclic
adjacency order of the block vertex once
(`for (adjEntry aeNode = ae; after_ae || aeNode != ae; ...)`,
EmbedderMaxFace.cpp:407-427): the processed sequence is a rotation of the
embedded cyclic order. -/
def rotFrom (k : Nat) (l : List Nat) : List Nat := l.drop (k % l.length) ++ l.take (k % l.length)

/-- State of the reconstruction: `treeNodeTreated` as the list of treated
blocks in treatment order, the rotation system `newOrder` under
construction, and `*pAdjExternal`. -/
structure ESt where
  visited : List Nat
  newOrder : Nat → List Dart
  adjExt : Option Dart

/-- Appending the darts of one block vertex to `newOrder[nG]`.  The source
inserts at a threaded list position (`pAfter` / `insertAfter`); the claims
below are insensitive to positions inside the list, so insertions are
modelled as appends. -/
def insertDarts (g : G2) (v : Nat) (es : List Nat) (st : ESt) : ESt :=
  { st with newOrder :=
      fun w => if w = v then st.newOrder v ++ es.map (dartAt g v) else st.newOrder w }

/-- The `*pAdjExternal` assignment at the head of `embedBlock`
(EmbedderMaxFace.cpp:313-325): only performed while the pointer is still
null, taking the block's designated external entry. -/
def setExt (inp : EmbedIn) (b : Nat) (st : ESt) : ESt :=
  match st.adjExt with
  | some _ => st
  | none => { st with adjExt := some (lookupBlk inp.blocks b).ext }

mutual

/-- Models `embedBlock(bT, cT, after)` of `EmbedderMaxFace`
(EmbedderMaxFace.cpp:288-432) and of `EmbedderMinDepthMaxFaceLayers`
(lines 711-1045 of the translation unit; the two differ only in the choice
of the insertion start entry, abstracted by `start`): mark
`treeNodeTreated[bT]`, set `*pAdjExternal` if it is still null, then walk
the block's vertices.  `fuel` bounds the recursion depth; every call
strictly decreases it, and the theorems below supply enough fuel. -/
def embedBlk (inp : EmbedIn) (b : Nat) (cT : Option Nat) (st : ESt) : Nat → ESt
| 0 => st
| fuel + 1 =>
  vertLoop inp b cT (lookupBlk inp.blocks b).rot
    (setExt inp b { st with visited := st.visited ++ [b] }) fuel
termination_by fuel => (fuel, 0, 0)

/-- The loop over the vertices of the block
(EmbedderMaxFace.cpp:327-431): for a cut vertex, unless the call came
through this very cut vertex and its parent block is already treated
(`no_recursion`, lines 341-356), recurse into every untreated block at it
(lines 392-401); then insert the vertex's full cyclic adjacency order into
`newOrder` starting at the chosen entry. -/
def vertLoop (inp : EmbedIn) (b : Nat) (cT : Option Nat) :
    List (Nat × List Nat) → ESt → Nat → ESt
| [], st, _ => st
| (v, es) :: rest, st, fuel =>
  let st1 : ESt :=
    if inp.isCut v = true then
      if cT = some v ∧ inp.parentBlk v ∈ st.visited then st
      else blkLoop inp v (inp.blocksAt v) st fuel
    else st
  vertLoop inp b cT rest (insertDarts inp.g v (rotFrom (inp.start b v) es) st1) fuel
termination_by l _ fuel => (fuel, 2, l.length)

/-- The loop over the blocks incident to a cut vertex, recursing into every
untreated one (`if (!treeNodeTreated[bT2]) embedBlock(bT2, cT2, *pAfter)`).
-/
def blkLoop (inp : EmbedIn) (v : Nat) : List Nat → ESt → Nat → ESt
| [], st, _ => st
| b2 :: rest, st, fuel =>
  let st1 : ESt := if b2 ∈ st.visited then st else embedBlk inp b2 (some v) st fuel
  blkLoop inp v rest st1 fuel
termination_by l _ fuel => (fuel, 1, l.length)

end

/-- The ids of the blocks handed to the reconstruction (the B-nodes of the
BC-tree). -/
def blkIds (inp : EmbedIn) : List Nat := inp.blocks.map BlockEmb.bid

/-- Number of blocks not yet marked `treeNodeTreated`: the recursion depth
of `embedBlock` is bounded by it, since every nested call first marks a
fresh block. -/
def unvis (inp : EmbedIn) (st : ESt) : Nat :=
  (blkIds inp).countP (fun b => decide (b ∉ st.visited))

/-- Multiplicity of the adjacency entry `d` in `newOrder[v]`. -/
def newCount (st : ESt) (v : Nat) (d : Dart) : Nat :=
  @List.count Dart instBEqOfDecidableEq d (st.newOrder v)

/-- Contribution of one rotation entry `(w, es)` of an embedded block to the
multiplicity of dart `d` in `newOrder[v]`: the insertion loop at `w` appends
`dartAt g w e` for every `e` of the entry (in rotated order). -/
def insC (g : G2) (v : Nat) (d : Dart) (p : Nat × List Nat) : Nat :=
  if p.1 = v then p.2.countP (fun e => decide (dartAt g v e = d)) else 0

/-- Total contribution of block `b` to the multiplicity of dart `d` in
`newOrder[v]` once the block has been embedded. -/
def contrib (inp : EmbedIn) (b : Nat) (v : Nat) (d : Dart) : Nat :=
  (((lookupBlk inp.blocks b).rot).map (insC inp.g v d)).sum

/-- Every block incident to the cut vertex `v` has been treated. -/
def covered (inp : EmbedIn) (st : ESt) (v : Nat) : Prop :=
  ∀ b2 ∈ inp.blocksAt v, b2 ∈ st.visited

/-- Every cut vertex of block `b'` either has all its incident blocks
treated, or is one of the cut vertices whose block loop is still running in
an enclosing frame (the list `P`). -/
def cutsCovered (inp : EmbedIn) (st : ESt) (P : List Nat) (b' : Nat) : Prop :=
  ∀ v es, (v, es) ∈ (lookupBlk inp.blocks b').rot → inp.isCut v = true →
    covered inp st v ∨ v ∈ P

/-- Reachability in the block-cut structure: from block `b0`, through a cut
vertex lying on an already reachable block, to any block incident to that
cut vertex.  For a connected input graph every B-node of the BC-tree is
reachable from the root block. -/
inductive Reaches (inp : EmbedIn) (b0 : Nat) : Nat → Prop
| refl : Reaches inp b0 b0
| step (b v : Nat) (es : List Nat) (b2 : Nat) : Reaches inp b0 b →
    (v, es) ∈ (lookupBlk inp.blocks b).rot → inp.isCut v = true →
    b2 ∈ inp.blocksAt v → Reaches inp b0 b2

/-- Number of occurrences of edge `e` in the rotation entries of block `b`
at vertex `v` — the input-side description of the block decomposition:
every edge of the graph lies in exactly one block and appears exactly once
in the embedded rotation at each of its two endpoints. -/
def entryCnt (inp : EmbedIn) (b v e : Nat) : Nat :=
  (((lookupBlk inp.blocks b).rot).map (fun p => if p.1 = v then p.2.count e else 0)).sum

/-- Total multiplicity of dart `d` at vertex `v` contributed by all blocks. -/
def totC (inp : EmbedIn) (v : Nat) (d : Dart) : Nat :=
  ((blkIds inp).map (fun b => contrib inp b v d)).sum

/-- The two darts of an edge are its adjacency entries at its two
endpoints. -/
def twinD (d : Dart) : Dart := (d.1, !d.2)

/-- The vertex carrying the adjacency entry: the edge's source for the
forward dart, its target for the backward dart. -/
def vtxOf (g : G2) (d : Dart) : Nat := if d.2 then esrc g d.1 else etgt g d.1

/-- All adjacency entries of the graph, one per edge and direction. -/
def allDarts (g : G2) : List Dart :=
  (edgeIds g).map (fun e => (e, true)) ++ (edgeIds g).map (fun e => (e, false))

/-- Cyclic successor in a rotation list. -/
def dartIdx (l : List Dart) (d : Dart) : Nat :=
  @List.indexOf Dart instBEqOfDecidableEq d l

def cycSucc (l : List Dart) (d : Dart) : Dart :=
  l.getD ((dartIdx l d + 1) % l.length) d

/-- One step of standard face tracing in the rotation system `no`: from an
adjacency entry to the cyclic successor of its twin at the opposite
endpoint. -/
def faceNext (g : G2) (no : Nat → List Dart) (d : Dart) : Dart :=
  cycSucc (no (vtxOf g (twinD d))) (twinD d)

/-- The initial reconstruction state of `doCall`: no block treated, all
rotation lists empty, `*pAdjExternal = nullptr`. -/
def embSt0 : ESt := ⟨[], fun _ => [], none⟩

/-- Two triangles sharing the cut vertex 0 (a bowtie): edge ids 0-5 with
endpoints as listed; blocks 10 and 20. -/
def bwG : G2 := ⟨[(0, 1, 2), (1, 2, 0), (2, 0, 1), (3, 3, 4), (4, 4, 0), (5, 0, 3)]⟩

def bwInp : EmbedIn :=
  ⟨bwG,
   [⟨10, [(0, [1, 2]), (1, [2, 0]), (2, [0, 1])], (2, true)⟩,
    ⟨20, [(0, [4, 5]), (3, [5, 3]), (4, [3, 4])], (3, true)⟩],
   fun v => v == 0,
   fun v => if v = 0 then [10, 20] else [],
   fun _ => 10,
   fun _ _ => 0⟩

/-- Total number of occurrences of edge `e` at vertex `v` over all blocks:
for a BC-decomposition this is 1 at each endpoint of `e` (every edge lies
in exactly one block, and a block embedding lists each block edge once in
the rotation of each endpoint). -/
def totE (inp : EmbedIn) (v e : Nat) : Nat :=
  ((blkIds inp).map (fun b => entryCnt inp b v e)).sum

/-- A complete rotation system: every list entry is a dart of the graph
lying at its vertex, no entry repeats, and every dart of the graph occurs
at its vertex. -/
structure RotOk (g : G2) (no : Nat → List Dart) : Prop where
  edges : ∀ v, ∀ d ∈ no v, d.1 ∈ edgeIds g
  vtx : ∀ v, ∀ d ∈ no v, vtxOf g d = v
  nodup : ∀ v, (no v).Nodup
  cover : ∀ d ∈ allDarts g, d ∈ no (vtxOf g d)

theorem updF_same (f : Nat × Nat → Int) (k : Nat × Nat) (x : Int) : updF f k x k = x := by
  simp [updF]

theorem updF_other (f : Nat × Nat → Int) (k : Nat × Nat) (x : Int) (k2 : Nat × Nat)
    (h : k2 ≠ k) : updF f k x k2 = f k2 := by
  simp [updF, h]

/-- The specification node length of a vertex that is not a child cut vertex is 0. -/
theorem cutsLens_not_mem (o : Oracle) : ∀ (l : List (Nat × List BTree)) (v : Nat),
    ¬ v ∈ l.map Prod.fst → cutsLens o l v = 0
| [], _, _ => rfl
| (v0, bs) :: rest, v, h => by
  have hv : v ≠ v0 := by
    intro hh; exact h (by simp [hh])
  have hr : ¬ v ∈ rest.map Prod.fst := by
    intro hh; exact h (by simp [hh])
  simp [cutsLens, hv, cutsLens_not_mem o rest v hr]

mutual

/-- Frame property of `constraintMaxFace`: tables are modified only at keys
whose block component lies in the processed subtree. -/
theorem cmfB_frame (o : Oracle) : ∀ (t : BTree) (c : Nat) (st : MFState) (k : Nat × Nat),
    ¬ k.1 ∈ t.blockIds →
    (cmfB o t c st).2.nodeLength k = st.nodeLength k ∧
    (cmfB o t c st).2.cstrLength k = st.cstrLength k
| .mk b cuts, c, st, k, hk => by
  have hb : k.1 ≠ b := fun h => hk (by simp [BTree.blockIds, h])
  have hcuts : ¬ k.1 ∈ cutsBlockIds cuts := fun h => hk (by simp [BTree.blockIds, h])
  have h1 := cmfCuts_frame o b cuts st k hcuts (fun h => absurd h hb)
  refine ⟨?_, ?_⟩
  · simpa [cmfB] using h1.1
  · have : k ≠ (b, c) := fun h => hb (by rw [h])
    simp [cmfB, updF_other _ _ _ _ this, h1.2]

theorem cmfCuts_frame (o : Oracle) (b : Nat) :
    ∀ (l : List (Nat × List BTree)) (st : MFState) (k : Nat × Nat),
    ¬ k.1 ∈ cutsBlockIds l → (k.1 = b → ¬ k.2 ∈ l.map Prod.fst) →
    (cmfCuts o b l st).nodeLength k = st.nodeLength k ∧
    (cmfCuts o b l st).cstrLength k = st.cstrLength k
| [], st, k, _, _ => ⟨rfl, rfl⟩
| (v0, bs) :: rest, st, k, hk, hk2 => by
  have hbs : ¬ k.1 ∈ kidsBlockIds bs := fun h => hk (by simp [cutsBlockIds, h])
  have hrest : ¬ k.1 ∈ cutsBlockIds rest := fun h => hk (by simp [cutsBlockIds, h])
  have hk2r : k.1 = b → ¬ k.2 ∈ rest.map Prod.fst := by
    intro h1 h2; exact hk2 h1 (by simp [h2])
  have hkv0 : k ≠ (b, v0) := by
    intro h; exact hk2 (by rw [h]) (by rw [h]; simp)
  have h1 := cmfKids_frame o v0 bs st k hbs
  have h2 := cmfCuts_frame o b rest
    ⟨updF (cmfKids o v0 bs st).2.nodeLength (b, v0) (cmfKids o v0 bs st).1,
     (cmfKids o v0 bs st).2.cstrLength⟩ k hrest hk2r
  refine ⟨?_, ?_⟩
  · simp only [cmfCuts]
    rw [h2.1]
    simpa [updF_other _ _ _ _ hkv0] using h1.1
  · simp only [cmfCuts]
    rw [h2.2]
    exact h1.2

theorem cmfKids_frame (o : Oracle) (v : Nat) : ∀ (l : List BTree) (st : MFState) (k : Nat × Nat),
    ¬ k.1 ∈ kidsBlockIds l →
    (cmfKids o v l st).2.nodeLength k = st.nodeLength k ∧
    (cmfKids o v l st).2.cstrLength k = st.cstrLength k
| [], st, k, _ => ⟨rfl, rfl⟩
| t :: rest, st, k, hk => by
  have ht : ¬ k.1 ∈ t.blockIds := fun h => hk (by simp [kidsBlockIds, h])
  have hrest : ¬ k.1 ∈ kidsBlockIds rest := fun h => hk (by simp [kidsBlockIds, h])
  have h1 := cmfB_frame o t v st k ht
  have h2 := cmfKids_frame o v rest (cmfB o t v st).2 k hrest
  exact ⟨by simp only [cmfKids]; rw [h2.1, h1.1], by simp only [cmfKids]; rw [h2.2, h1.2]⟩

end

mutual

/-- Characterization of `constraintMaxFace`: its result is the functional
specification `cstrSpec`, the final node lengths of block `B` are the
specification lengths, and the result is stored in `cstrLength[(B, c)]`. -/
theorem cmfB_main (o : Oracle) : ∀ (t : BTree) (c : Nat) (st : MFState),
    t.wfb = true → t.blockIds.Nodup → zeroOnL st t.blockIds →
    (cmfB o t c st).1 = cstrSpec o t c ∧
    (∀ v, (cmfB o t c st).2.nodeLength (t.bid, v) =
      (if v ∈ t.cuts.map Prod.fst then cutsLens o t.cuts v else 0)) ∧
    (cmfB o t c st).2.cstrLength (t.bid, c) = (cmfB o t c st).1
| .mk b cuts, c, st, hw, hnd, hz => by
  simp only [BTree.wfb, Bool.and_eq_true, decide_eq_true_eq] at hw
  simp only [BTree.blockIds, List.nodup_cons] at hnd
  have hzc : zeroOnL st (cutsBlockIds cuts) := fun k hk => hz k (by simp [BTree.blockIds, hk])
  have hch := cmfCuts_main o b cuts st hw.2 hw.1 hnd.2 hnd.1 hzc
  have hlens : ∀ v, (cmfCuts o b cuts st).nodeLength (b, v) = cutsLens o cuts v := by
    intro v
    rw [hch v]
    by_cases hv : v ∈ cuts.map Prod.fst
    · simp [hv]
    · simp [hv, cutsLens_not_mem o cuts v hv, hz (b, v) (by simp [BTree.blockIds])]
  refine ⟨?_, ?_, ?_⟩
  · simp only [cmfB, cstrSpec]
    congr 1
    exact funext hlens
  · intro v
    simp only [cmfB, BTree.bid, BTree.cuts]
    rw [hlens v]
    by_cases hv : v ∈ cuts.map Prod.fst
    · simp [hv]
    · simp [hv, cutsLens_not_mem o cuts v hv]
  · simp [cmfB, BTree.bid, updF_same]

theorem cmfCuts_main (o : Oracle) (b : Nat) : ∀ (l : List (Nat × List BTree)) (st : MFState),
    cutsWfb l = true → (l.map Prod.fst).Nodup → (cutsBlockIds l).Nodup →
    ¬ b ∈ cutsBlockIds l → zeroOnL st (cutsBlockIds l) →
    ∀ v, (cmfCuts o b l st).nodeLength (b, v) =
      (if v ∈ l.map Prod.fst then cutsLens o l v else st.nodeLength (b, v))
| [], st, _, _, _, _, _, v => by simp [cmfCuts, cutsLens]
| (v0, bs) :: rest, st, hw, hf, hnd, hb, hz, v => by
  simp only [cutsWfb, Bool.and_eq_true] at hw
  simp only [List.map_cons, List.nodup_cons] at hf
  simp only [cutsBlockIds, List.nodup_append] at hnd
  have hbk : ¬ b ∈ kidsBlockIds bs := fun h => hb (by simp [cutsBlockIds, h])
  have hbr : ¬ b ∈ cutsBlockIds rest := fun h => hb (by simp [cutsBlockIds, h])
  have hzk : zeroOnL st (kidsBlockIds bs) := fun k hk => hz k (by simp [cutsBlockIds, hk])
  have hkids := cmfKids_main o v0 bs st hw.1 hnd.1 hzk
  have hz2 : zeroOnL ⟨updF (cmfKids o v0 bs st).2.nodeLength (b, v0) (cmfKids o v0 bs st).1,
      (cmfKids o v0 bs st).2.cstrLength⟩ (cutsBlockIds rest) := by
    intro k hk
    have hkb : k ≠ (b, v0) := by
      intro h; rw [h] at hk; exact hbr hk
    have hkk : ¬ k.1 ∈ kidsBlockIds bs := fun h => hnd.2.2 h hk
    show updF _ (b, v0) _ k = 0
    rw [updF_other _ _ _ _ hkb]
    rw [(cmfKids_frame o v0 bs st k hkk).1]
    exact hz k (by simp [cutsBlockIds, hk])
  have hrec := cmfCuts_main o b rest _ hw.2 hf.2 hnd.2.1 hbr hz2
  simp only [cmfCuts]
  rw [hrec v]
  by_cases hvr : v ∈ rest.map Prod.fst
  · have hvv0 : v ≠ v0 := fun h => hf.1 (h ▸ hvr)
    simp [hvr, hvv0, cutsLens]
  · by_cases hvv0 : v = v0
    · subst hvv0
      simp only [hvr, if_false]
      show updF _ (b, v) _ (b, v) = _
      rw [updF_same]
      simp [cutsLens, hkids]
    · simp only [hvr, if_false]
      show updF _ (b, v0) _ (b, v) = _
      rw [updF_other _ _ _ _ (by simp [hvv0])]
      rw [(cmfKids_frame o v0 bs st (b, v) hbk).1]
      simp [hvv0, hvr, cutsLens]

theorem cmfKids_main (o : Oracle) (v : Nat) : ∀ (l : List BTree) (st : MFState),
    kidsWfb v l = true → (kidsBlockIds l).Nodup → zeroOnL st (kidsBlockIds l) →
    (cmfKids o v l st).1 = kidsSum o v l
| [], st, _, _, _ => rfl
| t :: rest, st, hw, hnd, hz => by
  simp only [kidsWfb, Bool.and_eq_true] at hw
  simp only [kidsBlockIds, List.nodup_append] at hnd
  have hzt : zeroOnL st t.blockIds := fun k hk => hz k (by simp [kidsBlockIds, hk])
  have h1 := cmfB_main o t v st hw.1.2 hnd.1 hzt
  have hz2 : zeroOnL (cmfB o t v st).2 (kidsBlockIds rest) := by
    intro k hk
    have hkt : ¬ k.1 ∈ t.blockIds := fun h => hnd.2.2 h hk
    rw [(cmfB_frame o t v st k hkt).1]
    exact hz k (by simp [kidsBlockIds, hk])
  have h2 := cmfKids_main o v rest (cmfB o t v st).2 hw.2 hnd.2.1 hz2
  simp [cmfKids, kidsSum, h1.1, h2]

end

mutual

/-- Frame property of `mf_constraintMaxFace`: tables are modified only at keys
whose block component lies in the processed subtree. -/
theorem mfCmfB_frame (o : Oracle) : ∀ (t : BTree) (c : Nat) (st : MFState) (k : Nat × Nat),
    ¬ k.1 ∈ t.blockIds →
    (mfCmfB o t c st).2.nodeLength k = st.nodeLength k ∧
    (mfCmfB o t c st).2.cstrLength k = st.cstrLength k
| .mk b cuts, c, st, k, hk => by
  have hb : k.1 ≠ b := fun h => hk (by simp [BTree.blockIds, h])
  have hcuts : ¬ k.1 ∈ cutsBlockIds cuts := fun h => hk (by simp [BTree.blockIds, h])
  have h1 := mfCmfCuts_frame o b cuts st k hcuts (fun h => absurd h hb)
  have hkbc : k ≠ (b, c) := fun h => hb (by rw [h])
  refine ⟨?_, ?_⟩
  · simp only [mfCmfB]
    rw [updF_other _ _ _ _ hkbc]
    exact h1.1
  · simp only [mfCmfB]
    rw [updF_other _ _ _ _ hkbc]
    exact h1.2

theorem mfCmfCuts_frame (o : Oracle) (b : Nat) :
    ∀ (l : List (Nat × List BTree)) (st : MFState) (k : Nat × Nat),
    ¬ k.1 ∈ cutsBlockIds l → (k.1 = b → ¬ k.2 ∈ l.map Prod.fst) →
    (mfCmfCuts o b l st).nodeLength k = st.nodeLength k ∧
    (mfCmfCuts o b l st).cstrLength k = st.cstrLength k
| [], st, k, _, _ => ⟨rfl, rfl⟩
| (v0, bs) :: rest, st, k, hk, hk2 => by
  have hbs : ¬ k.1 ∈ kidsBlockIds bs := fun h => hk (by simp [cutsBlockIds, h])
  have hrest : ¬ k.1 ∈ cutsBlockIds rest := fun h => hk (by simp [cutsBlockIds, h])
  have hk2r : k.1 = b → ¬ k.2 ∈ rest.map Prod.fst := by
    intro h1 h2; exact hk2 h1 (by simp [h2])
  have hkv0 : k ≠ (b, v0) := by
    intro h; exact hk2 (by rw [h]) (by rw [h]; simp)
  have h1 := mfCmfKids_frame o v0 bs st k hbs
  have h2 := mfCmfCuts_frame o b rest
    ⟨updF (mfCmfKids o v0 bs st).2.nodeLength (b, v0) (mfCmfKids o v0 bs st).1,
     (mfCmfKids o v0 bs st).2.cstrLength⟩ k hrest hk2r
  refine ⟨?_, ?_⟩
  · simp only [mfCmfCuts]
    rw [h2.1]
    simpa [updF_other _ _ _ _ hkv0] using h1.1
  · simp only [mfCmfCuts]
    rw [h2.2]
    exact h1.2

theorem mfCmfKids_frame (o : Oracle) (v : Nat) :
    ∀ (l : List BTree) (st : MFState) (k : Nat × Nat),
    ¬ k.1 ∈ kidsBlockIds l →
    (mfCmfKids o v l st).2.nodeLength k = st.nodeLength k ∧
    (mfCmfKids o v l st).2.cstrLength k = st.cstrLength k
| [], st, k, _ => ⟨rfl, rfl⟩
| t :: rest, st, k, hk => by
  have ht : ¬ k.1 ∈ t.blockIds := fun h => hk (by simp [kidsBlockIds, h])
  have hrest : ¬ k.1 ∈ kidsBlockIds rest := fun h => hk (by simp [kidsBlockIds, h])
  have h1 := mfCmfB_frame o t v st k ht
  have h2 := mfCmfKids_frame o v rest (mfCmfB o t v st).2 k hrest
  exact ⟨by simp only [mfCmfKids]; rw [h2.1, h1.1], by simp only [mfCmfKids]; rw [h2.2, h1.2]⟩

end

mutual

/-- Characterization of `mf_constraintMaxFace`: same as `constraintMaxFace`
(the explicit `mf_nodeLength[cH] = 0` assignment writes a value that is
already 0, since the anchor is not a child cut vertex of the block). -/
theorem mfCmfB_main (o : Oracle) : ∀ (t : BTree) (c : Nat) (st : MFState),
    t.wfb = true → t.blockIds.Nodup → zeroOnL st t.blockIds →
    ¬ c ∈ t.cuts.map Prod.fst →
    (mfCmfB o t c st).1 = cstrSpec o t c ∧
    (∀ v, (mfCmfB o t c st).2.nodeLength (t.bid, v) =
      (if v ∈ t.cuts.map Prod.fst then cutsLens o t.cuts v else 0)) ∧
    (mfCmfB o t c st).2.cstrLength (t.bid, c) = (mfCmfB o t c st).1
| .mk b cuts, c, st, hw, hnd, hz, hc => by
  simp only [BTree.cuts] at hc
  simp only [BTree.wfb, Bool.and_eq_true, decide_eq_true_eq] at hw
  simp only [BTree.blockIds, List.nodup_cons] at hnd
  have hzc : zeroOnL st (cutsBlockIds cuts) := fun k hk => hz k (by simp [BTree.blockIds, hk])
  have hch := mfCmfCuts_main o b cuts st hw.2 hw.1 hnd.2 hnd.1 hzc
  have hlens : ∀ v, updF (mfCmfCuts o b cuts st).nodeLength (b, c) 0 (b, v) = cutsLens o cuts v := by
    intro v
    by_cases hvc : v = c
    · subst hvc
      rw [updF_same]
      exact (cutsLens_not_mem o cuts v hc).symm
    · rw [updF_other _ _ _ _ (by simp [hvc])]
      rw [hch v]
      by_cases hv : v ∈ cuts.map Prod.fst
      · simp [hv]
      · simp [hv, cutsLens_not_mem o cuts v hv, hz (b, v) (by simp [BTree.blockIds])]
  refine ⟨?_, ?_, ?_⟩
  · simp only [mfCmfB, cstrSpec]
    congr 1
    exact funext hlens
  · intro v
    simp only [mfCmfB, BTree.bid, BTree.cuts]
    rw [hlens v]
    by_cases hv : v ∈ cuts.map Prod.fst
    · simp [hv]
    · simp [hv, cutsLens_not_mem o cuts v hv]
  · simp [mfCmfB, BTree.bid, updF_same]

theorem mfCmfCuts_main (o : Oracle) (b : Nat) : ∀ (l : List (Nat × List BTree)) (st : MFState),
    cutsWfb l = true → (l.map Prod.fst).Nodup → (cutsBlockIds l).Nodup →
    ¬ b ∈ cutsBlockIds l → zeroOnL st (cutsBlockIds l) →
    ∀ v, (mfCmfCuts o b l st).nodeLength (b, v) =
      (if v ∈ l.map Prod.fst then cutsLens o l v else st.nodeLength (b, v))
| [], st, _, _, _, _, _, v => by simp [mfCmfCuts, cutsLens]
| (v0, bs) :: rest, st, hw, hf, hnd, hb, hz, v => by
  simp only [cutsWfb, Bool.and_eq_true] at hw
  simp only [List.map_cons, List.nodup_cons] at hf
  simp only [cutsBlockIds, List.nodup_append] at hnd
  have hbk : ¬ b ∈ kidsBlockIds bs := fun h => hb (by simp [cutsBlockIds, h])
  have hbr : ¬ b ∈ cutsBlockIds rest := fun h => hb (by simp [cutsBlockIds, h])
  have hzk : zeroOnL st (kidsBlockIds bs) := fun k hk => hz k (by simp [cutsBlockIds, hk])
  have hkids := mfCmfKids_main o v0 bs st hw.1 hnd.1 hzk
  have hz2 : zeroOnL ⟨updF (mfCmfKids o v0 bs st).2.nodeLength (b, v0) (mfCmfKids o v0 bs st).1,
      (mfCmfKids o v0 bs st).2.cstrLength⟩ (cutsBlockIds rest) := by
    intro k hk
    have hkb : k ≠ (b, v0) := by
      intro h; rw [h] at hk; exact hbr hk
    have hkk : ¬ k.1 ∈ kidsBlockIds bs := fun h => hnd.2.2 h hk
    show updF _ (b, v0) _ k = 0
    rw [updF_other _ _ _ _ hkb]
    rw [(mfCmfKids_frame o v0 bs st k hkk).1]
    exact hz k (by simp [cutsBlockIds, hk])
  have hrec := mfCmfCuts_main o b rest _ hw.2 hf.2 hnd.2.1 hbr hz2
  simp only [mfCmfCuts]
  rw [hrec v]
  by_cases hvr : v ∈ rest.map Prod.fst
  · have hvv0 : v ≠ v0 := fun h => hf.1 (h ▸ hvr)
    simp [hvr, hvv0, cutsLens]
  · by_cases hvv0 : v = v0
    · subst hvv0
      simp only [hvr, if_false]
      show updF _ (b, v) _ (b, v) = _
      rw [updF_same]
      simp [cutsLens, hkids]
    · simp only [hvr, if_false]
      show updF _ (b, v0) _ (b, v) = _
      rw [updF_other _ _ _ _ (by simp [hvv0])]
      rw [(mfCmfKids_frame o v0 bs st (b, v) hbk).1]
      simp [hvv0, hvr, cutsLens]

theorem mfCmfKids_main (o : Oracle) (v : Nat) : ∀ (l : List BTree) (st : MFState),
    kidsWfb v l = true → (kidsBlockIds l).Nodup → zeroOnL st (kidsBlockIds l) →
    (mfCmfKids o v l st).1 = kidsSum o v l
| [], st, _, _, _ => rfl
| t :: rest, st, hw, hnd, hz => by
  simp only [kidsWfb, Bool.and_eq_true, Bool.not_eq_true'] at hw
  have hcv : ¬ v ∈ t.cuts.map Prod.fst := by
    have := hw.1.1
    simpa using this
  simp only [kidsBlockIds, List.nodup_append] at hnd
  have hzt : zeroOnL st t.blockIds := fun k hk => hz k (by simp [kidsBlockIds, hk])
  have h1 := mfCmfB_main o t v st hw.1.2 hnd.1 hzt hcv
  have hz2 : zeroOnL (mfCmfB o t v st).2 (kidsBlockIds rest) := by
    intro k hk
    have hkt : ¬ k.1 ∈ t.blockIds := fun h => hnd.2.2 h hk
    rw [(mfCmfB_frame o t v st k hkt).1]
    exact hz k (by simp [kidsBlockIds, hk])
  have h2 := mfCmfKids_main o v rest (mfCmfB o t v st).2 hw.2 hnd.2.1 hz2
  simp [mfCmfKids, kidsSum, h1.1, h2]

end

theorem kidsSum_eq_map_sum (o : Oracle) (v : Nat) : ∀ (l : List BTree),
    kidsSum o v l = (l.map (fun tB => cstrSpec o tB v)).sum
| [] => rfl
| t :: rest => by simp [kidsSum, kidsSum_eq_map_sum o v rest]

/-- For a child cut vertex, the specification lens is the subtree sum of its
child blocks. -/
theorem cutsLens_mem (o : Oracle) : ∀ (l : List (Nat × List BTree)) (v : Nat) (bs : List BTree),
    (l.map Prod.fst).Nodup → (v, bs) ∈ l → cutsLens o l v = kidsSum o v bs
| [], _, _, _, h => absurd h (List.not_mem_nil _)
| (v0, bs0) :: rest, v, bs, hnd, hmem => by
  simp only [List.map_cons, List.nodup_cons] at hnd
  rcases List.mem_cons.mp hmem with h | h
  · rw [Prod.mk.injEq] at h
    simp [cutsLens, h.1, h.2]
  · have hv : v ≠ v0 := by
      intro hh
      subst hh
      exact hnd.1 (List.mem_map.mpr ⟨(v, bs), h, rfl⟩)
    simp [cutsLens, hv, cutsLens_mem o rest v bs hnd.2 h]

theorem cutsWfb_mem : ∀ (l : List (Nat × List BTree)) (v : Nat) (bs : List BTree),
    cutsWfb l = true → (v, bs) ∈ l → kidsWfb v bs = true
| [], _, _, _, h => absurd h (List.not_mem_nil _)
| (v0, bs0) :: rest, v, bs, hw, hmem => by
  simp only [cutsWfb, Bool.and_eq_true] at hw
  rcases List.mem_cons.mp hmem with h | h
  · rw [Prod.mk.injEq] at h
    rw [h.1, h.2]
    exact hw.1
  · exact cutsWfb_mem rest v bs hw.2 h

theorem kidsWfb_mem (v : Nat) : ∀ (l : List BTree) (tB : BTree),
    kidsWfb v l = true → tB ∈ l →
    tB.wfb = true ∧ ¬ v ∈ tB.cuts.map Prod.fst
| [], _, _, h => absurd h (List.not_mem_nil _)
| t :: rest, tB, hw, hmem => by
  simp only [kidsWfb, Bool.and_eq_true, Bool.not_eq_true'] at hw
  rcases List.mem_cons.mp hmem with h | h
  · subst h
    refine ⟨hw.1.2, ?_⟩
    have := hw.1.1
    simpa using this
  · exact kidsWfb_mem v rest tB hw.2 h

theorem kidsBlockIds_sublist : ∀ (l : List BTree) (tB : BTree), tB ∈ l →
    tB.blockIds.Sublist (kidsBlockIds l)
| [], _, h => absurd h (List.not_mem_nil _)
| t :: rest, tB, hmem => by
  rcases List.mem_cons.mp hmem with h | h
  · subst h
    simpa [kidsBlockIds] using List.sublist_append_left tB.blockIds (kidsBlockIds rest)
  · exact (kidsBlockIds_sublist rest tB h).trans
      (by simpa [kidsBlockIds] using List.sublist_append_right t.blockIds (kidsBlockIds rest))

theorem cutsBlockIds_sublist : ∀ (l : List (Nat × List BTree)) (v : Nat) (bs : List BTree),
    (v, bs) ∈ l → (kidsBlockIds bs).Sublist (cutsBlockIds l)
| [], _, _, h => absurd h (List.not_mem_nil _)
| (v0, bs0) :: rest, v, bs, hmem => by
  rcases List.mem_cons.mp hmem with h | h
  · rw [Prod.mk.injEq] at h
    rw [h.2]
    simpa [cutsBlockIds] using List.sublist_append_left (kidsBlockIds bs0) (cutsBlockIds rest)
  · exact (cutsBlockIds_sublist rest v bs h).trans
      (by simpa [cutsBlockIds] using
        List.sublist_append_right (kidsBlockIds bs0) (cutsBlockIds rest))

/-- The block ids of a child block form a sublist of the whole tree's block ids. -/
theorem blockIds_sub (t : BTree) (v : Nat) (bs : List BTree) (tB : BTree)
    (hcut : (v, bs) ∈ t.cuts) (htB : tB ∈ bs) : tB.blockIds.Sublist t.blockIds := by
  have h1 := kidsBlockIds_sublist bs tB htB
  have h2 := cutsBlockIds_sublist t.cuts v bs hcut
  have h3 : (cutsBlockIds t.cuts).Sublist t.blockIds := by
    cases t with
    | mk b cuts => simpa [BTree.blockIds, BTree.cuts] using (List.sublist_cons_self b _)
  exact (h1.trans h2).trans h3

/-- C3: in every call of the bottom-up pass `constraintMaxFace(B, c)`
(EmbedderMaxFace::constraintMaxFace — first conjunct — and
EmbedderMinDepthMaxFaceLayers::mf_constraintMaxFace — second conjunct), the
face-size oracle is invoked anchored at the block-graph copy of `c` with
every edge length 1, node length 0 for the anchor `c`, and the node length
of every child cut vertex `v` of `B` equal to the sum of the recursive
`constraintMaxFace(B', v)` values over the child blocks `B'` attached at
`v`; the oracle's returned value is stored in `cstrLength` for `(B, c)` and
returned as the result of the call. -/
theorem C3_constraint_max_face_oracle_call
    (o : Oracle) (t : BTree) (c : Nat) (st : MFState)
    (hw : t.wfb = true) (hnd : t.blockIds.Nodup) (hc : ¬ c ∈ t.cuts.map Prod.fst)
    (hz : zeroOnL st t.blockIds) :
    ((cmfB o t c st).1 = o t.bid (some c) (cutsLens o t.cuts) (fun _ => 1) ∧
     (cmfB o t c st).2.cstrLength (t.bid, c) = (cmfB o t c st).1 ∧
     cutsLens o t.cuts c = 0 ∧
     ∀ v bs, (v, bs) ∈ t.cuts →
       cutsLens o t.cuts v = (bs.map (fun tB => (cmfB o tB v st).1)).sum) ∧
    ((mfCmfB o t c st).1 = o t.bid (some c) (cutsLens o t.cuts) (fun _ => 1) ∧
     (mfCmfB o t c st).2.cstrLength (t.bid, c) = (mfCmfB o t c st).1 ∧
     ∀ v bs, (v, bs) ∈ t.cuts →
       cutsLens o t.cuts v = (bs.map (fun tB => (mfCmfB o tB v st).1)).sum) := by
  have hspec : cstrSpec o t c = o t.bid (some c) (cutsLens o t.cuts) (fun _ => 1) := by
    cases t with
    | mk b cuts => rfl
  have hfst : (t.cuts.map Prod.fst).Nodup ∧ cutsWfb t.cuts = true := by
    cases t with
    | mk b cuts =>
      simpa [BTree.wfb, Bool.and_eq_true, decide_eq_true_eq, BTree.cuts] using hw
  have hsub : ∀ v bs tB, (v, bs) ∈ t.cuts → tB ∈ bs →
      tB.wfb = true ∧ ¬ v ∈ tB.cuts.map Prod.fst ∧ tB.blockIds.Nodup ∧
      zeroOnL st tB.blockIds := by
    intro v bs tB hcut htB
    have hkw := cutsWfb_mem t.cuts v bs hfst.2 hcut
    have hww := kidsWfb_mem v bs tB hkw htB
    have hsl := blockIds_sub t v bs tB hcut htB
    exact ⟨hww.1, hww.2, hnd.sublist hsl,
      fun k hk => hz k (hsl.subset hk)⟩
  have hm1 := cmfB_main o t c st hw hnd hz
  have hm2 := mfCmfB_main o t c st hw hnd hz hc
  have hlensv : ∀ v bs, (v, bs) ∈ t.cuts →
      cutsLens o t.cuts v = (bs.map (fun tB => cstrSpec o tB v)).sum := by
    intro v bs hcut
    rw [cutsLens_mem o t.cuts v bs hfst.1 hcut, kidsSum_eq_map_sum]
  refine ⟨⟨?_, hm1.2.2, cutsLens_not_mem o t.cuts c hc, ?_⟩, ⟨?_, hm2.2.2, ?_⟩⟩
  · rw [hm1.1, hspec]
  · intro v bs hcut
    rw [hlensv v bs hcut]
    congr 1
    refine List.map_congr_left ?_
    intro tB htB
    have h := hsub v bs tB hcut htB
    exact ((cmfB_main o tB v st h.1 h.2.2.1 h.2.2.2).1).symm
  · rw [hm2.1, hspec]
  · intro v bs hcut
    rw [hlensv v bs hcut]
    congr 1
    refine List.map_congr_left ?_
    intro tB htB
    have h := hsub v bs tB hcut htB
    exact ((mfCmfB_main o tB v st h.1 h.2.2.1 h.2.2.2 h.2.1).1).symm

/-- Witness for C3: a concrete three-block BC-tree, a concrete oracle, the
all-zero initial tables and anchor 9, with all hypotheses discharged. -/
theorem C3_constraint_max_face_oracle_call_witness :
    (exT.wfb = true ∧ exT.blockIds.Nodup ∧ ¬ (9 : Nat) ∈ (exT.cuts.map Prod.fst) ∧
     zeroOnL mfZero exT.blockIds) ∧
    (cmfB exO exT 9 mfZero).1 = exO exT.bid (some 9) (cutsLens exO exT.cuts) (fun _ => 1) ∧
    (mfCmfB exO exT 9 mfZero).1 = exO exT.bid (some 9) (cutsLens exO exT.cuts) (fun _ => 1) := by
  have h := C3_constraint_max_face_oracle_call exO exT 9 mfZero
    (by decide) (by decide) (by decide) (fun k _ => rfl)
  exact ⟨⟨by decide, by decide, by decide, fun k _ => rfl⟩, h.1.1, h.2.1⟩

theorem tdCand_cands (b : Nat) (ell : Int) (st : TDState) :
    (tdCand b ell st).cands = st.cands ++ [(b, ell)] := rfl

mutual

/-- The candidate trace of `maximumFaceRec`: the call appends its own
candidate and those of the recursion, the returned `ell_opt` bounds all of
them, and the returned pair is one of them. -/
theorem mfrB_cands (o : Oracle) : ∀ (t : BTree) (st : TDState),
    ∃ lnew, (mfrB o t st).2.cands = st.cands ++ lnew ∧
      (∀ c ∈ lnew, c.2 ≤ (mfrB o t st).1.2) ∧
      (mfrB o t st).1 ∈ lnew
| .mk b cuts, st => by
  obtain ⟨ln, h1, h2, h3, h4⟩ :=
    mfrCuts_cands o b cuts (b, tdEll o b st) (tdCand b (tdEll o b st) st)
  simp only [mfrB]
  refine ⟨(b, tdEll o b st) :: ln, ?_, ?_, ?_⟩
  · rw [h1, tdCand_cands]
    simp
  · intro c hc
    rcases List.mem_cons.mp hc with h | h
    · exact h ▸ h4
    · exact h2 c h
  · rcases h3 with h | h
    · rw [h]
      exact List.mem_cons_self _ _
    · exact List.mem_cons_of_mem _ h

theorem mfrCuts_cands (o : Oracle) (b : Nat) :
    ∀ (l : List (Nat × List BTree)) (acc : Nat × Int) (st : TDState),
    ∃ lnew, (mfrCuts o b l acc st).2.cands = st.cands ++ lnew ∧
      (∀ c ∈ lnew, c.2 ≤ (mfrCuts o b l acc st).1.2) ∧
      ((mfrCuts o b l acc st).1 = acc ∨ (mfrCuts o b l acc st).1 ∈ lnew) ∧
      acc.2 ≤ (mfrCuts o b l acc st).1.2
| [], acc, st => ⟨[], by simp [mfrCuts], by simp, Or.inl rfl, le_refl _⟩
| (v, bs) :: rest, acc, st => by
  obtain ⟨ln1, g1, g2, g3, g4⟩ := mfrKids_cands o b v
    ((tdRecompute o b v st).cstrLength (b, v)) bs acc (tdRecompute o b v st)
  obtain ⟨ln2, h1, h2, h3, h4⟩ := mfrCuts_cands o b rest
    (mfrKids o b v ((tdRecompute o b v st).cstrLength (b, v)) bs acc (tdRecompute o b v st)).1
    (mfrKids o b v ((tdRecompute o b v st).cstrLength (b, v)) bs acc (tdRecompute o b v st)).2
  simp only [mfrCuts]
  refine ⟨ln1 ++ ln2, ?_, ?_, ?_, ?_⟩
  · rw [h1, g1]
    simp [tdRecompute]
  · intro c hc
    rcases List.mem_append.mp hc with h | h
    · exact le_trans (g2 c h) h4
    · exact h2 c h
  · rcases h3 with h | h
    · rcases g3 with g | g
      · exact Or.inl (h.trans g)
      · exact Or.inr (List.mem_append.mpr (Or.inl (by rw [h]; exact g)))
    · exact Or.inr (List.mem_append.mpr (Or.inr h))
  · exact le_trans g4 h4

theorem mfrKids_cands (o : Oracle) (b : Nat) (v : Nat) (L : Int) :
    ∀ (l : List BTree) (acc : Nat × Int) (st : TDState),
    ∃ lnew, (mfrKids o b v L l acc st).2.cands = st.cands ++ lnew ∧
      (∀ c ∈ lnew, c.2 ≤ (mfrKids o b v L l acc st).1.2) ∧
      ((mfrKids o b v L l acc st).1 = acc ∨ (mfrKids o b v L l acc st).1 ∈ lnew) ∧
      acc.2 ≤ (mfrKids o b v L l acc st).1.2
| [], acc, st => ⟨[], by simp [mfrKids], by simp, Or.inl rfl, le_refl _⟩
| t :: rest, acc, st => by
  obtain ⟨ln1, g1, g2, g3⟩ := mfrB_cands o t (tdAssign b v L t.bid st)
  obtain ⟨ln2, h1, h2, h3, h4⟩ := mfrKids_cands o b v L rest
    (if (mfrB o t (tdAssign b v L t.bid st)).1.2 > acc.2
      then (mfrB o t (tdAssign b v L t.bid st)).1 else acc)
    (mfrB o t (tdAssign b v L t.bid st)).2
  have hacc2 : acc.2 ≤ (if (mfrB o t (tdAssign b v L t.bid st)).1.2 > acc.2
      then (mfrB o t (tdAssign b v L t.bid st)).1 else acc).2 := by
    split
    · exact le_of_lt (by assumption)
    · exact le_refl _
  have hcand2 : (mfrB o t (tdAssign b v L t.bid st)).1.2 ≤
      (if (mfrB o t (tdAssign b v L t.bid st)).1.2 > acc.2
        then (mfrB o t (tdAssign b v L t.bid st)).1 else acc).2 := by
    split
    · exact le_refl _
    · exact le_of_not_lt (by assumption)
  simp only [mfrKids]
  refine ⟨ln1 ++ ln2, ?_, ?_, ?_, ?_⟩
  · rw [h1, g1]
    simp [tdAssign]
  · intro c hc
    rcases List.mem_append.mp hc with h | h
    · exact le_trans (g2 c h) (le_trans hcand2 h4)
    · exact h2 c h
  · rcases h3 with h | h
    · by_cases hgt : (mfrB o t (tdAssign b v L t.bid st)).1.2 > acc.2
      · refine Or.inr (List.mem_append.mpr (Or.inl ?_))
        rw [h]
        simp only [hgt, if_pos]
        exact g3
      · refine Or.inl ?_
        rw [h]
        simp [hgt]
    · exact Or.inr (List.mem_append.mpr (Or.inr h))
  · exact le_trans hacc2 h4

end

theorem tdRecompute_cstr_other (o : Oracle) (b : Nat) (v : Nat) (st : TDState)
    (k : Nat × Nat) (h : k ≠ (b, v)) :
    (tdRecompute o b v st).cstrLength k = st.cstrLength k := by
  simp [tdRecompute, updF, h]

theorem tdAssign_cstr (b : Nat) (v : Nat) (L : Int) (pB : Nat) (st : TDState) :
    (tdAssign b v L pB st).cstrLength = st.cstrLength := rfl

mutual

/-- Frame property of the top-down pass on `cstrLength`: entries outside the
processed subtree (and outside the current block's child-cut row) are
unchanged. -/
theorem mfrB_cfr (o : Oracle) : ∀ (t : BTree) (st : TDState) (k : Nat × Nat),
    ¬ k.1 ∈ t.blockIds → (mfrB o t st).2.cstrLength k = st.cstrLength k
| .mk b cuts, st, k, hk => by
  have hb : k.1 ≠ b := fun h => hk (by simp [BTree.blockIds, h])
  have hcuts : ¬ k.1 ∈ cutsBlockIds cuts := fun h => hk (by simp [BTree.blockIds, h])
  simp only [mfrB]
  exact mfrCuts_cfr o b cuts (b, tdEll o b st) (tdCand b (tdEll o b st) st) k hcuts
    (fun h => absurd h hb)

theorem mfrCuts_cfr (o : Oracle) (b : Nat) :
    ∀ (l : List (Nat × List BTree)) (acc : Nat × Int) (st : TDState) (k : Nat × Nat),
    ¬ k.1 ∈ cutsBlockIds l → (k.1 = b → ¬ k.2 ∈ l.map Prod.fst) →
    (mfrCuts o b l acc st).2.cstrLength k = st.cstrLength k
| [], acc, st, k, _, _ => rfl
| (v, bs) :: rest, acc, st, k, hk, hk2 => by
  have hbs : ¬ k.1 ∈ kidsBlockIds bs := fun h => hk (by simp [cutsBlockIds, h])
  have hrest : ¬ k.1 ∈ cutsBlockIds rest := fun h => hk (by simp [cutsBlockIds, h])
  have hk2r : k.1 = b → ¬ k.2 ∈ rest.map Prod.fst := by
    intro h1 h2; exact hk2 h1 (by simp [h2])
  have hkv : k ≠ (b, v) := by
    intro h; exact hk2 (by rw [h]) (by rw [h]; simp)
  simp only [mfrCuts]
  rw [mfrCuts_cfr o b rest _ _ k hrest hk2r]
  rw [mfrKids_cfr o b v _ bs _ (tdRecompute o b v st) k hbs]
  exact tdRecompute_cstr_other o b v st k hkv

theorem mfrKids_cfr (o : Oracle) (b : Nat) (v : Nat) (L : Int) :
    ∀ (l : List BTree) (acc : Nat × Int) (st : TDState) (k : Nat × Nat),
    ¬ k.1 ∈ kidsBlockIds l →
    (mfrKids o b v L l acc st).2.cstrLength k = st.cstrLength k
| [], acc, st, k, _ => rfl
| t :: rest, acc, st, k, hk => by
  have ht : ¬ k.1 ∈ t.blockIds := fun h => hk (by simp [kidsBlockIds, h])
  have hrest : ¬ k.1 ∈ kidsBlockIds rest := fun h => hk (by simp [kidsBlockIds, h])
  simp only [mfrKids]
  rw [mfrKids_cfr o b v L rest _ _ k hrest]
  rw [mfrB_cfr o t (tdAssign b v L t.bid st) k ht]
  rfl

end

/-- The top-down pass does not modify `cstrLength` on the current block's
row outside its child-cut entries. -/
theorem mfrB_row_cfr (o : Oracle) (t : BTree) (st : TDState) (w : Nat)
    (hnd : t.blockIds.Nodup) (hw : ¬ w ∈ t.cuts.map Prod.fst) :
    (mfrB o t st).2.cstrLength (t.bid, w) = st.cstrLength (t.bid, w) := by
  cases t with
  | mk b cuts =>
    simp only [BTree.blockIds, List.nodup_cons] at hnd
    simp only [BTree.cuts] at hw
    simp only [mfrB, BTree.bid]
    exact mfrCuts_cfr o b cuts _ _ (b, w) hnd.1 (fun _ => hw)

theorem bid_mem_blockIds (t : BTree) : t.bid ∈ t.blockIds := by
  cases t with
  | mk b cuts => simp [BTree.bid, BTree.blockIds]

mutual

/-- Event trace of `maximumFaceRec`: every reassignment event
`(B, c, B'', value)` recorded during the recursion satisfies
`value = cstrLength(B, c) - cstrLength(B'', c)` in the final tables — i.e.
the `L` used by the source equals the recomputed `cstrLength(B, c)` of the
current block itself (the one tree edge leaving the C-node of `c` goes to
`B`). -/
theorem mfrB_ev (o : Oracle) : ∀ (t : BTree) (st : TDState),
    t.wfb = true → t.blockIds.Nodup →
    ∃ lnew, (mfrB o t st).2.events = st.events ++ lnew ∧
      ∀ ev ∈ lnew, ev.1 ∈ t.blockIds ∧ ev.2.2.1 ∈ t.blockIds ∧
        (mfrB o t st).2.cstrLength (ev.1, ev.2.1)
          - (mfrB o t st).2.cstrLength (ev.2.2.1, ev.2.1) = ev.2.2.2
| .mk b cuts, st, hw, hnd => by
  simp only [BTree.wfb, Bool.and_eq_true, decide_eq_true_eq] at hw
  simp only [BTree.blockIds, List.nodup_cons] at hnd
  obtain ⟨lnew, h1, h2⟩ := mfrCuts_ev o b cuts (b, tdEll o b st)
    (tdCand b (tdEll o b st) st) hw.2 hw.1 hnd.2 hnd.1
  simp only [mfrB]
  refine ⟨lnew, h1, ?_⟩
  intro ev hev
  obtain ⟨hkey, hrel⟩ := h2 ev hev
  refine ⟨?_, ?_, hrel⟩
  · rcases hkey with ⟨h, _, _⟩ | ⟨h, _⟩
    · rw [h]; simp [BTree.blockIds]
    · simp [BTree.blockIds, h]
  · rcases hkey with ⟨_, _, h⟩ | ⟨_, h⟩
    · simp [BTree.blockIds, h]
    · simp [BTree.blockIds, h]

theorem mfrCuts_ev (o : Oracle) (b : Nat) :
    ∀ (l : List (Nat × List BTree)) (acc : Nat × Int) (st : TDState),
    cutsWfb l = true → (l.map Prod.fst).Nodup → (cutsBlockIds l).Nodup →
    ¬ b ∈ cutsBlockIds l →
    ∃ lnew, (mfrCuts o b l acc st).2.events = st.events ++ lnew ∧
      ∀ ev ∈ lnew,
        ((ev.1 = b ∧ ev.2.1 ∈ l.map Prod.fst ∧ ev.2.2.1 ∈ cutsBlockIds l) ∨
          (ev.1 ∈ cutsBlockIds l ∧ ev.2.2.1 ∈ cutsBlockIds l)) ∧
        (mfrCuts o b l acc st).2.cstrLength (ev.1, ev.2.1)
          - (mfrCuts o b l acc st).2.cstrLength (ev.2.2.1, ev.2.1) = ev.2.2.2
| [], acc, st, _, _, _, _ => ⟨[], by simp [mfrCuts], by simp⟩
| (v, bs) :: rest, acc, st, hw, hf, hnd, hb => by
  simp only [cutsWfb, Bool.and_eq_true] at hw
  simp only [List.map_cons, List.nodup_cons] at hf
  simp only [cutsBlockIds, List.nodup_append] at hnd
  have hbk : ¬ b ∈ kidsBlockIds bs := fun h => hb (by simp [cutsBlockIds, h])
  have hbr : ¬ b ∈ cutsBlockIds rest := fun h => hb (by simp [cutsBlockIds, h])
  obtain ⟨ln1, g1, g2⟩ := mfrKids_ev o b v ((tdRecompute o b v st).cstrLength (b, v)) bs acc
    (tdRecompute o b v st) hw.1 hnd.1 hbk rfl
  obtain ⟨ln2, h1, h2⟩ := mfrCuts_ev o b rest
    (mfrKids o b v ((tdRecompute o b v st).cstrLength (b, v)) bs acc (tdRecompute o b v st)).1
    (mfrKids o b v ((tdRecompute o b v st).cstrLength (b, v)) bs acc (tdRecompute o b v st)).2
    hw.2 hf.2 hnd.2.1 hbr
  simp only [mfrCuts]
  refine ⟨ln1 ++ ln2, ?_, ?_⟩
  · rw [h1, g1]
    simp [tdRecompute]
  · intro ev hev
    rcases List.mem_append.mp hev with hin | hin
    · obtain ⟨hkey, hrel⟩ := g2 ev hin
      have htr : ∀ x : Nat, x ∈ kidsBlockIds bs → ∀ y : Nat,
          (mfrCuts o b rest
            (mfrKids o b v ((tdRecompute o b v st).cstrLength (b, v)) bs acc
              (tdRecompute o b v st)).1
            (mfrKids o b v ((tdRecompute o b v st).cstrLength (b, v)) bs acc
              (tdRecompute o b v st)).2).2.cstrLength (x, y) =
          (mfrKids o b v ((tdRecompute o b v st).cstrLength (b, v)) bs acc
            (tdRecompute o b v st)).2.cstrLength (x, y) := by
        intro x hx y
        refine mfrCuts_cfr o b rest _ _ (x, y) (fun h => hnd.2.2 hx h) ?_
        intro h
        exact absurd (h ▸ hx) hbk
      have htrb : (mfrCuts o b rest
            (mfrKids o b v ((tdRecompute o b v st).cstrLength (b, v)) bs acc
              (tdRecompute o b v st)).1
            (mfrKids o b v ((tdRecompute o b v st).cstrLength (b, v)) bs acc
              (tdRecompute o b v st)).2).2.cstrLength (b, v) =
          (mfrKids o b v ((tdRecompute o b v st).cstrLength (b, v)) bs acc
            (tdRecompute o b v st)).2.cstrLength (b, v) :=
        mfrCuts_cfr o b rest _ _ (b, v) hbr (fun _ => hf.1)
      rcases hkey with ⟨he1, he2, he3⟩ | ⟨he1, he3⟩
      · refine ⟨Or.inl ⟨he1, by simp [he2], by simp [cutsBlockIds, he3]⟩, ?_⟩
        rw [he1, he2] at hrel ⊢
        rw [htrb, htr _ he3 v]
        exact hrel
      · refine ⟨Or.inr ⟨by simp [cutsBlockIds, he1], by simp [cutsBlockIds, he3]⟩, ?_⟩
        rw [htr _ he1 ev.2.1, htr _ he3 ev.2.1]
        exact hrel
    · obtain ⟨hkey, hrel⟩ := h2 ev hin
      refine ⟨?_, hrel⟩
      rcases hkey with ⟨he1, he2, he3⟩ | ⟨he1, he3⟩
      · exact Or.inl ⟨he1, by simp [he2], by simp [cutsBlockIds, he3]⟩
      · exact Or.inr ⟨by simp [cutsBlockIds, he1], by simp [cutsBlockIds, he3]⟩

theorem mfrKids_ev (o : Oracle) (b : Nat) (v : Nat) (L : Int) :
    ∀ (l : List BTree) (acc : Nat × Int) (st : TDState),
    kidsWfb v l = true → (kidsBlockIds l).Nodup → ¬ b ∈ kidsBlockIds l →
    st.cstrLength (b, v) = L →
    ∃ lnew, (mfrKids o b v L l acc st).2.events = st.events ++ lnew ∧
      ∀ ev ∈ lnew,
        ((ev.1 = b ∧ ev.2.1 = v ∧ ev.2.2.1 ∈ kidsBlockIds l) ∨
          (ev.1 ∈ kidsBlockIds l ∧ ev.2.2.1 ∈ kidsBlockIds l)) ∧
        (mfrKids o b v L l acc st).2.cstrLength (ev.1, ev.2.1)
          - (mfrKids o b v L l acc st).2.cstrLength (ev.2.2.1, ev.2.1) = ev.2.2.2
| [], acc, st, _, _, _, _ => ⟨[], by simp [mfrKids], by simp⟩
| t :: rest, acc, st, hw, hnd, hb, hL => by
  simp only [kidsWfb, Bool.and_eq_true, Bool.not_eq_true'] at hw
  simp only [kidsBlockIds, List.nodup_append] at hnd
  have hvt : ¬ v ∈ t.cuts.map Prod.fst := by
    have := hw.1.1
    simpa using this
  have hbt : ¬ b ∈ t.blockIds := fun h => hb (by simp [kidsBlockIds, h])
  have hbrs : ¬ b ∈ kidsBlockIds rest := fun h => hb (by simp [kidsBlockIds, h])
  obtain ⟨ln1, g1, g2⟩ := mfrB_ev o t (tdAssign b v L t.bid st) hw.1.2 hnd.1
  have hLp : (mfrB o t (tdAssign b v L t.bid st)).2.cstrLength (b, v) = L := by
    rw [mfrB_cfr o t _ (b, v) hbt]
    exact hL
  obtain ⟨ln2, h1, h2⟩ := mfrKids_ev o b v L rest
    (if (mfrB o t (tdAssign b v L t.bid st)).1.2 > acc.2
      then (mfrB o t (tdAssign b v L t.bid st)).1 else acc)
    (mfrB o t (tdAssign b v L t.bid st)).2 hw.2 hnd.2.1 hbrs hLp
  simp only [mfrKids]
  refine ⟨(b, v, t.bid, L - st.cstrLength (t.bid, v)) :: (ln1 ++ ln2), ?_, ?_⟩
  · rw [h1, g1]
    simp [tdAssign]
  · intro ev hev
    have hrestfr : ∀ x : Nat, x ∈ t.blockIds → ∀ y : Nat,
        (mfrKids o b v L rest
          (if (mfrB o t (tdAssign b v L t.bid st)).1.2 > acc.2
            then (mfrB o t (tdAssign b v L t.bid st)).1 else acc)
          (mfrB o t (tdAssign b v L t.bid st)).2).2.cstrLength (x, y) =
        (mfrB o t (tdAssign b v L t.bid st)).2.cstrLength (x, y) := by
      intro x hx y
      exact mfrKids_cfr o b v L rest _ _ (x, y) (fun h => hnd.2.2 hx h)
    rcases List.mem_cons.mp hev with hin | hin
    · subst hin
      refine ⟨Or.inl ⟨rfl, rfl, by simp [kidsBlockIds, bid_mem_blockIds t]⟩, ?_⟩
      have e1 : (mfrKids o b v L rest
          (if (mfrB o t (tdAssign b v L t.bid st)).1.2 > acc.2
            then (mfrB o t (tdAssign b v L t.bid st)).1 else acc)
          (mfrB o t (tdAssign b v L t.bid st)).2).2.cstrLength (b, v) = L :=
        (mfrKids_cfr o b v L rest _ _ (b, v) hbrs).trans hLp
      have e2 : (mfrKids o b v L rest
          (if (mfrB o t (tdAssign b v L t.bid st)).1.2 > acc.2
            then (mfrB o t (tdAssign b v L t.bid st)).1 else acc)
          (mfrB o t (tdAssign b v L t.bid st)).2).2.cstrLength (t.bid, v) =
          st.cstrLength (t.bid, v) := by
        rw [hrestfr t.bid (bid_mem_blockIds t) v]
        rw [mfrB_row_cfr o t _ v hnd.1 hvt]
        rfl
      simp only [e1, e2]
    · rcases List.mem_append.mp hin with hin1 | hin1
      · obtain ⟨hkey1, hkey2, hrel⟩ := g2 ev hin1
        refine ⟨Or.inr ⟨by simp [kidsBlockIds, hkey1], by simp [kidsBlockIds, hkey2]⟩, ?_⟩
        rw [hrestfr ev.1 hkey1 ev.2.1, hrestfr ev.2.2.1 hkey2 ev.2.1]
        exact hrel
      · obtain ⟨hkey, hrel⟩ := h2 ev hin1
        refine ⟨?_, hrel⟩
        rcases hkey with ⟨he1, he2, he3⟩ | ⟨he1, he3⟩
        · exact Or.inl ⟨he1, he2, by simp [kidsBlockIds, he3]⟩
        · exact Or.inr ⟨by simp [kidsBlockIds, he1], by simp [kidsBlockIds, he3]⟩

end

mutual

/-- Frame property of the top-down pass on `cstrLength`: entries outside the
processed subtree (and outside the current block's child-cut row) are
unchanged. -/
theorem mfmB_cfr (o : Oracle) : ∀ (t : BTree) (st : TDState) (k : Nat × Nat),
    ¬ k.1 ∈ t.blockIds → (mfmB o t st).2.cstrLength k = st.cstrLength k
| .mk b cuts, st, k, hk => by
  have hb : k.1 ≠ b := fun h => hk (by simp [BTree.blockIds, h])
  have hcuts : ¬ k.1 ∈ cutsBlockIds cuts := fun h => hk (by simp [BTree.blockIds, h])
  simp only [mfmB]
  exact mfmCuts_cfr o b cuts (b, tdEll o b st) (tdStoreSize b (tdEll o b st) (tdCand b (tdEll o b st) st)) k hcuts
    (fun h => absurd h hb)

theorem mfmCuts_cfr (o : Oracle) (b : Nat) :
    ∀ (l : List (Nat × List BTree)) (acc : Nat × Int) (st : TDState) (k : Nat × Nat),
    ¬ k.1 ∈ cutsBlockIds l → (k.1 = b → ¬ k.2 ∈ l.map Prod.fst) →
    (mfmCuts o b l acc st).2.cstrLength k = st.cstrLength k
| [], acc, st, k, _, _ => rfl
| (v, bs) :: rest, acc, st, k, hk, hk2 => by
  have hbs : ¬ k.1 ∈ kidsBlockIds bs := fun h => hk (by simp [cutsBlockIds, h])
  have hrest : ¬ k.1 ∈ cutsBlockIds rest := fun h => hk (by simp [cutsBlockIds, h])
  have hk2r : k.1 = b → ¬ k.2 ∈ rest.map Prod.fst := by
    intro h1 h2; exact hk2 h1 (by simp [h2])
  have hkv : k ≠ (b, v) := by
    intro h; exact hk2 (by rw [h]) (by rw [h]; simp)
  simp only [mfmCuts]
  rw [mfmCuts_cfr o b rest _ _ k hrest hk2r]
  rw [mfmKids_cfr o b v _ bs _ (tdRecompute o b v st) k hbs]
  exact tdRecompute_cstr_other o b v st k hkv

theorem mfmKids_cfr (o : Oracle) (b : Nat) (v : Nat) (L : Int) :
    ∀ (l : List BTree) (acc : Nat × Int) (st : TDState) (k : Nat × Nat),
    ¬ k.1 ∈ kidsBlockIds l →
    (mfmKids o b v L l acc st).2.cstrLength k = st.cstrLength k
| [], acc, st, k, _ => rfl
| t :: rest, acc, st, k, hk => by
  have ht : ¬ k.1 ∈ t.blockIds := fun h => hk (by simp [kidsBlockIds, h])
  have hrest : ¬ k.1 ∈ kidsBlockIds rest := fun h => hk (by simp [kidsBlockIds, h])
  simp only [mfmKids]
  rw [mfmKids_cfr o b v L rest _ _ k hrest]
  rw [mfmB_cfr o t (tdAssign b v L t.bid st) k ht]
  rfl

end

/-- The top-down pass does not modify `cstrLength` on the current block's
row outside its child-cut entries. -/
theorem mfmB_row_cfr (o : Oracle) (t : BTree) (st : TDState) (w : Nat)
    (hnd : t.blockIds.Nodup) (hw : ¬ w ∈ t.cuts.map Prod.fst) :
    (mfmB o t st).2.cstrLength (t.bid, w) = st.cstrLength (t.bid, w) := by
  cases t with
  | mk b cuts =>
    simp only [BTree.blockIds, List.nodup_cons] at hnd
    simp only [BTree.cuts] at hw
    simp only [mfmB, BTree.bid]
    exact mfmCuts_cfr o b cuts _ _ (b, w) hnd.1 (fun _ => hw)

mutual

/-- Event trace of `mf_maximumFaceRec`: every reassignment event
`(B, c, B'', value)` recorded during the recursion satisfies
`value = cstrLength(B, c) - cstrLength(B'', c)` in the final tables — i.e.
the `L` used by the source equals the recomputed `cstrLength(B, c)` of the
current block itself (the one tree edge leaving the C-node of `c` goes to
`B`). -/
theorem mfmB_ev (o : Oracle) : ∀ (t : BTree) (st : TDState),
    t.wfb = true → t.blockIds.Nodup →
    ∃ lnew, (mfmB o t st).2.events = st.events ++ lnew ∧
      ∀ ev ∈ lnew, ev.1 ∈ t.blockIds ∧ ev.2.2.1 ∈ t.blockIds ∧
        (mfmB o t st).2.cstrLength (ev.1, ev.2.1)
          - (mfmB o t st).2.cstrLength (ev.2.2.1, ev.2.1) = ev.2.2.2
| .mk b cuts, st, hw, hnd => by
  simp only [BTree.wfb, Bool.and_eq_true, decide_eq_true_eq] at hw
  simp only [BTree.blockIds, List.nodup_cons] at hnd
  obtain ⟨lnew, h1, h2⟩ := mfmCuts_ev o b cuts (b, tdEll o b st)
    (tdStoreSize b (tdEll o b st) (tdCand b (tdEll o b st) st)) hw.2 hw.1 hnd.2 hnd.1
  simp only [mfmB]
  refine ⟨lnew, h1, ?_⟩
  intro ev hev
  obtain ⟨hkey, hrel⟩ := h2 ev hev
  refine ⟨?_, ?_, hrel⟩
  · rcases hkey with ⟨h, _, _⟩ | ⟨h, _⟩
    · rw [h]; simp [BTree.blockIds]
    · simp [BTree.blockIds, h]
  · rcases hkey with ⟨_, _, h⟩ | ⟨_, h⟩
    · simp [BTree.blockIds, h]
    · simp [BTree.blockIds, h]

theorem mfmCuts_ev (o : Oracle) (b : Nat) :
    ∀ (l : List (Nat × List BTree)) (acc : Nat × Int) (st : TDState),
    cutsWfb l = true → (l.map Prod.fst).Nodup → (cutsBlockIds l).Nodup →
    ¬ b ∈ cutsBlockIds l →
    ∃ lnew, (mfmCuts o b l acc st).2.events = st.events ++ lnew ∧
      ∀ ev ∈ lnew,
        ((ev.1 = b ∧ ev.2.1 ∈ l.map Prod.fst ∧ ev.2.2.1 ∈ cutsBlockIds l) ∨
          (ev.1 ∈ cutsBlockIds l ∧ ev.2.2.1 ∈ cutsBlockIds l)) ∧
        (mfmCuts o b l acc st).2.cstrLength (ev.1, ev.2.1)
          - (mfmCuts o b l acc st).2.cstrLength (ev.2.2.1, ev.2.1) = ev.2.2.2
| [], acc, st, _, _, _, _ => ⟨[], by simp [mfmCuts], by simp⟩
| (v, bs) :: rest, acc, st, hw, hf, hnd, hb => by
  simp only [cutsWfb, Bool.and_eq_true] at hw
  simp only [List.map_cons, List.nodup_cons] at hf
  simp only [cutsBlockIds, List.nodup_append] at hnd
  have hbk : ¬ b ∈ kidsBlockIds bs := fun h => hb (by simp [cutsBlockIds, h])
  have hbr : ¬ b ∈ cutsBlockIds rest := fun h => hb (by simp [cutsBlockIds, h])
  obtain ⟨ln1, g1, g2⟩ := mfmKids_ev o b v ((tdRecompute o b v st).cstrLength (b, v)) bs acc
    (tdRecompute o b v st) hw.1 hnd.1 hbk rfl
  obtain ⟨ln2, h1, h2⟩ := mfmCuts_ev o b rest
    (mfmKids o b v ((tdRecompute o b v st).cstrLength (b, v)) bs acc (tdRecompute o b v st)).1
    (mfmKids o b v ((tdRecompute o b v st).cstrLength (b, v)) bs acc (tdRecompute o b v st)).2
    hw.2 hf.2 hnd.2.1 hbr
  simp only [mfmCuts]
  refine ⟨ln1 ++ ln2, ?_, ?_⟩
  · rw [h1, g1]
    simp [tdRecompute]
  · intro ev hev
    rcases List.mem_append.mp hev with hin | hin
    · obtain ⟨hkey, hrel⟩ := g2 ev hin
      have htr : ∀ x : Nat, x ∈ kidsBlockIds bs → ∀ y : Nat,
          (mfmCuts o b rest
            (mfmKids o b v ((tdRecompute o b v st).cstrLength (b, v)) bs acc
              (tdRecompute o b v st)).1
            (mfmKids o b v ((tdRecompute o b v st).cstrLength (b, v)) bs acc
              (tdRecompute o b v st)).2).2.cstrLength (x, y) =
          (mfmKids o b v ((tdRecompute o b v st).cstrLength (b, v)) bs acc
            (tdRecompute o b v st)).2.cstrLength (x, y) := by
        intro x hx y
        refine mfmCuts_cfr o b rest _ _ (x, y) (fun h => hnd.2.2 hx h) ?_
        intro h
        exact absurd (h ▸ hx) hbk
      have htrb : (mfmCuts o b rest
            (mfmKids o b v ((tdRecompute o b v st).cstrLength (b, v)) bs acc
              (tdRecompute o b v st)).1
            (mfmKids o b v ((tdRecompute o b v st).cstrLength (b, v)) bs acc
              (tdRecompute o b v st)).2).2.cstrLength (b, v) =
          (mfmKids o b v ((tdRecompute o b v st).cstrLength (b, v)) bs acc
            (tdRecompute o b v st)).2.cstrLength (b, v) :=
        mfmCuts_cfr o b rest _ _ (b, v) hbr (fun _ => hf.1)
      rcases hkey with ⟨he1, he2, he3⟩ | ⟨he1, he3⟩
      · refine ⟨Or.inl ⟨he1, by simp [he2], by simp [cutsBlockIds, he3]⟩, ?_⟩
        rw [he1, he2] at hrel ⊢
        rw [htrb, htr _ he3 v]
        exact hrel
      · refine ⟨Or.inr ⟨by simp [cutsBlockIds, he1], by simp [cutsBlockIds, he3]⟩, ?_⟩
        rw [htr _ he1 ev.2.1, htr _ he3 ev.2.1]
        exact hrel
    · obtain ⟨hkey, hrel⟩ := h2 ev hin
      refine ⟨?_, hrel⟩
      rcases hkey with ⟨he1, he2, he3⟩ | ⟨he1, he3⟩
      · exact Or.inl ⟨he1, by simp [he2], by simp [cutsBlockIds, he3]⟩
      · exact Or.inr ⟨by simp [cutsBlockIds, he1], by simp [cutsBlockIds, he3]⟩

theorem mfmKids_ev (o : Oracle) (b : Nat) (v : Nat) (L : Int) :
    ∀ (l : List BTree) (acc : Nat × Int) (st : TDState),
    kidsWfb v l = true → (kidsBlockIds l).Nodup → ¬ b ∈ kidsBlockIds l →
    st.cstrLength (b, v) = L →
    ∃ lnew, (mfmKids o b v L l acc st).2.events = st.events ++ lnew ∧
      ∀ ev ∈ lnew,
        ((ev.1 = b ∧ ev.2.1 = v ∧ ev.2.2.1 ∈ kidsBlockIds l) ∨
          (ev.1 ∈ kidsBlockIds l ∧ ev.2.2.1 ∈ kidsBlockIds l)) ∧
        (mfmKids o b v L l acc st).2.cstrLength (ev.1, ev.2.1)
          - (mfmKids o b v L l acc st).2.cstrLength (ev.2.2.1, ev.2.1) = ev.2.2.2
| [], acc, st, _, _, _, _ => ⟨[], by simp [mfmKids], by simp⟩
| t :: rest, acc, st, hw, hnd, hb, hL => by
  simp only [kidsWfb, Bool.and_eq_true, Bool.not_eq_true'] at hw
  simp only [kidsBlockIds, List.nodup_append] at hnd
  have hvt : ¬ v ∈ t.cuts.map Prod.fst := by
    have := hw.1.1
    simpa using this
  have hbt : ¬ b ∈ t.blockIds := fun h => hb (by simp [kidsBlockIds, h])
  have hbrs : ¬ b ∈ kidsBlockIds rest := fun h => hb (by simp [kidsBlockIds, h])
  obtain ⟨ln1, g1, g2⟩ := mfmB_ev o t (tdAssign b v L t.bid st) hw.1.2 hnd.1
  have hLp : (mfmB o t (tdAssign b v L t.bid st)).2.cstrLength (b, v) = L := by
    rw [mfmB_cfr o t _ (b, v) hbt]
    exact hL
  obtain ⟨ln2, h1, h2⟩ := mfmKids_ev o b v L rest
    (if (mfmB o t (tdAssign b v L t.bid st)).1.2 > acc.2
      then (mfmB o t (tdAssign b v L t.bid st)).1 else acc)
    (mfmB o t (tdAssign b v L t.bid st)).2 hw.2 hnd.2.1 hbrs hLp
  simp only [mfmKids]
  refine ⟨(b, v, t.bid, L - st.cstrLength (t.bid, v)) :: (ln1 ++ ln2), ?_, ?_⟩
  · rw [h1, g1]
    simp [tdAssign]
  · intro ev hev
    have hrestfr : ∀ x : Nat, x ∈ t.blockIds → ∀ y : Nat,
        (mfmKids o b v L rest
          (if (mfmB o t (tdAssign b v L t.bid st)).1.2 > acc.2
            then (mfmB o t (tdAssign b v L t.bid st)).1 else acc)
          (mfmB o t (tdAssign b v L t.bid st)).2).2.cstrLength (x, y) =
        (mfmB o t (tdAssign b v L t.bid st)).2.cstrLength (x, y) := by
      intro x hx y
      exact mfmKids_cfr o b v L rest _ _ (x, y) (fun h => hnd.2.2 hx h)
    rcases List.mem_cons.mp hev with hin | hin
    · subst hin
      refine ⟨Or.inl ⟨rfl, rfl, by simp [kidsBlockIds, bid_mem_blockIds t]⟩, ?_⟩
      have e1 : (mfmKids o b v L rest
          (if (mfmB o t (tdAssign b v L t.bid st)).1.2 > acc.2
            then (mfmB o t (tdAssign b v L t.bid st)).1 else acc)
          (mfmB o t (tdAssign b v L t.bid st)).2).2.cstrLength (b, v) = L :=
        (mfmKids_cfr o b v L rest _ _ (b, v) hbrs).trans hLp
      have e2 : (mfmKids o b v L rest
          (if (mfmB o t (tdAssign b v L t.bid st)).1.2 > acc.2
            then (mfmB o t (tdAssign b v L t.bid st)).1 else acc)
          (mfmB o t (tdAssign b v L t.bid st)).2).2.cstrLength (t.bid, v) =
          st.cstrLength (t.bid, v) := by
        rw [hrestfr t.bid (bid_mem_blockIds t) v]
        rw [mfmB_row_cfr o t _ v hnd.1 hvt]
        rfl
      simp only [e1, e2]
    · rcases List.mem_append.mp hin with hin1 | hin1
      · obtain ⟨hkey1, hkey2, hrel⟩ := g2 ev hin1
        refine ⟨Or.inr ⟨by simp [kidsBlockIds, hkey1], by simp [kidsBlockIds, hkey2]⟩, ?_⟩
        rw [hrestfr ev.1 hkey1 ev.2.1, hrestfr ev.2.2.1 hkey2 ev.2.1]
        exact hrel
      · obtain ⟨hkey, hrel⟩ := h2 ev hin1
        refine ⟨?_, hrel⟩
        rcases hkey with ⟨he1, he2, he3⟩ | ⟨he1, he3⟩
        · exact Or.inl ⟨he1, he2, by simp [kidsBlockIds, he3]⟩
        · exact Or.inr ⟨by simp [kidsBlockIds, he1], by simp [kidsBlockIds, he3]⟩

end

/-- C2 fails on the code: on the instance `cxT`, the reassignment recorded
for neighbor block 2 of cut vertex 1 writes the value
`cstrLength(rootBlock, 1) - cstrLength(2, 1) = 9 - 3 = 6`, whereas the
claimed formula `(sum over the blocks incident to 1 other than the root) -
cstrLength(2, 1) = (3 + 3) - 3 = 3` differs: the loop computing `L`
(EmbedderMaxFace.cpp:238-248) keeps only edges with `e2->source() == cT`,
and the unique such BC-tree edge leads back to the current block itself. -/
theorem C2_counterexample :
    ¬ (∀ ev ∈ (mfrB cxO cxT cxSt).2.events,
        ev.2.2.2 = ((childBlocksAt cxT ev.2.1).map
            (fun bp => cxSt.cstrLength (bp, ev.2.1))).sum
          - cxSt.cstrLength (ev.2.2.1, ev.2.1)) := by
  intro h
  have h2 := h (0, 1, 2, 6) (by decide)
  revert h2
  decide

/-- C2 (amended): in the top-down search (`EmbedderMaxFace::maximumFaceRec`,
first conjunct, and `EmbedderMinDepthMaxFaceLayers::mf_maximumFaceRec`,
second conjunct), for every child cut vertex `c` of the current block `B`,
the quantity `L` equals the single just-recomputed value `cstrLength(B, c)`
— the loop accumulating `L` keeps only the edges leaving the C-node of
`c`, and the unique such BC-tree edge goes to the parent block `B` itself —
and before recursing into each unprocessed neighbor block `B''` of `c` the
node length of `c`'s copy inside `B''` is reassigned to
`L - cstrLength(B'', c)`; hence every recorded reassignment event
`(B, c, B'', value)` satisfies
`value = cstrLength(B, c) - cstrLength(B'', c)` in the final tables. -/
theorem C2_top_down_reassignment (o : Oracle) (t : BTree) (st : TDState)
    (hw : t.wfb = true) (hnd : t.blockIds.Nodup) :
    (∃ lnew, (mfrB o t st).2.events = st.events ++ lnew ∧
      ∀ ev ∈ lnew,
        (mfrB o t st).2.cstrLength (ev.1, ev.2.1)
          - (mfrB o t st).2.cstrLength (ev.2.2.1, ev.2.1) = ev.2.2.2) ∧
    (∃ lnew, (mfmB o t st).2.events = st.events ++ lnew ∧
      ∀ ev ∈ lnew,
        (mfmB o t st).2.cstrLength (ev.1, ev.2.1)
          - (mfmB o t st).2.cstrLength (ev.2.2.1, ev.2.1) = ev.2.2.2) := by
  obtain ⟨ln1, h1, h2⟩ := mfrB_ev o t st hw hnd
  obtain ⟨ln2, g1, g2⟩ := mfmB_ev o t st hw hnd
  exact ⟨⟨ln1, h1, fun ev hev => (h2 ev hev).2.2⟩, ⟨ln2, g1, fun ev hev => (g2 ev hev).2.2⟩⟩

/-- Witness for the amended C2 on the concrete instance `cxT`. -/
theorem C2_top_down_reassignment_witness :
    (cxT.wfb = true ∧ cxT.blockIds.Nodup) ∧
    (∃ lnew, (mfrB cxO cxT cxSt).2.events = cxSt.events ++ lnew ∧
      ∀ ev ∈ lnew,
        (mfrB cxO cxT cxSt).2.cstrLength (ev.1, ev.2.1)
          - (mfrB cxO cxT cxSt).2.cstrLength (ev.2.2.1, ev.2.1) = ev.2.2.2) := by
  refine ⟨⟨by decide, by decide⟩, ?_⟩
  exact (C2_top_down_reassignment cxO cxT cxSt (by decide) (by decide)).1

/-- C4: for every call `EmbedderMaxFace::maximumFaceRec(bT, bT_opt,
ell_opt)`, the returned `ell_opt` equals the maximum over all candidate
maximum-face sizes computed during the recursion rooted at `bT` (the
`cands` trace records, for each visited block, the size computed for it by
the oracle under the node lengths current at its visit: the candidate for
`bT` itself and, recursively, those of every explored neighbor block), and
the returned `bT_opt` is a block whose recorded candidate value equals
`ell_opt`. -/
theorem C4_maximum_face_rec_result (o : Oracle) (t : BTree) (st : TDState) :
    ∃ lnew, (mfrB o t st).2.cands = st.cands ++ lnew ∧
      (∀ c ∈ lnew, c.2 ≤ (mfrB o t st).1.2) ∧
      (mfrB o t st).1 ∈ lnew := mfrB_cands o t st

theorem lexGE_refl (d f : Int) : lexGE d f d f := Or.inr ⟨rfl, le_refl f⟩

theorem lexGE_trans {d1 f1 d2 f2 d3 f3 : Int} (h1 : lexGE d1 f1 d2 f2)
    (h2 : lexGE d2 f2 d3 f3) : lexGE d1 f1 d3 f3 := by
  rcases h1 with h1 | ⟨h1, h1f⟩
  · rcases h2 with h2 | ⟨h2, _⟩
    · exact Or.inl (h1.trans h2)
    · exact Or.inl (h2 ▸ h1)
  · rcases h2 with h2 | ⟨h2, h2f⟩
    · exact Or.inl (h1 ▸ h2)
    · exact Or.inr ⟨h1.trans h2, h2f.trans h1f⟩

theorem chooseOptLoop_inv : ∀ (l : List (Nat × Bool × Int × Int))
    (acc : Option Nat × Int × Int),
    (chooseOptLoop l acc = acc ∨
      ∃ b d f, chooseOptLoop l acc = (some b, d, f) ∧ (b, true, d, f) ∈ l) ∧
    (∀ e ∈ l, e.2.1 = true →
      lexGE (chooseOptLoop l acc).2.1 (chooseOptLoop l acc).2.2 e.2.2.1 e.2.2.2) ∧
    lexGE (chooseOptLoop l acc).2.1 (chooseOptLoop l acc).2.2 acc.2.1 acc.2.2
| [], acc => ⟨Or.inl rfl, by simp, lexGE_refl _ _⟩
| (n, isB, d, f) :: rest, acc => by
  by_cases hB : isB = true
  · by_cases hupd : d < acc.2.1 ∨ (d = acc.2.1 ∧ f > acc.2.2)
    · have heq : chooseOptLoop ((n, isB, d, f) :: rest) acc
          = chooseOptLoop rest (some n, d, f) := by
        simp [chooseOptLoop, hB, hupd]
      obtain ⟨ih1, ih2, ih3⟩ := chooseOptLoop_inv rest (some n, d, f)
      have hbeat : lexGE (chooseOptLoop rest (some n, d, f)).2.1
          (chooseOptLoop rest (some n, d, f)).2.2 acc.2.1 acc.2.2 := by
        refine lexGE_trans ih3 ?_
        rcases hupd with h | ⟨h1, h2⟩
        · exact Or.inl h
        · exact Or.inr ⟨h1, le_of_lt h2⟩
      refine ⟨?_, ?_, ?_⟩
      · rw [heq]
        rcases ih1 with h | ⟨b, d2, f2, h1, h2⟩
        · exact Or.inr ⟨n, d, f, h, by rw [hB]; exact List.mem_cons_self _ _⟩
        · exact Or.inr ⟨b, d2, f2, h1, List.mem_cons_of_mem _ h2⟩
      · intro e he hBe
        rw [heq]
        rcases List.mem_cons.mp he with h | h
        · rw [h]
          exact ih3
        · exact ih2 e h hBe
      · rw [heq]
        exact hbeat
    · have heq : chooseOptLoop ((n, isB, d, f) :: rest) acc
          = chooseOptLoop rest acc := by
        simp [chooseOptLoop, hB, hupd]
      obtain ⟨ih1, ih2, ih3⟩ := chooseOptLoop_inv rest acc
      push_neg at hupd
      refine ⟨?_, ?_, ?_⟩
      · rw [heq]
        rcases ih1 with h | ⟨b, d2, f2, h1, h2⟩
        · exact Or.inl h
        · exact Or.inr ⟨b, d2, f2, h1, List.mem_cons_of_mem _ h2⟩
      · intro e he hBe
        rw [heq]
        rcases List.mem_cons.mp he with h | h
        · rw [h]
          simp only
          rcases ih3 with h3 | ⟨h3, h3f⟩
          · exact Or.inl (lt_of_lt_of_le h3 hupd.1)
          · rcases lt_or_eq_of_le hupd.1 with hlt | heq2
            · exact Or.inl (h3 ▸ hlt)
            · exact Or.inr ⟨h3.trans heq2, le_trans (hupd.2 heq2.symm) h3f⟩
        · exact ih2 e h hBe
      · rw [heq]
        exact ih3
  · have heq : chooseOptLoop ((n, isB, d, f) :: rest) acc
        = chooseOptLoop rest acc := by
      simp [chooseOptLoop, hB]
    obtain ⟨ih1, ih2, ih3⟩ := chooseOptLoop_inv rest acc
    refine ⟨?_, ?_, ?_⟩
    · rw [heq]
      rcases ih1 with h | ⟨b, d2, f2, h1, h2⟩
      · exact Or.inl h
      · exact Or.inr ⟨b, d2, f2, h1, List.mem_cons_of_mem _ h2⟩
    · intro e he hBe
      rw [heq]
      rcases List.mem_cons.mp he with h | h
      · exfalso
        rw [h] at hBe
        exact hB hBe
      · exact ih2 e h hBe
    · rw [heq]
      exact ih3

/-- C5: in `EmbedderMinDepthMaxFaceLayers::doCall`, the block `bT_opt`
chosen as the root for embedding reconstruction is, among all B-nodes of
the BC-tree (listed as `(id, is B-node, md_minDepth, mf_maxFaceSize)`), one
with strictly minimal `md_minDepth`; among B-nodes of equal minimal depth,
one with the larger `mf_maxFaceSize` is preferred. -/
theorem C5_min_depth_tie_break (l : List (Nat × Bool × Int × Int))
    (hB : ∃ e ∈ l, e.2.1 = true)
    (hd : ∀ e ∈ l, e.2.1 = true → e.2.2.1 < 0xFFFFFF) :
    ∃ b, (chooseOpt l).1 = some b ∧
      (b, true, (chooseOpt l).2.1, (chooseOpt l).2.2) ∈ l ∧
      (∀ e ∈ l, e.2.1 = true → (chooseOpt l).2.1 ≤ e.2.2.1) ∧
      (∀ e ∈ l, e.2.1 = true → e.2.2.1 = (chooseOpt l).2.1 →
        e.2.2.2 ≤ (chooseOpt l).2.2) := by
  obtain ⟨h1, h2, _⟩ := chooseOptLoop_inv l (none, 0xFFFFFF, -1)
  obtain ⟨e0, he0, hBe0⟩ := hB
  have hne : ¬ chooseOptLoop l (none, 0xFFFFFF, -1) = (none, 0xFFFFFF, -1) := by
    intro hcon
    have := h2 e0 he0 hBe0
    rw [hcon] at this
    rcases this with h | ⟨h, _⟩
    · exact absurd (lt_trans (hd e0 he0 hBe0) h) (lt_irrefl _)
    · exact absurd (h ▸ hd e0 he0 hBe0) (lt_irrefl _)
  rcases h1 with h | ⟨b, d, f, hr, hmem⟩
  · exact absurd h hne
  · refine ⟨b, ?_, ?_, ?_, ?_⟩
    · show (chooseOptLoop l (none, 0xFFFFFF, -1)).1 = some b
      rw [hr]
    · show (b, true, (chooseOptLoop l _).2.1, (chooseOptLoop l _).2.2) ∈ l
      rw [hr]
      exact hmem
    · intro e he hBe
      rcases h2 e he hBe with h | ⟨h, _⟩
      · exact le_of_lt h
      · exact le_of_eq h
    · intro e he hBe hde
      rcases h2 e he hBe with h | ⟨_, hf⟩
      · exact absurd (hde ▸ h) (lt_irrefl _)
      · exact hf

/-- Witness for C5 on a concrete node list: among the B-nodes, node 7 has
minimal depth 2 and, among depth-2 B-nodes, the larger face size 5. -/
theorem C5_min_depth_tie_break_witness :
    ((∃ e ∈ [(1, true, (3 : Int), (9 : Int)), (4, false, 0, 0), (7, true, 2, 5),
        (8, true, 2, 4)], e.2.1 = true) ∧
     (∀ e ∈ [(1, true, (3 : Int), (9 : Int)), (4, false, 0, 0), (7, true, 2, 5),
        (8, true, 2, 4)], e.2.1 = true → e.2.2.1 < 0xFFFFFF)) ∧
    ∃ b, (chooseOpt [(1, true, (3 : Int), (9 : Int)), (4, false, 0, 0), (7, true, 2, 5),
        (8, true, 2, 4)]).1 = some b ∧
      (b, true,
        (chooseOpt [(1, true, (3 : Int), (9 : Int)), (4, false, 0, 0), (7, true, 2, 5),
          (8, true, 2, 4)]).2.1,
        (chooseOpt [(1, true, (3 : Int), (9 : Int)), (4, false, 0, 0), (7, true, 2, 5),
          (8, true, 2, 4)]).2.2) ∈
        [(1, true, (3 : Int), (9 : Int)), (4, false, 0, 0), (7, true, 2, 5),
          (8, true, 2, 4)] ∧
      (∀ e ∈ [(1, true, (3 : Int), (9 : Int)), (4, false, 0, 0), (7, true, 2, 5),
          (8, true, 2, 4)], e.2.1 = true →
        (chooseOpt [(1, true, (3 : Int), (9 : Int)), (4, false, 0, 0), (7, true, 2, 5),
          (8, true, 2, 4)]).2.1 ≤ e.2.2.1) ∧
      (∀ e ∈ [(1, true, (3 : Int), (9 : Int)), (4, false, 0, 0), (7, true, 2, 5),
          (8, true, 2, 4)], e.2.1 = true →
        e.2.2.1 = (chooseOpt [(1, true, (3 : Int), (9 : Int)), (4, false, 0, 0),
          (7, true, 2, 5), (8, true, 2, 4)]).2.1 →
        e.2.2.2 ≤ (chooseOpt [(1, true, (3 : Int), (9 : Int)), (4, false, 0, 0),
          (7, true, 2, 5), (8, true, 2, 4)]).2.2) := by
  refine ⟨⟨by decide, by decide⟩, ?_⟩
  exact C5_min_depth_tie_break _ (by decide) (by decide)

/-- C7: for every input graph with 0 or 1 vertices, `doCall` returns with
the rotation system untouched and the external face pointer null, without
constructing the BC-tree; for every input graph with exactly one edge (and
more than one vertex), `doCall` sets the external face pointer to that
edge's source-side (forward) adjacency entry and returns without
constructing the BC-tree. -/
theorem C7_degenerate_cases (embedO : (Nat → Int) → (Nat → Int) → Dart)
    (rest : DoCallOut) (g : GIn) :
    (g.numNodes ≤ 1 →
      doCallSkel embedO rest g =
        ⟨none, [], false, false, false⟩) ∧
    (2 ≤ g.numNodes → g.numEdges = 1 →
      (doCallSkel embedO rest g).adjExternal = some (adjSourceDart g.firstEdge) ∧
      (doCallSkel embedO rest g).builtBCTree = false ∧
      (doCallSkel embedO rest g).sortApplied = false ∧
      (doCallSkel embedO rest g).embedCalls = []) := by
  constructor
  · intro h
    simp [doCallSkel, h]
  · intro h1 h2
    have hn : ¬ g.numNodes ≤ 1 := by omega
    simp [doCallSkel, hn, h2]

/-- Witness for C7 at two concrete inputs: the empty graph and a

single-edge graph. -/
theorem C7_degenerate_cases_witness :
    (({ numNodes := 1, numEdges := 0, firstEdge := 0, bcNodes := 0 } : GIn).numNodes ≤ 1 ∧
      doCallSkel (fun _ _ => (0, true)) ⟨none, [], false, false, false⟩
        { numNodes := 1, numEdges := 0, firstEdge := 0, bcNodes := 0 } =
        ⟨none, [], false, false, false⟩) ∧
    (2 ≤ ({ numNodes := 2, numEdges := 1, firstEdge := 4, bcNodes := 1 } : GIn).numNodes ∧
      ({ numNodes := 2, numEdges := 1, firstEdge := 4, bcNodes := 1 } : GIn).numEdges = 1 ∧
      (doCallSkel (fun _ _ => (0, true)) ⟨none, [], false, false, false⟩
        { numNodes := 2, numEdges := 1, firstEdge := 4, bcNodes := 1 }).adjExternal =
        some (adjSourceDart 4)) := by
  refine ⟨⟨by decide, ?_⟩, by decide, by decide, ?_⟩
  · exact (C7_degenerate_cases (fun _ _ => (0, true)) ⟨none, [], false, false, false⟩
      { numNodes := 1, numEdges := 0, firstEdge := 0, bcNodes := 0 }).1 (by decide)
  · exact ((C7_degenerate_cases (fun _ _ => (0, true)) ⟨none, [], false, false, false⟩
      { numNodes := 2, numEdges := 1, firstEdge := 4, bcNodes := 1 }).2
      (by decide) (by decide)).1

/-- C6: if the input graph has more than one edge (and at least two nodes,
as any connected graph without self-loops with two edges has) and its
BC-tree has exactly one node, then `doCall` performs exactly one call to
the oracle's `embed`, with node lengths all 0 and edge lengths all 1,
performs no bottom-up or top-down tree recursion, and sets the returned
external adjacency entry from the entry chosen by that single `embed` call
(its twin, `adjExternal = m_adjExternal->twin()`). -/
theorem C6_biconnected_base_case (embedO : (Nat → Int) → (Nat → Int) → Dart)
    (rest : DoCallOut) (g : GIn)
    (h1 : 2 ≤ g.numNodes) (h2 : 2 ≤ g.numEdges) (h3 : g.bcNodes = 1) :
    (doCallSkel embedO rest g).embedCalls = [((fun _ => 0), (fun _ => 1))] ∧
    (doCallSkel embedO rest g).ranTreePasses = false ∧
    (doCallSkel embedO rest g).adjExternal =
      some (dartTwin (embedO (fun _ => 0) (fun _ => 1))) := by
  have hn : ¬ g.numNodes ≤ 1 := by omega
  have he : ¬ g.numEdges = 1 := by omega
  simp [doCallSkel, hn, he, h3]

/-- Witness for C6 at a concrete biconnected input (a triangle: 3 nodes, 3
edges, one BC-tree node) with a concrete embed oracle choosing dart
`(2, true)`, so the external entry is its twin `(2, false)`. -/
theorem C6_biconnected_base_case_witness :
    (2 ≤ ({ numNodes := 3, numEdges := 3, firstEdge := 0, bcNodes := 1 } : GIn).numNodes ∧
     2 ≤ ({ numNodes := 3, numEdges := 3, firstEdge := 0, bcNodes := 1 } : GIn).numEdges ∧
     ({ numNodes := 3, numEdges := 3, firstEdge := 0, bcNodes := 1 } : GIn).bcNodes = 1) ∧
    (doCallSkel (fun _ _ => (2, true)) ⟨none, [], false, false, false⟩
      { numNodes := 3, numEdges := 3, firstEdge := 0, bcNodes := 1 }).ranTreePasses = false ∧
    (doCallSkel (fun _ _ => (2, true)) ⟨none, [], false, false, false⟩
      { numNodes := 3, numEdges := 3, firstEdge := 0, bcNodes := 1 }).adjExternal =
      some (2, false) := by
  refine ⟨⟨by decide, by decide, by decide⟩, ?_, ?_⟩
  · exact (C6_biconnected_base_case (fun _ _ => (2, true)) ⟨none, [], false, false, false⟩
      { numNodes := 3, numEdges := 3, firstEdge := 0, bcNodes := 1 }
      (by decide) (by decide) (by decide)).2.1
  · exact (C6_biconnected_base_case (fun _ _ => (2, true)) ⟨none, [], false, false, false⟩
      { numNodes := 3, numEdges := 3, firstEdge := 0, bcNodes := 1 }
      (by decide) (by decide) (by decide)).2.2

theorem mdFold_append (ps qs : List (Nat × Int)) (acc : Int × List Nat) :
    mdFold (ps ++ qs) acc = mdFold qs (mdFold ps acc) := by
  induction ps generalizing acc with
  | nil => rfl
  | cons p rest ih =>
    cases p with
    | mk v r => simp [mdFold, ih]

theorem mdAccKids_eq_fold (o : Oracle) (v : Nat) : ∀ (l : List BTree) (acc : Int × List Nat),
    mdAccKids o v l acc = mdFold (l.map (fun t => (v, mdSpec o t v))) acc
| [], acc => rfl
| t :: rest, acc => by
  simp [mdAccKids, mdFold, mdAccKids_eq_fold o v rest]

theorem mdAccCuts_eq_fold (o : Oracle) : ∀ (l : List (Nat × List BTree)) (acc : Int × List Nat),
    mdAccCuts o l acc = mdFold (mdPairs o l) acc
| [], acc => rfl
| (v, bs) :: rest, acc => by
  simp [mdAccCuts, mdPairs, mdFold_append, mdAccKids_eq_fold, mdAccCuts_eq_fold o rest]

theorem mdUpd_fst_le (v : Nat) (r : Int) (acc : Int × List Nat) :
    acc.1 ≤ (mdUpd v r acc).1 := by
  unfold mdUpd
  split
  · exact le_of_lt (by assumption)
  · split
    · exact le_refl _
    · exact le_refl _

theorem mdUpd_val_le (v : Nat) (r : Int) (acc : Int × List Nat) :
    r ≤ (mdUpd v r acc).1 := by
  unfold mdUpd
  split
  · exact le_refl _
  · have h : ¬ acc.1 < r := by assumption
    split
    · exact le_of_not_lt h
    · exact le_of_not_lt h

theorem mdFold_fst_mono : ∀ (ps : List (Nat × Int)) (acc : Int × List Nat),
    acc.1 ≤ (mdFold ps acc).1
| [], acc => le_refl _
| (v, r) :: rest, acc =>
  le_trans (mdUpd_fst_le v r acc) (mdFold_fst_mono rest (mdUpd v r acc))

/-- Every processed value is bounded by the final running maximum. -/
theorem mdFold_val_le : ∀ (ps : List (Nat × Int)) (acc : Int × List Nat),
    ∀ p ∈ ps, p.2 ≤ (mdFold ps acc).1
| [], _, _, h => absurd h (List.not_mem_nil _)
| (v, r) :: rest, acc, p, h => by
  rcases List.mem_cons.mp h with h1 | h1
  · rw [h1]
    exact le_trans (mdUpd_val_le v r acc) (mdFold_fst_mono rest _)
  · exact mdFold_val_le rest _ p h1

/-- Case shape of one `m_B` / `M_B` update. -/
theorem mdUpd_shape (w : Nat) (s : Int) (acc : Int × List Nat) :
    (acc.1 < s ∧ mdUpd w s acc = (s, [w])) ∨
    (acc.1 = s ∧ ¬ w ∈ acc.2 ∧ mdUpd w s acc = (acc.1, acc.2 ++ [w])) ∨
    (¬ acc.1 < s ∧ (w ∈ acc.2 ∨ acc.1 ≠ s) ∧ mdUpd w s acc = acc) := by
  unfold mdUpd
  split
  · exact Or.inl ⟨by assumption, rfl⟩
  · split
    · rename_i h
      exact Or.inr (Or.inl ⟨h.1, h.2, rfl⟩)
    · rename_i hnlt hcond
      refine Or.inr (Or.inr ⟨hnlt, ?_, rfl⟩)
      by_cases h1 : acc.1 = s
      · exact Or.inl (by_contra fun h2 => hcond ⟨h1, h2⟩)
      · exact Or.inr h1

theorem mdFold_cons (w : Nat) (s : Int) (rest : List (Nat × Int)) (acc : Int × List Nat) :
    mdFold ((w, s) :: rest) acc = mdFold rest (mdUpd w s acc) := rfl

/-- If a member survives with an unchanged running maximum, it stays. -/
theorem mdFold_stay : ∀ (ps : List (Nat × Int)) (acc : Int × List Nat) (v : Nat),
    v ∈ acc.2 → acc.1 = (mdFold ps acc).1 → v ∈ (mdFold ps acc).2
| [], acc, v, hv, _ => hv
| (w, s) :: rest, acc, v, hv, hfst => by
  rw [mdFold_cons] at hfst ⊢
  have heq : acc.1 = (mdUpd w s acc).1 :=
    le_antisymm (mdUpd_fst_le w s acc) (by rw [hfst]; exact mdFold_fst_mono rest _)
  have hmem : v ∈ (mdUpd w s acc).2 := by
    rcases mdUpd_shape w s acc with ⟨h1, h2⟩ | ⟨h1, h2, h3⟩ | ⟨h1, h2, h3⟩
    · exact absurd (heq ▸ h1) (by rw [h2]; exact lt_irrefl _)
    · rw [h3]
      simp only [List.mem_append]
      exact Or.inl hv
    · rw [h3]
      exact hv
  exact mdFold_stay rest _ v hmem (heq ▸ hfst)

/-- A pair attaining the final running maximum puts its cut vertex in the
final `M_B`. -/
theorem mdFold_enter : ∀ (ps : List (Nat × Int)) (acc : Int × List Nat) (v : Nat) (r : Int),
    (v, r) ∈ ps → r = (mdFold ps acc).1 → v ∈ (mdFold ps acc).2
| [], _, _, _, h, _ => absurd h (List.not_mem_nil _)
| (w, s) :: rest, acc, v, r, hmem, hr => by
  rw [mdFold_cons] at hr ⊢
  rcases List.mem_cons.mp hmem with h1 | h1
  · rw [Prod.mk.injEq] at h1
    obtain ⟨hvw, hrs⟩ := h1
    have hmem2 : v ∈ (mdUpd w s acc).2 := by
      rcases mdUpd_shape w s acc with ⟨g1, g2⟩ | ⟨g1, g2, g3⟩ | ⟨g1, g2, g3⟩
      · rw [g2, hvw]
        simp
      · rw [g3, hvw]
        simp
      · rw [g3]
        rcases g2 with g2 | g2
        · exact hvw ▸ g2
        · exfalso
          have hb : acc.1 ≤ (mdFold rest (mdUpd w s acc)).1 := by
            rw [g3]
            exact mdFold_fst_mono rest _
          rw [← hr, hrs] at hb
          rcases lt_or_eq_of_le hb with hb2 | hb2
          · exact g1 hb2
          · exact g2 hb2
    have hfst2 : (mdUpd w s acc).1 = (mdFold rest (mdUpd w s acc)).1 := by
      refine le_antisymm (mdFold_fst_mono rest _) ?_
      rw [← hr, hrs]
      exact mdUpd_val_le w s acc
    exact mdFold_stay rest _ v hmem2 hfst2
  · exact mdFold_enter rest _ v r h1 hr

/-- Conversely, a member of the final `M_B` either survived from the
accumulator with an unchanged maximum, or was entered by a pair attaining
the final maximum. -/
theorem mdFold_mem_src : ∀ (ps : List (Nat × Int)) (acc : Int × List Nat) (v : Nat),
    v ∈ (mdFold ps acc).2 →
    (v ∈ acc.2 ∧ acc.1 = (mdFold ps acc).1) ∨
      ∃ r, (v, r) ∈ ps ∧ r = (mdFold ps acc).1
| [], acc, v, hv => Or.inl ⟨hv, rfl⟩
| (w, s) :: rest, acc, v, hv => by
  rw [mdFold_cons] at hv ⊢
  rcases mdFold_mem_src rest (mdUpd w s acc) v hv with ⟨h1, h2⟩ | ⟨r, h1, h2⟩
  · rcases mdUpd_shape w s acc with ⟨g1, g2⟩ | ⟨g1, g2, g3⟩ | ⟨g1, g2, g3⟩
    · rw [g2] at h1 h2 ⊢
      simp only [List.mem_singleton] at h1
      refine Or.inr ⟨s, ?_, h2⟩
      rw [h1]
      exact List.mem_cons_self _ _
    · rw [g3] at h1 h2 ⊢
      simp only [List.mem_append, List.mem_singleton] at h1
      rcases h1 with h1 | h1
      · exact Or.inl ⟨h1, h2⟩
      · refine Or.inr ⟨s, ?_, ?_⟩
        · rw [h1]
          exact List.mem_cons_self _ _
        · rw [← g1]
          exact h2
    · rw [g3] at h1 h2 ⊢
      exact Or.inl ⟨h1, h2⟩
  · exact Or.inr ⟨r, List.mem_cons_of_mem _ h1, h2⟩

theorem mdFold_nodup : ∀ (ps : List (Nat × Int)) (acc : Int × List Nat),
    acc.2.Nodup → (mdFold ps acc).2.Nodup
| [], _, h => h
| (w, s) :: rest, acc, h => by
  rw [mdFold_cons]
  refine mdFold_nodup rest _ ?_
  rcases mdUpd_shape w s acc with ⟨_, g2⟩ | ⟨_, g2, g3⟩ | ⟨_, _, g3⟩
  · rw [g2]
    simp
  · rw [g3]
    simpa [List.nodup_append] using ⟨h, g2⟩
  · rw [g3]
    exact h

theorem mdFold_mem_sub : ∀ (ps : List (Nat × Int)) (acc : Int × List Nat) (v : Nat),
    v ∈ (mdFold ps acc).2 → v ∈ acc.2 ∨ v ∈ ps.map Prod.fst
| [], acc, v, h => Or.inl h
| (w, s) :: rest, acc, v, h => by
  rw [mdFold_cons] at h
  rcases mdFold_mem_sub rest _ v h with h1 | h1
  · rcases mdUpd_shape w s acc with ⟨_, g2⟩ | ⟨_, _, g3⟩ | ⟨_, _, g3⟩
    · rw [g2] at h1
      simp only [List.mem_singleton] at h1
      exact Or.inr (by simp [h1])
    · rw [g3] at h1
      simp only [List.mem_append, List.mem_singleton] at h1
      rcases h1 with h1 | h1
      · exact Or.inl h1
      · exact Or.inr (by simp [h1])
    · rw [g3] at h1
      exact Or.inl h1
  · exact Or.inr (by simp [h1])

theorem setOnes_other (b : Nat) : ∀ (l : List Nat) (f : Nat × Nat → Int) (k : Nat × Nat),
    k.1 ≠ b → setOnes b l f k = f k
| [], _, _, _ => rfl
| v :: rest, f, k, h => by
  rw [setOnes, setOnes_other b rest _ k h,
    updF_other _ _ _ _ (fun hh => h (by rw [hh]))]

theorem setOnes_at (b : Nat) : ∀ (l : List Nat) (f : Nat × Nat → Int) (w : Nat),
    setOnes b l f (b, w) = (if w ∈ l then 1 else f (b, w))
| [], f, w => by simp [setOnes]
| v :: rest, f, w => by
  rw [setOnes, setOnes_at b rest _ w]
  by_cases hw : w ∈ rest
  · simp [hw]
  · by_cases hv : w = v
    · simp [hw, hv, updF_same]
    · rw [updF_other _ _ _ _ (by simp [hv])]
      simp [hw, hv]

theorem mdBU_snd (o : Oracle) (b : Nat) (cuts : List (Nat × List BTree)) (c : Nat)
    (st : MDState) :
    (mdBU o (.mk b cuts) c st).2 =
      ⟨(mdCuts o cuts 0 [] st).2.2.m_cB,
       setOnes b (mdCuts o cuts 0 [] st).2.1 (mdCuts o cuts 0 [] st).2.2.mdNL⟩ := by
  simp only [mdBU]
  split
  · rfl
  · split
    · rfl
    · rfl

mutual

theorem mdBU_frame (o : Oracle) : ∀ (t : BTree) (c : Nat) (st : MDState) (k : Nat × Nat),
    ¬ k.1 ∈ t.blockIds → (mdBU o t c st).2.mdNL k = st.mdNL k
| .mk b cuts, c, st, k, hk => by
  have hb : k.1 ≠ b := fun h => hk (by simp [BTree.blockIds, h])
  have hcuts : ¬ k.1 ∈ cutsBlockIds cuts := fun h => hk (by simp [BTree.blockIds, h])
  rw [mdBU_snd]
  show setOnes b (mdCuts o cuts 0 [] st).2.1 (mdCuts o cuts 0 [] st).2.2.mdNL k = st.mdNL k
  rw [setOnes_other b _ _ k hb]
  exact mdCuts_frame o cuts 0 [] st k hcuts

theorem mdCuts_frame (o : Oracle) : ∀ (l : List (Nat × List BTree)) (mB : Int)
    (MB : List Nat) (st : MDState) (k : Nat × Nat),
    ¬ k.1 ∈ cutsBlockIds l → (mdCuts o l mB MB st).2.2.mdNL k = st.mdNL k
| [], _, _, _, _, _ => rfl
| (v, bs) :: rest, mB, MB, st, k, hk => by
  have hbs : ¬ k.1 ∈ kidsBlockIds bs := fun h => hk (by simp [cutsBlockIds, h])
  have hrest : ¬ k.1 ∈ cutsBlockIds rest := fun h => hk (by simp [cutsBlockIds, h])
  simp only [mdCuts]
  rw [mdCuts_frame o rest _ _ _ k hrest]
  exact mdKids_frame o v bs mB MB st k hbs

theorem mdKids_frame (o : Oracle) (v : Nat) : ∀ (l : List BTree) (mB : Int)
    (MB : List Nat) (st : MDState) (k : Nat × Nat),
    ¬ k.1 ∈ kidsBlockIds l → (mdKids o v l mB MB st).2.2.mdNL k = st.mdNL k
| [], _, _, _, _, _ => rfl
| t :: rest, mB, MB, st, k, hk => by
  have ht : ¬ k.1 ∈ t.blockIds := fun h => hk (by simp [kidsBlockIds, h])
  have hrest : ¬ k.1 ∈ kidsBlockIds rest := fun h => hk (by simp [kidsBlockIds, h])
  have hB := mdBU_frame o t v st k ht
  simp only [mdKids]
  split
  · rw [mdKids_frame o v rest _ _ _ k hrest]
    exact hB
  · split
    · rw [mdKids_frame o v rest _ _ _ k hrest]
      exact hB
    · rw [mdKids_frame o v rest _ _ _ k hrest]
      exact hB

end

mutual

/-- The bottom-up traversal returns its functional specification, given a
well-formed BC-tree and the zero-initialised `md_nodeLength` table. -/
theorem mdBU_main (o : Oracle) : ∀ (t : BTree) (c : Nat) (st : MDState),
    t.wfb = true → t.blockIds.Nodup →
    (∀ k : Nat × Nat, k.1 ∈ t.blockIds → st.mdNL k = 0) →
    (mdBU o t c st).1 = mdSpec o t c
| .mk b cuts, c, st, hw, hnd, hz => by
  simp only [BTree.wfb, Bool.and_eq_true, decide_eq_true_eq] at hw
  simp only [BTree.blockIds, List.nodup_cons] at hnd
  have hzc : ∀ k : Nat × Nat, k.1 ∈ cutsBlockIds cuts → st.mdNL k = 0 :=
    fun k hk => hz k (by simp [BTree.blockIds, hk])
  have hacc := mdCuts_main o cuts 0 [] st hw.2 hnd.2 hzc
  have haccl : (mdCuts o cuts 0 [] st).1 = (mdAccCuts o cuts (0, [])).1 := by
    rw [← hacc]
  have haccr : (mdCuts o cuts 0 [] st).2.1 = (mdAccCuts o cuts (0, [])).2 := by
    rw [← hacc]
  have hrow : ∀ w : Nat,
      setOnes b (mdAccCuts o cuts (0, [])).2 (mdCuts o cuts 0 [] st).2.2.mdNL (b, w) =
      (if w ∈ (mdAccCuts o cuts (0, [])).2 then 1 else 0) := by
    intro w
    rw [setOnes_at]
    by_cases hmem : w ∈ (mdAccCuts o cuts (0, [])).2
    · simp [hmem]
    · rw [mdCuts_frame o cuts 0 [] st (b, w) hnd.1]
      simp [hmem, hz (b, w) (by simp [BTree.blockIds])]
  simp only [mdBU, mdSpec]
  rw [haccl, haccr]
  have hfun : (fun w => setOnes b (mdAccCuts o cuts (0, [])).2
      (mdCuts o cuts 0 [] st).2.2.mdNL (b, w)) =
      (fun w => if w ∈ (mdAccCuts o cuts (0, [])).2 then 1 else 0) := funext hrow
  rw [hfun]
  by_cases hA : (mdAccCuts o cuts (0, [])).2 = ([] : List Nat)
  · rw [if_pos hA, if_pos hA]
  · rw [if_neg hA, if_neg hA]
    by_cases hor : o b (some c) (fun w => if w ∈ (mdAccCuts o cuts (0, [])).2 then 1 else 0)
        (fun _ => 0) = ((mdAccCuts o cuts (0, [])).2.length : Int)
    · rw [if_pos hor, if_pos hor]
    · rw [if_neg hor, if_neg hor]

theorem mdCuts_main (o : Oracle) : ∀ (l : List (Nat × List BTree)) (mB : Int)
    (MB : List Nat) (st : MDState),
    cutsWfb l = true → (cutsBlockIds l).Nodup →
    (∀ k : Nat × Nat, k.1 ∈ cutsBlockIds l → st.mdNL k = 0) →
    ((mdCuts o l mB MB st).1, (mdCuts o l mB MB st).2.1) = mdAccCuts o l (mB, MB)
| [], _, _, _, _, _, _ => rfl
| (v, bs) :: rest, mB, MB, st, hw, hnd, hz => by
  simp only [cutsWfb, Bool.and_eq_true] at hw
  simp only [cutsBlockIds, List.nodup_append] at hnd
  have hzk : ∀ k : Nat × Nat, k.1 ∈ kidsBlockIds bs → st.mdNL k = 0 :=
    fun k hk => hz k (by simp [cutsBlockIds, hk])
  have hkids := mdKids_main o v bs mB MB st hw.1 hnd.1 hzk
  have hz2 : ∀ k : Nat × Nat, k.1 ∈ cutsBlockIds rest →
      (mdKids o v bs mB MB st).2.2.mdNL k = 0 := by
    intro k hk
    rw [mdKids_frame o v bs mB MB st k (fun h => hnd.2.2 h hk)]
    exact hz k (by simp [cutsBlockIds, hk])
  have hrec := mdCuts_main o rest (mdKids o v bs mB MB st).1
    (mdKids o v bs mB MB st).2.1 (mdKids o v bs mB MB st).2.2 hw.2 hnd.2.1 hz2
  simp only [mdCuts, mdAccCuts]
  rw [hrec, ← hkids]

theorem mdKids_main (o : Oracle) (v : Nat) : ∀ (l : List BTree) (mB : Int)
    (MB : List Nat) (st : MDState),
    kidsWfb v l = true → (kidsBlockIds l).Nodup →
    (∀ k : Nat × Nat, k.1 ∈ kidsBlockIds l → st.mdNL k = 0) →
    ((mdKids o v l mB MB st).1, (mdKids o v l mB MB st).2.1) = mdAccKids o v l (mB, MB)
| [], _, _, _, _, _, _ => rfl
| t :: rest, mB, MB, st, hw, hnd, hz => by
  simp only [kidsWfb, Bool.and_eq_true, Bool.not_eq_true'] at hw
  simp only [kidsBlockIds, List.nodup_append] at hnd
  have hzt : ∀ k : Nat × Nat, k.1 ∈ t.blockIds → st.mdNL k = 0 :=
    fun k hk => hz k (by simp [kidsBlockIds, hk])
  have hval := mdBU_main o t v st hw.1.2 hnd.1 hzt
  have hz2 : ∀ k : Nat × Nat, k.1 ∈ kidsBlockIds rest → (mdBU o t v st).2.mdNL k = 0 := by
    intro k hk
    rw [mdBU_frame o t v st k (fun h => hnd.2.2 h hk)]
    exact hz k (by simp [kidsBlockIds, hk])
  have hrec1 := mdKids_main o v rest (mdBU o t v st).1 [v]
    ⟨updN (mdBU o t v st).2.m_cB t.bid (mdBU o t v st).1, (mdBU o t v st).2.mdNL⟩
    hw.2 hnd.2.1 hz2
  have hrec2 := mdKids_main o v rest mB (MB ++ [v])
    ⟨updN (mdBU o t v st).2.m_cB t.bid (mdBU o t v st).1, (mdBU o t v st).2.mdNL⟩
    hw.2 hnd.2.1 hz2
  have hrec3 := mdKids_main o v rest mB MB
    ⟨updN (mdBU o t v st).2.m_cB t.bid (mdBU o t v st).1, (mdBU o t v st).2.mdNL⟩
    hw.2 hnd.2.1 hz2
  simp only [mdKids, mdAccKids]
  by_cases h1 : mB < (mdBU o t v st).1
  · rw [if_pos h1, hrec1]
    have hupd : mdUpd v (mdSpec o t v) (mB, MB) = ((mdBU o t v st).1, [v]) := by
      unfold mdUpd
      rw [← hval]
      simp [h1]
    rw [hupd]
  · by_cases h2 : mB = (mdBU o t v st).1 ∧ ¬ v ∈ MB
    · rw [if_neg h1, if_pos h2, hrec2]
      have hupd : mdUpd v (mdSpec o t v) (mB, MB) = (mB, MB ++ [v]) := by
        unfold mdUpd
        rw [← hval]
        simp [h1, h2.1, h2.2]
      rw [hupd]
    · rw [if_neg h1, if_neg h2, hrec3]
      have hupd : mdUpd v (mdSpec o t v) (mB, MB) = (mB, MB) := by
        unfold mdUpd
        rw [← hval]
        rw [if_neg h1, if_neg h2]
      rw [hupd]
end

theorem mdPairs_fst_sub (o : Oracle) : ∀ (l : List (Nat × List BTree)) (x : Nat),
    x ∈ (mdPairs o l).map Prod.fst → x ∈ l.map Prod.fst
| [], _, h => by simpa [mdPairs] using h
| (v, bs) :: rest, x, h => by
  simp only [mdPairs, List.map_append, List.mem_append, List.map_map] at h
  rcases h with h | h
  · simp only [List.mem_map] at h
    obtain ⟨t, _, ht⟩ := h
    simp only [Function.comp] at ht
    simp [← ht]
  · exact List.mem_cons_of_mem _ (mdPairs_fst_sub o rest x h)

theorem mdPairs_mem (o : Oracle) : ∀ (l : List (Nat × List BTree)) (v : Nat)
    (bs : List BTree) (t2 : BTree), (v, bs) ∈ l → t2 ∈ bs →
    (v, mdSpec o t2 v) ∈ mdPairs o l
| [], _, _, _, h, _ => absurd h (List.not_mem_nil _)
| (v0, bs0) :: rest, v, bs, t2, hmem, ht2 => by
  simp only [mdPairs, List.mem_append]
  rcases List.mem_cons.mp hmem with h | h
  · rw [Prod.mk.injEq] at h
    refine Or.inl (List.mem_map.mpr ⟨t2, ?_, ?_⟩)
    · rw [← h.2]
      exact ht2
    · rw [h.1]
  · exact Or.inr (mdPairs_mem o rest v bs t2 h ht2)

theorem mdPairs_mem_inv (o : Oracle) : ∀ (l : List (Nat × List BTree)) (v0 : Nat) (r : Int),
    (v0, r) ∈ mdPairs o l → ∃ bs, (v0, bs) ∈ l ∧ ∃ t2 ∈ bs, r = mdSpec o t2 v0
| [], _, _, h => absurd h (by simp [mdPairs])
| (v, bs) :: rest, v0, r, h => by
  simp only [mdPairs, List.mem_append] at h
  rcases h with h | h
  · simp only [List.mem_map, Prod.mk.injEq] at h
    obtain ⟨t2, ht2, hv, hr⟩ := h
    refine ⟨bs, by rw [← hv]; exact List.mem_cons_self _ _, t2, ht2, ?_⟩
    rw [← hv]
    exact hr.symm
  · obtain ⟨bs2, h1, t2, ht2, hr⟩ := mdPairs_mem_inv o rest v0 r h
    exact ⟨bs2, List.mem_cons_of_mem _ h1, t2, ht2, hr⟩

/-- C10: every call `md_bottomUpTraversal(bT, cH)` of
`EmbedderMinDepthMaxFaceLayers` invokes the face-size oracle (when `M_B` is
nonempty) with all edge lengths 0 and node length 1 exactly on the cut
vertices in `M_B` — the cut vertices attaining the maximal recursive child
value `m_B` over `md_m_cB` (third and fourth conjuncts; in particular the
anchor's node length is 0, second conjunct) — and returns 1 if `M_B` is
empty, `m_B` if the oracle's constrained face size equals `|M_B|`, and
`m_B + 2` otherwise (first conjunct). -/
theorem C10_md_bottom_up_traversal (o : Oracle) (t : BTree) (c : Nat) (st : MDState)
    (hw : t.wfb = true) (hnd : t.blockIds.Nodup) (hc : ¬ c ∈ t.cuts.map Prod.fst)
    (hz : ∀ k : Nat × Nat, k.1 ∈ t.blockIds → st.mdNL k = 0) :
    ((mdBU o t c st).1 =
      (if (mdAccCuts o t.cuts (0, [])).2 = [] then 1
       else if o t.bid (some c)
           (fun w => if w ∈ (mdAccCuts o t.cuts (0, [])).2 then 1 else 0) (fun _ => 0)
           = ((mdAccCuts o t.cuts (0, [])).2.length : Int)
         then (mdAccCuts o t.cuts (0, [])).1
       else (mdAccCuts o t.cuts (0, [])).1 + 2)) ∧
    ((fun w => if w ∈ (mdAccCuts o t.cuts (0, [])).2 then (1 : Int) else 0) c = 0) ∧
    (∀ v bs, (v, bs) ∈ t.cuts → ∀ t2 ∈ bs,
      (mdBU o t2 v st).1 ≤ (mdAccCuts o t.cuts (0, [])).1) ∧
    (∀ v0, v0 ∈ (mdAccCuts o t.cuts (0, [])).2 ↔
      ∃ bs, (v0, bs) ∈ t.cuts ∧ ∃ t2 ∈ bs,
        (mdBU o t2 v0 st).1 = (mdAccCuts o t.cuts (0, [])).1) := by
  have hfst : (t.cuts.map Prod.fst).Nodup ∧ cutsWfb t.cuts = true := by
    cases t with
    | mk b cuts =>
      simpa [BTree.wfb, Bool.and_eq_true, decide_eq_true_eq, BTree.cuts] using hw
  have hsub : ∀ v bs t2, (v, bs) ∈ t.cuts → t2 ∈ bs →
      t2.wfb = true ∧ t2.blockIds.Nodup ∧
      (∀ k : Nat × Nat, k.1 ∈ t2.blockIds → st.mdNL k = 0) := by
    intro v bs t2 hcut ht2
    have hkw := cutsWfb_mem t.cuts v bs hfst.2 hcut
    have hww := kidsWfb_mem v bs t2 hkw ht2
    have hsl := blockIds_sub t v bs t2 hcut ht2
    exact ⟨hww.1, hnd.sublist hsl, fun k hk => hz k (hsl.subset hk)⟩
  have hvalsub : ∀ v bs t2, (v, bs) ∈ t.cuts → t2 ∈ bs →
      (mdBU o t2 v st).1 = mdSpec o t2 v := by
    intro v bs t2 hcut ht2
    obtain ⟨h1, h2, h3⟩ := hsub v bs t2 hcut ht2
    exact mdBU_main o t2 v st h1 h2 h3
  have hAeq : mdAccCuts o t.cuts (0, []) = mdFold (mdPairs o t.cuts) (0, []) :=
    mdAccCuts_eq_fold o t.cuts (0, [])
  have hcA : ¬ c ∈ (mdAccCuts o t.cuts (0, [])).2 := by
    intro hmem
    rw [hAeq] at hmem
    rcases mdFold_mem_sub (mdPairs o t.cuts) (0, []) c hmem with h | h
    · exact absurd h (List.not_mem_nil _)
    · exact hc (mdPairs_fst_sub o t.cuts c h)
  refine ⟨?_, by simp [hcA], ?_, ?_⟩
  · have hmain := mdBU_main o t c st hw hnd hz
    rw [hmain]
    cases t with
    | mk b cuts => rfl
  · intro v bs hcut t2 ht2
    rw [hvalsub v bs t2 hcut ht2, hAeq]
    exact mdFold_val_le (mdPairs o t.cuts) (0, []) (v, mdSpec o t2 v)
      (mdPairs_mem o t.cuts v bs t2 hcut ht2)
  · intro v0
    constructor
    · intro hmem
      rw [hAeq] at hmem
      rcases mdFold_mem_src (mdPairs o t.cuts) (0, []) v0 hmem with ⟨h, _⟩ | ⟨r, h1, h2⟩
      · exact absurd h (List.not_mem_nil _)
      · obtain ⟨bs, hb1, t2, ht2, hr⟩ := mdPairs_mem_inv o t.cuts v0 r h1
        refine ⟨bs, hb1, t2, ht2, ?_⟩
        rw [hvalsub v0 bs t2 hb1 ht2, ← hr, h2, hAeq]
    · intro ⟨bs, hb1, t2, ht2, hval⟩
      rw [hAeq]
      refine mdFold_enter (mdPairs o t.cuts) (0, []) v0 (mdSpec o t2 v0)
        (mdPairs_mem o t.cuts v0 bs t2 hb1 ht2) ?_
      rw [← hvalsub v0 bs t2 hb1 ht2, hval, hAeq]

/-- Witness for C10 at the concrete BC-tree `exT`, a concrete oracle, the
zero tables and anchor 9. -/
theorem C10_md_bottom_up_traversal_witness :
    (exT.wfb = true ∧ exT.blockIds.Nodup ∧ ¬ (9 : Nat) ∈ exT.cuts.map Prod.fst ∧
      (∀ k : Nat × Nat, k.1 ∈ exT.blockIds → (⟨fun _ => 0, fun _ => 0⟩ : MDState).mdNL k = 0)) ∧
    ((fun w => if w ∈ (mdAccCuts exO exT.cuts (0, [])).2 then (1 : Int) else 0) 9 = 0) ∧
    (∀ v0, v0 ∈ (mdAccCuts exO exT.cuts (0, [])).2 ↔
      ∃ bs, (v0, bs) ∈ exT.cuts ∧ ∃ t2 ∈ bs,
        (mdBU exO t2 v0 ⟨fun _ => 0, fun _ => 0⟩).1 = (mdAccCuts exO exT.cuts (0, [])).1) := by
  have h := C10_md_bottom_up_traversal exO exT 9 ⟨fun _ => 0, fun _ => 0⟩
    (by decide) (by decide) (by decide) (fun k _ => rfl)
  exact ⟨⟨by decide, by decide, by decide, fun k _ => rfl⟩, h.2.1, h.2.2.2⟩

theorem setExt_visited (inp : EmbedIn) (b : Nat) (st : ESt) :
    (setExt inp b st).visited = st.visited := by
  unfold setExt
  cases st.adjExt with
  | none => rfl
  | some x => rfl

theorem setExt_newOrder (inp : EmbedIn) (b : Nat) (st : ESt) :
    (setExt inp b st).newOrder = st.newOrder := by
  unfold setExt
  cases st.adjExt with
  | none => rfl
  | some x => rfl

theorem setExt_some (inp : EmbedIn) (b : Nat) (st : ESt) (x : Dart)
    (h : st.adjExt = some x) : (setExt inp b st).adjExt = some x := by
  unfold setExt
  rw [h]
  exact h

theorem setExt_none (inp : EmbedIn) (b : Nat) (st : ESt)
    (h : st.adjExt = none) : (setExt inp b st).adjExt = some (lookupBlk inp.blocks b).ext := by
  unfold setExt
  rw [h]

theorem insertDarts_visited (g : G2) (v : Nat) (es : List Nat) (st : ESt) :
    (insertDarts g v es st).visited = st.visited := rfl

theorem insertDarts_adjExt (g : G2) (v : Nat) (es : List Nat) (st : ESt) :
    (insertDarts g v es st).adjExt = st.adjExt := rfl

mutual

/-- The treated list only grows, by appending. -/
theorem embedBlk_vis (inp : EmbedIn) (b : Nat) (cT : Option Nat) (st : ESt) : ∀ (fuel : Nat),
    ∃ l, (embedBlk inp b cT st fuel).visited = st.visited ++ l
| 0 => by
  simp only [embedBlk]
  exact ⟨[], by simp⟩
| fuel + 1 => by
  simp only [embedBlk]
  obtain ⟨l, hl⟩ := vertLoop_vis inp b cT (lookupBlk inp.blocks b).rot
    (setExt inp b { st with visited := st.visited ++ [b] }) fuel
  refine ⟨b :: l, ?_⟩
  rw [hl, setExt_visited]
  simp
termination_by fuel => (fuel, 0, 0)

theorem vertLoop_vis (inp : EmbedIn) (b : Nat) (cT : Option Nat) :
    ∀ (l : List (Nat × List Nat)) (st : ESt) (fuel : Nat),
    ∃ l2, (vertLoop inp b cT l st fuel).visited = st.visited ++ l2
| [], st, fuel => by
  simp only [vertLoop]
  exact ⟨[], by simp⟩
| (v, es) :: rest, st, fuel => by
  simp only [vertLoop]
  by_cases hcut : inp.isCut v = true
  · rw [if_pos hcut]
    by_cases hskip : cT = some v ∧ inp.parentBlk v ∈ st.visited
    · rw [if_pos hskip]
      obtain ⟨l2, hl2⟩ := vertLoop_vis inp b cT rest
        (insertDarts inp.g v (rotFrom (inp.start b v) es) st) fuel
      exact ⟨l2, by rw [hl2]; rfl⟩
    · rw [if_neg hskip]
      obtain ⟨l1, hl1⟩ := blkLoop_vis inp v (inp.blocksAt v) st fuel
      obtain ⟨l2, hl2⟩ := vertLoop_vis inp b cT rest
        (insertDarts inp.g v (rotFrom (inp.start b v) es)
          (blkLoop inp v (inp.blocksAt v) st fuel)) fuel
      refine ⟨l1 ++ l2, ?_⟩
      rw [hl2]
      show (insertDarts _ _ _ _).visited ++ l2 = _
      rw [insertDarts_visited, hl1]
      simp
  · rw [if_neg hcut]
    obtain ⟨l2, hl2⟩ := vertLoop_vis inp b cT rest
      (insertDarts inp.g v (rotFrom (inp.start b v) es) st) fuel
    exact ⟨l2, by rw [hl2]; rfl⟩
termination_by l st fuel => (fuel, 2, l.length)

theorem blkLoop_vis (inp : EmbedIn) (v : Nat) : ∀ (l : List Nat) (st : ESt) (fuel : Nat),
    ∃ l2, (blkLoop inp v l st fuel).visited = st.visited ++ l2
| [], st, fuel => by
  simp only [blkLoop]
  exact ⟨[], by simp⟩
| b2 :: rest, st, fuel => by
  simp only [blkLoop]
  by_cases hb2 : b2 ∈ st.visited
  · rw [if_pos hb2]
    obtain ⟨l2, hl2⟩ := blkLoop_vis inp v rest st fuel
    exact ⟨l2, hl2⟩
  · rw [if_neg hb2]
    obtain ⟨l1, hl1⟩ := embedBlk_vis inp b2 (some v) st fuel
    obtain ⟨l2, hl2⟩ := blkLoop_vis inp v rest (embedBlk inp b2 (some v) st fuel) fuel
    refine ⟨l1 ++ l2, ?_⟩
    rw [hl2, hl1]
    simp

termination_by l st fuel => (fuel, 1, l.length)

end

theorem countP_lt_of_mem (p q : Nat → Bool) : ∀ (l : List Nat),
    (∀ x ∈ l, p x = true → q x = true) → ∀ b, b ∈ l → q b = true → p b = false →
    l.countP p < l.countP q
| [], _, b, hb, _, _ => absurd hb (List.not_mem_nil b)
| a :: l, himp, b, hb, hq, hp => by
  rw [List.countP_cons, List.countP_cons]
  have hmono : l.countP p ≤ l.countP q :=
    List.countP_mono_left (fun x hx => himp x (List.mem_cons_of_mem a hx))
  rcases List.mem_cons.mp hb with rfl | hbl
  · rw [hp, hq]
    simp only [Bool.false_eq_true, if_false, if_true]
    omega
  · have hlt := countP_lt_of_mem p q l
      (fun x hx => himp x (List.mem_cons_of_mem a hx)) b hbl hq hp
    by_cases hpa : p a = true
    · rw [hpa, himp a (List.mem_cons_self a l) hpa]
      omega
    · rw [Bool.not_eq_true] at hpa
      rw [hpa]
      simp only [Bool.false_eq_true, if_false]
      omega

theorem unvis_append (inp : EmbedIn) (st st' : ESt) (l : List Nat)
    (h : st'.visited = st.visited ++ l) : unvis inp st' ≤ unvis inp st := by
  unfold unvis
  apply List.countP_mono_left
  intro b _
  simp only [decide_eq_true_eq, h, List.mem_append]
  intro hn hb
  exact hn (Or.inl hb)

theorem unvis_mark (inp : EmbedIn) (st : ESt) (b : Nat) (hb : b ∈ blkIds inp)
    (hnv : b ∉ st.visited) :
    unvis inp { st with visited := st.visited ++ [b] } < unvis inp st := by
  unfold unvis
  apply countP_lt_of_mem _ _ _ _ b hb
  · exact decide_eq_true hnv
  · apply decide_eq_false
    intro hmem
    simp only [List.mem_append] at hmem
    exact hmem (Or.inr (List.mem_singleton.mpr rfl))
  · intro x _
    simp only [decide_eq_true_eq, List.mem_append]
    intro hn hx
    exact hn (Or.inl hx)

theorem insertDarts_count (g : G2) (w : Nat) (es : List Nat) (st : ESt) (v : Nat) (d : Dart) :
    newCount (insertDarts g w es st) v d =
      newCount st v d + insC g v d (w, es) := by
  by_cases h : w = v
  · subst h
    simp only [newCount, insertDarts, insC, eq_self_iff_true, if_true, List.count_append]
    congr 1
    exact List.countP_map (fun x => decide (x = d)) (dartAt g w) es
  · simp [newCount, insertDarts, insC, h, show ¬ v = w from fun he => h he.symm]

theorem rotFrom_countP (k : Nat) (l : List Nat) (p : Nat → Bool) :
    (rotFrom k l).countP p = l.countP p := by
  unfold rotFrom
  rw [List.countP_append, Nat.add_comm, ← List.countP_append, List.take_append_drop]

theorem covered_mono (inp : EmbedIn) (st st' : ESt) (l : List Nat)
    (h : st'.visited = st.visited ++ l) (v : Nat) (hc : covered inp st v) :
    covered inp st' v := by
  intro b2 hb2
  rw [h]
  exact List.mem_append_left l (hc b2 hb2)

theorem cutsCovered_mono (inp : EmbedIn) (st st' : ESt) (l : List Nat) (P : List Nat)
    (b' : Nat) (h : st'.visited = st.visited ++ l) (hc : cutsCovered inp st P b') :
    cutsCovered inp st' P b' := by
  intro v es hv hcut
  exact (hc v es hv hcut).imp (covered_mono inp st st' l h v) id

theorem cutsCovered_unpend (inp : EmbedIn) (st : ESt) (w : Nat) (P : List Nat)
    (b' : Nat) (hc : cutsCovered inp st (w :: P) b') (hw : covered inp st w) :
    cutsCovered inp st P b' := by
  intro v es hv hcut
  rcases hc v es hv hcut with h | h
  · exact Or.inl h
  · rcases List.mem_cons.mp h with rfl | h2
    · exact Or.inl hw
    · exact Or.inr h2

theorem unvis_eq_of_visited (inp : EmbedIn) (st st' : ESt)
    (h : st'.visited = st.visited) : unvis inp st' = unvis inp st := by
  unfold unvis
  rw [h]

theorem insC_rotFrom (g : G2) (v : Nat) (d : Dart) (w k : Nat) (es : List Nat) :
    insC g v d (w, rotFrom k es) = insC g v d (w, es) := by
  unfold insC
  by_cases h : w = v
  · rw [if_pos h, if_pos h, rotFrom_countP]
  · rw [if_neg h, if_neg h]

theorem unvis_pos (inp : EmbedIn) (st : ESt) (b : Nat) (hbid : b ∈ blkIds inp)
    (hnv : b ∉ st.visited) : 0 < unvis inp st := by
  unfold unvis
  exact List.countP_pos_iff.mpr ⟨b, hbid, decide_eq_true hnv⟩

mutual

/-- Full postcondition of one `embedBlock` call: the set of newly treated
blocks contains the block itself, is fresh and duplicate-free, every
adjacency entry count grows by exactly the contributions of the newly
treated blocks, and every cut vertex of a newly treated block either has
all its incident blocks treated or is pending in an enclosing block loop. -/
theorem embedBlk_post (inp : EmbedIn)
    (hW5 : ∀ v, ∀ b2 ∈ inp.blocksAt v, b2 ∈ blkIds inp) (b : Nat) (cT : Option Nat)
    (P : List Nat) (hcT : ∀ v, cT = some v → v ∈ P) (st : ESt) : ∀ (fuel : Nat),
    b ∉ st.visited → b ∈ blkIds inp → unvis inp st ≤ fuel →
    ∃ Δ, (embedBlk inp b cT st fuel).visited = st.visited ++ Δ ∧
      Δ.Nodup ∧ (∀ x ∈ Δ, x ∉ st.visited) ∧ (∀ x ∈ Δ, x ∈ blkIds inp) ∧ b ∈ Δ ∧
      (∀ v d, newCount (embedBlk inp b cT st fuel) v d =
        newCount st v d + (Δ.map (fun b2 => contrib inp b2 v d)).sum) ∧
      (∀ b2 ∈ Δ, cutsCovered inp (embedBlk inp b cT st fuel) P b2)
| 0, hnv, hbid, hf => by
  exfalso
  have h1 := unvis_pos inp st b hbid hnv
  omega
| fuel + 1, hnv, hbid, hf => by
  simp only [embedBlk]
  have hvisM : (setExt inp b { st with visited := st.visited ++ [b] }).visited
      = st.visited ++ [b] := by rw [setExt_visited]
  have hcntM : ∀ v d,
      newCount (setExt inp b { st with visited := st.visited ++ [b] }) v d
        = newCount st v d := by
    intro v d
    unfold newCount
    rw [setExt_newOrder]
  have hunv : unvis inp (setExt inp b { st with visited := st.visited ++ [b] }) ≤ fuel := by
    have h1 := unvis_eq_of_visited inp { st with visited := st.visited ++ [b] }
      (setExt inp b { st with visited := st.visited ++ [b] }) (by rw [setExt_visited])
    have h2 := unvis_mark inp st b hbid hnv
    omega
  obtain ⟨Δ, hΔvis, hΔnd, hΔdisj, hΔsub, hΔcnt, hΔent, hΔcc⟩ :=
    vertLoop_post inp hW5 b cT P hcT (lookupBlk inp.blocks b).rot
      (setExt inp b { st with visited := st.visited ++ [b] }) fuel hunv
  refine ⟨b :: Δ, ?_, ?_, ?_, ?_, ?_, ?_, ?_⟩
  · rw [hΔvis, hvisM]
    simp
  · refine List.nodup_cons.mpr ⟨?_, hΔnd⟩
    intro hbΔ
    exact hΔdisj b hbΔ (by rw [hvisM]; exact List.mem_append_right _ (List.mem_singleton.mpr rfl))
  · intro x hx
    rcases List.mem_cons.mp hx with rfl | hx2
    · exact hnv
    · intro hxv
      exact hΔdisj x hx2 (by rw [hvisM]; exact List.mem_append_left _ hxv)
  · intro x hx
    rcases List.mem_cons.mp hx with rfl | hx2
    · exact hbid
    · exact hΔsub x hx2
  · exact List.mem_cons_self b Δ
  · intro v d
    rw [hΔcnt v d, hcntM v d]
    simp only [List.map_cons, List.sum_cons, contrib]
    omega
  · intro b2 hb2
    rcases List.mem_cons.mp hb2 with rfl | hb2'
    · intro v es hv hcut
      exact hΔent (v, es) hv hcut
    · exact hΔcc b2 hb2'
termination_by fuel _ _ _ => (fuel, 0, 0)

/-- Postcondition of the vertex loop of `embedBlock`. -/
theorem vertLoop_post (inp : EmbedIn)
    (hW5 : ∀ v, ∀ b2 ∈ inp.blocksAt v, b2 ∈ blkIds inp) (b : Nat) (cT : Option Nat)
    (P : List Nat) (hcT : ∀ v, cT = some v → v ∈ P) :
    ∀ (l : List (Nat × List Nat)) (st : ESt) (fuel : Nat), unvis inp st ≤ fuel →
    ∃ Δ, (vertLoop inp b cT l st fuel).visited = st.visited ++ Δ ∧
      Δ.Nodup ∧ (∀ x ∈ Δ, x ∉ st.visited) ∧ (∀ x ∈ Δ, x ∈ blkIds inp) ∧
      (∀ v d, newCount (vertLoop inp b cT l st fuel) v d =
        newCount st v d + (l.map (insC inp.g v d)).sum +
          (Δ.map (fun b2 => contrib inp b2 v d)).sum) ∧
      (∀ p ∈ l, inp.isCut p.1 = true →
        covered inp (vertLoop inp b cT l st fuel) p.1 ∨ p.1 ∈ P) ∧
      (∀ b2 ∈ Δ, cutsCovered inp (vertLoop inp b cT l st fuel) P b2)
| [], st, fuel, hf => by
  simp only [vertLoop]
  exact ⟨[], by simp, List.nodup_nil, by simp, by simp, by simp, by simp, by simp⟩
| (w, es) :: rest, st, fuel, hf => by
  simp only [vertLoop]
  by_cases hcut : inp.isCut w = true
  · rw [if_pos hcut]
    by_cases hskip : cT = some w ∧ inp.parentBlk w ∈ st.visited
    · rw [if_pos hskip]
      have hf2 : unvis inp (insertDarts inp.g w (rotFrom (inp.start b w) es) st) ≤ fuel := by
        rw [unvis_eq_of_visited inp st _ (insertDarts_visited _ _ _ _)]
        exact hf
      obtain ⟨Δ, hΔvis, hΔnd, hΔdisj, hΔsub, hΔcnt, hΔent, hΔcc⟩ :=
        vertLoop_post inp hW5 b cT P hcT rest
          (insertDarts inp.g w (rotFrom (inp.start b w) es) st) fuel hf2
      refine ⟨Δ, ?_, hΔnd, ?_, hΔsub, ?_, ?_, hΔcc⟩
      · rw [hΔvis, insertDarts_visited]
      · intro x hx
        have := hΔdisj x hx
        rw [insertDarts_visited] at this
        exact this
      · intro v d
        rw [hΔcnt v d, insertDarts_count, insC_rotFrom]
        simp only [List.map_cons, List.sum_cons]
        omega
      · intro p hp hpcut
        rcases List.mem_cons.mp hp with rfl | hp2
        · exact Or.inr (hcT w hskip.1)
        · exact hΔent p hp2 hpcut
    · rw [if_neg hskip]
      obtain ⟨ΔC, hCvis, hCnd, hCdisj, hCsub, hCcnt, hCall, hCcc⟩ :=
        blkLoop_post inp hW5 w (w :: P) (List.mem_cons_self w P) (inp.blocksAt w) st fuel hf
          (fun b2 hb2 => hW5 w b2 hb2)
      have hf2 : unvis inp (insertDarts inp.g w (rotFrom (inp.start b w) es)
          (blkLoop inp w (inp.blocksAt w) st fuel)) ≤ fuel := by
        rw [unvis_eq_of_visited inp (blkLoop inp w (inp.blocksAt w) st fuel) _
          (insertDarts_visited _ _ _ _)]
        exact le_trans (unvis_append inp st _ ΔC hCvis) hf
      obtain ⟨ΔR, hRvis, hRnd, hRdisj, hRsub, hRcnt, hRent, hRcc⟩ :=
        vertLoop_post inp hW5 b cT P hcT rest
          (insertDarts inp.g w (rotFrom (inp.start b w) es)
            (blkLoop inp w (inp.blocksAt w) st fuel)) fuel hf2
      have hIvis : (insertDarts inp.g w (rotFrom (inp.start b w) es)
          (blkLoop inp w (inp.blocksAt w) st fuel)).visited
            = st.visited ++ ΔC := by
        rw [insertDarts_visited, hCvis]
      have hFvis : (vertLoop inp b cT rest
          (insertDarts inp.g w (rotFrom (inp.start b w) es)
            (blkLoop inp w (inp.blocksAt w) st fuel)) fuel).visited
          = st.visited ++ (ΔC ++ ΔR) := by
        rw [hRvis, hIvis, List.append_assoc]
      have hFvis1 : (vertLoop inp b cT rest
          (insertDarts inp.g w (rotFrom (inp.start b w) es)
            (blkLoop inp w (inp.blocksAt w) st fuel)) fuel).visited
          = (blkLoop inp w (inp.blocksAt w) st fuel).visited ++ ΔR := by
        rw [hRvis, insertDarts_visited]
      have hcovw : covered inp (vertLoop inp b cT rest
          (insertDarts inp.g w (rotFrom (inp.start b w) es)
            (blkLoop inp w (inp.blocksAt w) st fuel)) fuel) w :=
        covered_mono inp _ _ ΔR hFvis1 w hCall
      refine ⟨ΔC ++ ΔR, hFvis, ?_, ?_, ?_, ?_, ?_, ?_⟩
      · rw [List.nodup_append]
        refine ⟨hCnd, hRnd, ?_⟩
        intro a haC haR
        exact hRdisj a haR (by rw [hIvis]; exact List.mem_append_right _ haC)
      · intro x hx
        rcases List.mem_append.mp hx with hxC | hxR
        · exact hCdisj x hxC
        · intro hxv
          exact hRdisj x hxR (by rw [hIvis]; exact List.mem_append_left _ hxv)
      · intro x hx
        rcases List.mem_append.mp hx with hxC | hxR
        · exact hCsub x hxC
        · exact hRsub x hxR
      · intro v d
        rw [hRcnt v d, insertDarts_count, insC_rotFrom, hCcnt v d]
        simp only [List.map_cons, List.sum_cons, List.map_append, List.sum_append]
        omega
      · intro p hp hpcut
        rcases List.mem_cons.mp hp with rfl | hp2
        · exact Or.inl hcovw
        · exact hRent p hp2 hpcut
      · intro b2 hb2
        rcases List.mem_append.mp hb2 with hbC | hbR
        · exact cutsCovered_unpend inp _ w P b2
            (cutsCovered_mono inp _ _ ΔR (w :: P) b2 hFvis1 (hCcc b2 hbC)) hcovw
        · exact hRcc b2 hbR
  · rw [if_neg hcut]
    have hf2 : unvis inp (insertDarts inp.g w (rotFrom (inp.start b w) es) st) ≤ fuel := by
      rw [unvis_eq_of_visited inp st _ (insertDarts_visited _ _ _ _)]
      exact hf
    obtain ⟨Δ, hΔvis, hΔnd, hΔdisj, hΔsub, hΔcnt, hΔent, hΔcc⟩ :=
      vertLoop_post inp hW5 b cT P hcT rest
        (insertDarts inp.g w (rotFrom (inp.start b w) es) st) fuel hf2
    refine ⟨Δ, ?_, hΔnd, ?_, hΔsub, ?_, ?_, hΔcc⟩
    · rw [hΔvis, insertDarts_visited]
    · intro x hx
      have := hΔdisj x hx
      rw [insertDarts_visited] at this
      exact this
    · intro v d
      rw [hΔcnt v d, insertDarts_count, insC_rotFrom]
      simp only [List.map_cons, List.sum_cons]
      omega
    · intro p hp hpcut
      rcases List.mem_cons.mp hp with rfl | hp2
      · exact absurd hpcut hcut
      · exact hΔent p hp2 hpcut
termination_by l st fuel _ => (fuel, 2, l.length)

/-- Postcondition of the loop over the blocks incident to a cut vertex. -/
theorem blkLoop_post (inp : EmbedIn)
    (hW5 : ∀ v, ∀ b2 ∈ inp.blocksAt v, b2 ∈ blkIds inp) (v : Nat) (P : List Nat)
    (hvP : v ∈ P) : ∀ (l : List Nat) (st : ESt) (fuel : Nat), unvis inp st ≤ fuel →
    (∀ b2 ∈ l, b2 ∈ blkIds inp) →
    ∃ Δ, (blkLoop inp v l st fuel).visited = st.visited ++ Δ ∧
      Δ.Nodup ∧ (∀ x ∈ Δ, x ∉ st.visited) ∧ (∀ x ∈ Δ, x ∈ blkIds inp) ∧
      (∀ w d, newCount (blkLoop inp v l st fuel) w d =
        newCount st w d + (Δ.map (fun b2 => contrib inp b2 w d)).sum) ∧
      (∀ b2 ∈ l, b2 ∈ (blkLoop inp v l st fuel).visited) ∧
      (∀ b2 ∈ Δ, cutsCovered inp (blkLoop inp v l st fuel) P b2)
| [], st, fuel, hf, hl => by
  simp only [blkLoop]
  exact ⟨[], by simp, List.nodup_nil, by simp, by simp, by simp, by simp, by simp⟩
| b2 :: rest, st, fuel, hf, hl => by
  simp only [blkLoop]
  by_cases hb2 : b2 ∈ st.visited
  · rw [if_pos hb2]
    obtain ⟨Δ, hΔvis, hΔnd, hΔdisj, hΔsub, hΔcnt, hΔall, hΔcc⟩ :=
      blkLoop_post inp hW5 v P hvP rest st fuel hf
        (fun x hx => hl x (List.mem_cons_of_mem b2 hx))
    refine ⟨Δ, hΔvis, hΔnd, hΔdisj, hΔsub, hΔcnt, ?_, hΔcc⟩
    intro x hx
    rcases List.mem_cons.mp hx with rfl | hx2
    · rw [hΔvis]
      exact List.mem_append_left Δ hb2
    · exact hΔall x hx2
  · rw [if_neg hb2]
    obtain ⟨ΔE, hEvis, hEnd, hEdisj, hEsub, hEb, hEcnt, hEcc⟩ :=
      embedBlk_post inp hW5 b2 (some v) P
        (fun v' hv' => by injection hv' with h; rw [← h]; exact hvP) st fuel hb2
        (hl b2 (List.mem_cons_self b2 rest)) hf
    have hf2 : unvis inp (embedBlk inp b2 (some v) st fuel) ≤ fuel :=
      le_trans (unvis_append inp st _ ΔE hEvis) hf
    obtain ⟨ΔR, hRvis, hRnd, hRdisj, hRsub, hRcnt, hRall, hRcc⟩ :=
      blkLoop_post inp hW5 v P hvP rest (embedBlk inp b2 (some v) st fuel) fuel hf2
        (fun x hx => hl x (List.mem_cons_of_mem b2 hx))
    have hFvis : (blkLoop inp v rest (embedBlk inp b2 (some v) st fuel) fuel).visited
        = st.visited ++ (ΔE ++ ΔR) := by
      rw [hRvis, hEvis, List.append_assoc]
    refine ⟨ΔE ++ ΔR, hFvis, ?_, ?_, ?_, ?_, ?_, ?_⟩
    · rw [List.nodup_append]
      refine ⟨hEnd, hRnd, ?_⟩
      intro a haE haR
      exact hRdisj a haR (by rw [hEvis]; exact List.mem_append_right _ haE)
    · intro x hx
      rcases List.mem_append.mp hx with hxE | hxR
      · exact hEdisj x hxE
      · intro hxv
        exact hRdisj x hxR (by rw [hEvis]; exact List.mem_append_left _ hxv)
    · intro x hx
      rcases List.mem_append.mp hx with hxE | hxR
      · exact hEsub x hxE
      · exact hRsub x hxR
    · intro w d
      rw [hRcnt w d, hEcnt w d]
      simp only [List.map_append, List.sum_append]
      omega
    · intro x hx
      rcases List.mem_cons.mp hx with rfl | hx2
      · rw [hRvis]
        refine List.mem_append_left ΔR ?_
        rw [hEvis]
        exact List.mem_append_right _ hEb
      · exact hRall x hx2
    · intro x hx
      rcases List.mem_append.mp hx with hxE | hxR
      · exact cutsCovered_mono inp _ _ ΔR P x (by rw [hRvis]) (hEcc x hxE)
      · exact hRcc x hxR
termination_by l st fuel _ _ => (fuel, 1, l.length)

end

mutual

/-- Once `*pAdjExternal` is non-null, `embedBlock` never overwrites it. -/
theorem embedBlk_adj (inp : EmbedIn) :
    ∀ (b : Nat) (cT : Option Nat) (x : Dart) (st : ESt) (fuel : Nat), st.adjExt = some x →
    (embedBlk inp b cT st fuel).adjExt = some x
| _, _, _, st, 0, h => by
  simp only [embedBlk]
  exact h
| b, cT, x, st, fuel + 1, h => by
  simp only [embedBlk]
  exact vertLoop_adj inp b cT x (lookupBlk inp.blocks b).rot
    (setExt inp b { st with visited := st.visited ++ [b] }) fuel
    (setExt_some inp b { st with visited := st.visited ++ [b] } x h)
termination_by _ _ _ _ fuel _ => (fuel, 0, 0)

theorem vertLoop_adj (inp : EmbedIn) :
    ∀ (b : Nat) (cT : Option Nat) (x : Dart) (l : List (Nat × List Nat)) (st : ESt)
    (fuel : Nat), st.adjExt = some x → (vertLoop inp b cT l st fuel).adjExt = some x
| _, _, _, [], st, fuel, h => by
  simp only [vertLoop]
  exact h
| b, cT, x, (w, es) :: rest, st, fuel, h => by
  simp only [vertLoop]
  by_cases hcut : inp.isCut w = true
  · rw [if_pos hcut]
    by_cases hskip : cT = some w ∧ inp.parentBlk w ∈ st.visited
    · rw [if_pos hskip]
      exact vertLoop_adj inp b cT x rest _ fuel (by rw [insertDarts_adjExt]; exact h)
    · rw [if_neg hskip]
      exact vertLoop_adj inp b cT x rest _ fuel
        (by rw [insertDarts_adjExt]; exact blkLoop_adj inp w x (inp.blocksAt w) st fuel h)
  · rw [if_neg hcut]
    exact vertLoop_adj inp b cT x rest _ fuel (by rw [insertDarts_adjExt]; exact h)
termination_by _ _ _ l _ fuel _ => (fuel, 2, l.length)

theorem blkLoop_adj (inp : EmbedIn) :
    ∀ (v : Nat) (x : Dart) (l : List Nat) (st : ESt) (fuel : Nat), st.adjExt = some x →
    (blkLoop inp v l st fuel).adjExt = some x
| _, _, [], st, fuel, h => by
  simp only [blkLoop]
  exact h
| v, x, b2 :: rest, st, fuel, h => by
  simp only [blkLoop]
  by_cases hb2 : b2 ∈ st.visited
  · rw [if_pos hb2]
    exact blkLoop_adj inp v x rest st fuel h
  · rw [if_neg hb2]
    exact blkLoop_adj inp v x rest _ fuel (embedBlk_adj inp b2 (some v) x st fuel h)
termination_by _ _ l _ fuel _ => (fuel, 1, l.length)

end

/-- When `*pAdjExternal` is still null, the first `embedBlock` call sets it
to the designated external entry of its block, and it keeps that value for
the rest of the recursion. -/
theorem embedBlk_adj_none (inp : EmbedIn) (b : Nat) (cT : Option Nat) (st : ESt)
    (fuel : Nat) (h : st.adjExt = none) (hfuel : 1 ≤ fuel) :
    (embedBlk inp b cT st fuel).adjExt = some ((lookupBlk inp.blocks b).ext) := by
  match fuel, hfuel with
  | fuel + 1, _ =>
    simp only [embedBlk]
    exact vertLoop_adj inp b cT ((lookupBlk inp.blocks b).ext) (lookupBlk inp.blocks b).rot
      (setExt inp b { st with visited := st.visited ++ [b] }) fuel
      (setExt_none inp b { st with visited := st.visited ++ [b] } h)

/-- C8: throughout the whole `embedBlock` recursion of one `doCall`, the
external-face pointer is assigned at most once — an invocation finding it
null sets it to the designated external entry of its (first) block, and
every invocation that finds it non-null leaves it unchanged, so the value
returned to the caller comes from the first block embedded. -/
theorem C8_adj_external_single_assignment (inp : EmbedIn) (b : Nat) (cT : Option Nat)
    (st : ESt) (fuel : Nat) :
    (∀ x, st.adjExt = some x → (embedBlk inp b cT st fuel).adjExt = some x) ∧
    (st.adjExt = none → 1 ≤ fuel →
      (embedBlk inp b cT st fuel).adjExt = some ((lookupBlk inp.blocks b).ext)) :=
  ⟨fun x h => embedBlk_adj inp b cT x st fuel h,
   fun h hf => embedBlk_adj_none inp b cT st fuel h hf⟩

theorem C8_adj_external_single_assignment_witness :
    (embedBlk bwInp 10 none embSt0 2).adjExt = some ((lookupBlk bwInp.blocks 10).ext) ∧
    (embedBlk bwInp 20 none ⟨[], fun _ => [], some (2, true)⟩ 1).adjExt = some (2, true) :=
  ⟨(C8_adj_external_single_assignment bwInp 10 none embSt0 2).2 rfl (by decide),
   (C8_adj_external_single_assignment bwInp 20 none ⟨[], fun _ => [], some (2, true)⟩ 1).1
     (2, true) rfl⟩

theorem countP_dartAt_true (g : G2) (v e : Nat) (es : List Nat) (h : esrc g e = v) :
    es.countP (fun e2 => decide (dartAt g v e2 = (e, true))) = es.count e := by
  apply List.countP_congr
  intro x _
  simp only [decide_eq_true_eq, beq_iff_eq]
  constructor
  · intro hx
    unfold dartAt at hx
    by_cases hsx : esrc g x = v
    · rw [if_pos hsx, Prod.mk.injEq] at hx
      exact hx.1
    · rw [if_neg hsx, Prod.mk.injEq] at hx
      exact absurd hx.2 (by decide)
  · intro hx
    subst hx
    unfold dartAt
    rw [if_pos h]

theorem countP_dartAt_false (g : G2) (v e : Nat) (es : List Nat) (h : ¬ esrc g e = v) :
    es.countP (fun e2 => decide (dartAt g v e2 = (e, false))) = es.count e := by
  apply List.countP_congr
  intro x _
  simp only [decide_eq_true_eq, beq_iff_eq]
  constructor
  · intro hx
    unfold dartAt at hx
    by_cases hsx : esrc g x = v
    · rw [if_pos hsx, Prod.mk.injEq] at hx
      exact absurd hx.2 (by decide)
    · rw [if_neg hsx, Prod.mk.injEq] at hx
      exact hx.1
  · intro hx
    subst hx
    unfold dartAt
    rw [if_neg h]

theorem contrib_eq_entryCnt_true (inp : EmbedIn) (b v e : Nat) (h : esrc inp.g e = v) :
    contrib inp b v (e, true) = entryCnt inp b v e := by
  unfold contrib entryCnt
  congr 1
  apply List.map_congr_left
  intro p _
  unfold insC
  by_cases hp : p.1 = v
  · rw [if_pos hp, if_pos hp, countP_dartAt_true inp.g v e p.2 h]
  · rw [if_neg hp, if_neg hp]

theorem contrib_eq_entryCnt_false (inp : EmbedIn) (b v e : Nat) (h : ¬ esrc inp.g e = v) :
    contrib inp b v (e, false) = entryCnt inp b v e := by
  unfold contrib entryCnt
  congr 1
  apply List.map_congr_left
  intro p _
  unfold insC
  by_cases hp : p.1 = v
  · rw [if_pos hp, if_pos hp, countP_dartAt_false inp.g v e p.2 h]
  · rw [if_neg hp, if_neg hp]

theorem totC_true (inp : EmbedIn) (v e : Nat) (h : esrc inp.g e = v) :
    totC inp v (e, true) = totE inp v e := by
  unfold totC totE
  congr 1
  apply List.map_congr_left
  intro b _
  exact contrib_eq_entryCnt_true inp b v e h

theorem totC_false (inp : EmbedIn) (v e : Nat) (h : ¬ esrc inp.g e = v) :
    totC inp v (e, false) = totE inp v e := by
  unfold totC totE
  congr 1
  apply List.map_congr_left
  intro b _
  exact contrib_eq_entryCnt_false inp b v e h

/-- C9: within one `doCall`, `embedBlock` runs at most once per block-tree
node — `treeNodeTreated[bT]` is set on entry and every recursive invocation
is guarded by `!treeNodeTreated[bT2]` — so the treated list is
duplicate-free, every (reachable) block is treated exactly once, and for
every vertex of the original graph each incident adjacency entry is
inserted into `newOrder` exactly once. -/
theorem C9_embed_block_once (inp : EmbedIn) (b0 : Nat) (fuel : Nat)
    (hW5 : ∀ v, ∀ b2 ∈ inp.blocksAt v, b2 ∈ blkIds inp)
    (hb0 : b0 ∈ blkIds inp)
    (hnd : (blkIds inp).Nodup)
    (hf : (blkIds inp).length ≤ fuel)
    (hreach : ∀ b ∈ blkIds inp, Reaches inp b0 b)
    (hsrc : ∀ e ∈ edgeIds inp.g, ¬ esrc inp.g e = etgt inp.g e ∧
      totE inp (esrc inp.g e) e = 1 ∧ totE inp (etgt inp.g e) e = 1) :
    (embedBlk inp b0 none embSt0 fuel).visited.Nodup ∧
    (∀ b ∈ blkIds inp, b ∈ (embedBlk inp b0 none embSt0 fuel).visited) ∧
    (∀ e ∈ edgeIds inp.g,
      newCount (embedBlk inp b0 none embSt0 fuel) (esrc inp.g e) (e, true) = 1 ∧
      newCount (embedBlk inp b0 none embSt0 fuel) (etgt inp.g e) (e, false) = 1) := by
  have hf0 : unvis inp embSt0 ≤ fuel := by
    have h1 : unvis inp embSt0 = (blkIds inp).length := by
      unfold unvis
      apply List.countP_eq_length.mpr
      intro a _
      exact decide_eq_true (List.not_mem_nil a)
    omega
  obtain ⟨Δ, hΔvis, hΔnd, hΔdisj, hΔsub, hb0Δ, hΔcnt, hΔcc⟩ :=
    embedBlk_post inp hW5 b0 none [] (fun v hv => by cases hv) embSt0 fuel
      (List.not_mem_nil b0) hb0 hf0
  have hvisΔ : (embedBlk inp b0 none embSt0 fuel).visited = Δ := by
    rw [hΔvis]
    rfl
  have hcov : ∀ b, Reaches inp b0 b → b ∈ Δ := by
    intro b hb
    induction hb with
    | refl => exact hb0Δ
    | step b v es b2 hr hmem hcut hb2 ih =>
      rcases hΔcc b ih v es hmem hcut with hcv | hP
      · have h2 := hcv b2 hb2
        rw [hvisΔ] at h2
        exact h2
      · cases hP
  have hperm : Δ.Perm (blkIds inp) := by
    apply (List.perm_ext_iff_of_nodup hΔnd hnd).mpr
    intro a
    constructor
    · exact hΔsub a
    · intro ha
      exact hcov a (hreach a ha)
  have hcnt2 : ∀ v d, newCount (embedBlk inp b0 none embSt0 fuel) v d = totC inp v d := by
    intro v d
    rw [hΔcnt v d]
    have h0 : newCount embSt0 v d = 0 := rfl
    rw [h0]
    unfold totC
    have h1 := (hperm.map (fun b2 => contrib inp b2 v d)).sum_eq
    omega
  refine ⟨?_, ?_, ?_⟩
  · rw [hvisΔ]
    exact hΔnd
  · intro b hb
    rw [hvisΔ]
    exact hcov b (hreach b hb)
  · intro e he
    obtain ⟨hne, h1, h2⟩ := hsrc e he
    constructor
    · rw [hcnt2, totC_true inp (esrc inp.g e) e rfl]
      exact h1
    · rw [hcnt2, totC_false inp (etgt inp.g e) e hne]
      exact h2

theorem C9_embed_block_once_witness :
    (embedBlk bwInp 10 none embSt0 2).visited.Nodup ∧
    (∀ b ∈ blkIds bwInp, b ∈ (embedBlk bwInp 10 none embSt0 2).visited) ∧
    (∀ e ∈ edgeIds bwInp.g,
      newCount (embedBlk bwInp 10 none embSt0 2) (esrc bwInp.g e) (e, true) = 1 ∧
      newCount (embedBlk bwInp 10 none embSt0 2) (etgt bwInp.g e) (e, false) = 1) :=
  C9_embed_block_once bwInp 10 2
    (fun v b2 hb2 => by
      revert hb2
      show b2 ∈ (if v = 0 then [10, 20] else []) → b2 ∈ blkIds bwInp
      by_cases h : v = 0
      · rw [if_pos h]
        intro hm
        rcases List.mem_cons.mp hm with rfl | hm2
        · exact List.mem_cons_self 10 [20]
        · rcases List.mem_cons.mp hm2 with rfl | hm3
          · exact List.mem_cons_of_mem 10 (List.mem_cons_self 20 [])
          · cases hm3
      · rw [if_neg h]
        intro hm
        cases hm)
    (by decide) (by decide) (by decide)
    (fun b hb => by
      have hb' : b ∈ [10, 20] := hb
      rcases List.mem_cons.mp hb' with rfl | hb2
      · exact Reaches.refl
      · rcases List.mem_cons.mp hb2 with rfl | hb3
        · exact Reaches.step 10 0 [1, 2] 20 Reaches.refl (by decide) rfl (by decide)
        · cases hb3)
    (by decide)

theorem lookupBlk_mem (blocks : List BlockEmb) (b : Nat)
    (hb : b ∈ blocks.map BlockEmb.bid) : lookupBlk blocks b ∈ blocks := by
  unfold lookupBlk
  obtain ⟨blk, hblk, hbid⟩ := List.mem_map.mp hb
  have hex : (blocks.find? (fun blk2 => blk2.bid = b)).isSome :=
    List.find?_isSome.mpr ⟨blk, hblk, decide_eq_true hbid⟩
  cases hfind : blocks.find? (fun blk2 => blk2.bid = b) with
  | none => simp [hfind] at hex
  | some blk2 =>
    simp only [Option.getD_some]
    exact List.mem_of_find?_eq_some hfind

theorem map_sum_ne_zero {α : Type} (l : List α) (f : α → Nat)
    (h : (l.map f).sum ≠ 0) : ∃ x ∈ l, f x ≠ 0 := by
  by_contra hall
  push_neg at hall
  apply h
  apply List.sum_eq_zero_iff.mpr
  intro y hy
  obtain ⟨x, hx, rfl⟩ := List.mem_map.mp hy
  exact hall x hx

/-- After a full reconstruction from the empty state, the multiplicity of
every adjacency entry in `newOrder` is exactly the total contribution of
all blocks. -/
theorem embedBlk_count_tot (inp : EmbedIn) (b0 : Nat) (fuel : Nat)
    (hW5 : ∀ v, ∀ b2 ∈ inp.blocksAt v, b2 ∈ blkIds inp)
    (hb0 : b0 ∈ blkIds inp)
    (hnd : (blkIds inp).Nodup)
    (hf : (blkIds inp).length ≤ fuel)
    (hreach : ∀ b ∈ blkIds inp, Reaches inp b0 b) :
    ∀ v d, newCount (embedBlk inp b0 none embSt0 fuel) v d = totC inp v d := by
  have hf0 : unvis inp embSt0 ≤ fuel := by
    have h1 : unvis inp embSt0 = (blkIds inp).length := by
      unfold unvis
      apply List.countP_eq_length.mpr
      intro a _
      exact decide_eq_true (List.not_mem_nil a)
    omega
  obtain ⟨Δ, hΔvis, hΔnd, hΔdisj, hΔsub, hb0Δ, hΔcnt, hΔcc⟩ :=
    embedBlk_post inp hW5 b0 none [] (fun v hv => by cases hv) embSt0 fuel
      (List.not_mem_nil b0) hb0 hf0
  have hvisΔ : (embedBlk inp b0 none embSt0 fuel).visited = Δ := by
    rw [hΔvis]
    rfl
  have hcov : ∀ b, Reaches inp b0 b → b ∈ Δ := by
    intro b hb
    induction hb with
    | refl => exact hb0Δ
    | step b v es b2 hr hmem hcut hb2 ih =>
      rcases hΔcc b ih v es hmem hcut with hcv | hP
      · have h2 := hcv b2 hb2
        rw [hvisΔ] at h2
        exact h2
      · cases hP
  have hperm : Δ.Perm (blkIds inp) := by
    apply (List.perm_ext_iff_of_nodup hΔnd hnd).mpr
    intro a
    constructor
    · exact hΔsub a
    · intro ha
      exact hcov a (hreach a ha)
  intro v d
  rw [hΔcnt v d]
  have h0 : newCount embSt0 v d = 0 := rfl
  rw [h0]
  unfold totC
  have h1 := (hperm.map (fun b2 => contrib inp b2 v d)).sum_eq
  omega

/-- A dart with a positive total contribution is a dart of the graph lying
at the vertex in question. -/
theorem totC_pos_shape (inp : EmbedIn)
    (hW4 : ∀ blk ∈ inp.blocks, ∀ p ∈ blk.rot, ∀ e ∈ p.2,
      e ∈ edgeIds inp.g ∧ (esrc inp.g e = p.1 ∨ etgt inp.g e = p.1))
    (v : Nat) (d : Dart) (hpos : totC inp v d ≠ 0) :
    d.1 ∈ edgeIds inp.g ∧ vtxOf inp.g d = v := by
  obtain ⟨b, hbmem, hbne⟩ := map_sum_ne_zero (blkIds inp) _ hpos
  obtain ⟨p, hpmem, hpne⟩ := map_sum_ne_zero ((lookupBlk inp.blocks b).rot) _ hbne
  unfold insC at hpne
  by_cases hpv : p.1 = v
  · rw [if_pos hpv] at hpne
    have hcp : 0 < p.2.countP (fun e => decide (dartAt inp.g v e = d)) :=
      Nat.pos_of_ne_zero hpne
    obtain ⟨e, hemem, hebeq⟩ := List.countP_pos_iff.mp hcp
    have hed : dartAt inp.g v e = d := of_decide_eq_true hebeq
    obtain ⟨heid, hinc⟩ := hW4 (lookupBlk inp.blocks b) (lookupBlk_mem inp.blocks b hbmem)
      p hpmem e hemem
    rw [hpv] at hinc
    unfold dartAt at hed
    by_cases hs : esrc inp.g e = v
    · rw [if_pos hs] at hed
      rw [← hed]
      exact ⟨heid, by unfold vtxOf; rw [if_pos rfl]; exact hs⟩
    · rw [if_neg hs] at hed
      rw [← hed]
      refine ⟨heid, ?_⟩
      unfold vtxOf
      simp only [Bool.false_eq_true, if_false]
      rcases hinc with h | h
      · exact absurd h hs
      · exact h
  · rw [if_neg hpv] at hpne
    exact absurd rfl hpne

theorem mem_allDarts (g : G2) (d : Dart) : d ∈ allDarts g ↔ d.1 ∈ edgeIds g := by
  rcases d with ⟨e, s⟩
  unfold allDarts
  cases s <;> simp

theorem twinD_twinD (d : Dart) : twinD (twinD d) = d := by
  unfold twinD
  simp

theorem twinD_mem (g : G2) (d : Dart) (h : d ∈ allDarts g) : twinD d ∈ allDarts g := by
  rw [mem_allDarts] at h ⊢
  exact h

theorem twinD_inj (d1 d2 : Dart) (h : twinD d1 = twinD d2) : d1 = d2 := by
  have h2 := congrArg twinD h
  rwa [twinD_twinD, twinD_twinD] at h2

theorem dartIdx_lt (l : List Dart) (d : Dart) (h : d ∈ l) : dartIdx l d < l.length := by
  unfold dartIdx
  exact List.indexOf_lt_length.mpr h

theorem dartIdx_inj (l : List Dart) (a b : Dart) (ha : a ∈ l) (hb : b ∈ l)
    (h : dartIdx l a = dartIdx l b) : a = b := by
  unfold dartIdx at h
  exact (List.indexOf_inj ha hb).mp h

theorem cycSucc_mem (l : List Dart) (d : Dart) (h : d ∈ l) : cycSucc l d ∈ l := by
  unfold cycSucc
  have hlen : 0 < l.length := List.length_pos.mpr (List.ne_nil_of_mem h)
  have hlt : (dartIdx l d + 1) % l.length < l.length := Nat.mod_lt _ hlen
  rw [List.getD_eq_getElem?_getD, List.getElem?_eq_getElem hlt]
  simp only [Option.getD_some]
  exact List.getElem_mem hlt

theorem cycSucc_inj (l : List Dart) (hnd : l.Nodup) (a b : Dart) (ha : a ∈ l) (hb : b ∈ l)
    (h : cycSucc l a = cycSucc l b) : a = b := by
  have hlen : 0 < l.length := List.length_pos.mpr (List.ne_nil_of_mem ha)
  have hia : dartIdx l a < l.length := dartIdx_lt l a ha
  have hib : dartIdx l b < l.length := dartIdx_lt l b hb
  have h1 : (dartIdx l a + 1) % l.length < l.length := Nat.mod_lt _ hlen
  have h2 : (dartIdx l b + 1) % l.length < l.length := Nat.mod_lt _ hlen
  unfold cycSucc at h
  rw [List.getD_eq_getElem?_getD, List.getElem?_eq_getElem h1,
    List.getD_eq_getElem?_getD, List.getElem?_eq_getElem h2] at h
  simp only [Option.getD_some] at h
  have h3 : (dartIdx l a + 1) % l.length = (dartIdx l b + 1) % l.length :=
    (List.Nodup.getElem_inj_iff hnd).mp h
  have h4 : dartIdx l a = dartIdx l b := by
    by_cases hA : dartIdx l a + 1 = l.length
    · by_cases hB : dartIdx l b + 1 = l.length
      · omega
      · rw [hA, Nat.mod_self, Nat.mod_eq_of_lt (by omega)] at h3
        omega
    · by_cases hB : dartIdx l b + 1 = l.length
      · rw [hB, Nat.mod_self, Nat.mod_eq_of_lt (by omega)] at h3
        omega
      · rw [Nat.mod_eq_of_lt (by omega), Nat.mod_eq_of_lt (by omega)] at h3
        omega
  exact dartIdx_inj l a b ha hb h4

theorem faceNext_mem (g : G2) (no : Nat → List Dart) (h : RotOk g no) (d : Dart)
    (hd : d ∈ allDarts g) : faceNext g no d ∈ allDarts g := by
  have ht : twinD d ∈ allDarts g := twinD_mem g d hd
  have htm : twinD d ∈ no (vtxOf g (twinD d)) := h.cover (twinD d) ht
  have hm : faceNext g no d ∈ no (vtxOf g (twinD d)) := cycSucc_mem _ _ htm
  rw [mem_allDarts]
  exact h.edges _ _ hm

theorem faceNext_inj (g : G2) (no : Nat → List Dart) (h : RotOk g no) (d1 d2 : Dart)
    (h1 : d1 ∈ allDarts g) (h2 : d2 ∈ allDarts g)
    (he : faceNext g no d1 = faceNext g no d2) : d1 = d2 := by
  have ht1 : twinD d1 ∈ no (vtxOf g (twinD d1)) := h.cover _ (twinD_mem g d1 h1)
  have ht2 : twinD d2 ∈ no (vtxOf g (twinD d2)) := h.cover _ (twinD_mem g d2 h2)
  have hm1 : faceNext g no d1 ∈ no (vtxOf g (twinD d1)) := cycSucc_mem _ _ ht1
  have hm2 : faceNext g no d2 ∈ no (vtxOf g (twinD d2)) := cycSucc_mem _ _ ht2
  have hv : vtxOf g (twinD d1) = vtxOf g (twinD d2) := by
    have hva := h.vtx _ _ hm1
    have hvb := h.vtx _ _ hm2
    rw [← hva, ← hvb, he]
  have hkey : cycSucc (no (vtxOf g (twinD d1))) (twinD d1)
      = cycSucc (no (vtxOf g (twinD d1))) (twinD d2) := by
    unfold faceNext at he
    rw [← hv] at he
    exact he
  exact twinD_inj d1 d2
    (cycSucc_inj _ (h.nodup _) _ _ ht1 (by rw [hv]; exact ht2) hkey)

theorem faceNext_iterate_mem (g : G2) (no : Nat → List Dart) (h : RotOk g no) (d : Dart)
    (hd : d ∈ allDarts g) : ∀ (n : Nat), (faceNext g no)^[n] d ∈ allDarts g
| 0 => hd
| n + 1 => by
  rw [Function.iterate_succ_apply']
  exact faceNext_mem g no h _ (faceNext_iterate_mem g no h d hd n)

theorem faceNext_iterate_inj (g : G2) (no : Nat → List Dart) (h : RotOk g no) :
    ∀ (n : Nat) (x y : Dart), x ∈ allDarts g → y ∈ allDarts g →
    (faceNext g no)^[n] x = (faceNext g no)^[n] y → x = y
| 0, x, y, _, _, he => he
| n + 1, x, y, hx, hy, he => by
  rw [Function.iterate_succ_apply', Function.iterate_succ_apply'] at he
  exact faceNext_iterate_inj g no h n x y hx hy
    (faceNext_inj g no h _ _ (faceNext_iterate_mem g no h x hx n)
      (faceNext_iterate_mem g no h y hy n) he)

theorem faceNext_return (g : G2) (no : Nat → List Dart) (h : RotOk g no) (d : Dart)
    (hd : d ∈ allDarts g) :
    ∃ m, 0 < m ∧ m ≤ (allDarts g).length ∧ (faceNext g no)^[m] d = d := by
  have hkey : ∀ i j, i < j → j ≤ (allDarts g).length →
      (faceNext g no)^[j] d = (faceNext g no)^[i] d →
      ∃ m, 0 < m ∧ m ≤ (allDarts g).length ∧ (faceNext g no)^[m] d = d := by
    intro i j hij hjN he
    refine ⟨j - i, by omega, by omega, ?_⟩
    apply faceNext_iterate_inj g no h i _ d (faceNext_iterate_mem g no h d hd (j - i)) hd
    rw [← Function.iterate_add_apply]
    have hsum : i + (j - i) = j := by omega
    rw [hsum]
    exact he
  have hmaps : ∀ i ∈ Finset.range ((allDarts g).length + 1),
      (faceNext g no)^[i] d ∈ (allDarts g).toFinset := by
    intro i _
    rw [List.mem_toFinset]
    exact faceNext_iterate_mem g no h d hd i
  have hcard : (allDarts g).toFinset.card < (Finset.range ((allDarts g).length + 1)).card := by
    rw [Finset.card_range]
    have h2 := List.toFinset_card_le (allDarts g)
    omega
  obtain ⟨i, hi, j, hj, hne, heq⟩ := Finset.exists_ne_map_eq_of_card_lt_of_maps_to hcard hmaps
  rw [Finset.mem_range] at hi hj
  rcases Nat.lt_or_ge i j with hlt | hge
  · exact hkey i j hlt (by omega) heq.symm
  · have hlt2 : j < i := by omega
    exact hkey j i hlt2 (by omega) heq

theorem iterate_mod_period (φ : Dart → Dart) (d : Dart) (k : Nat) (hk : 0 < k)
    (hp : φ^[k] d = d) : ∀ n, φ^[n] d = φ^[n % k] d := by
  have hq : ∀ q, φ^[k * q] d = d := by
    intro q
    induction q with
    | zero => rfl
    | succ q ih =>
      have hs : k * (q + 1) = k + k * q := by ring
      rw [hs, Function.iterate_add_apply, ih]
      exact hp
  intro n
  conv_lhs => rw [← Nat.div_add_mod n k]
  rw [Nat.add_comm (k * (n / k)) (n % k), Function.iterate_add_apply, hq]

theorem count_pos_mem (l : List Dart) (d : Dart) :
    0 < @List.count Dart instBEqOfDecidableEq d l ↔ d ∈ l := by
  show 0 < l.countP (fun x => decide (x = d)) ↔ d ∈ l
  rw [List.countP_pos_iff]
  constructor
  · rintro ⟨x, hx, hdec⟩
    have hxd : x = d := of_decide_eq_true hdec
    rw [← hxd]
    exact hx
  · intro hd
    exact ⟨d, hd, decide_eq_true rfl⟩

/-- The rotation system produced by a full reconstruction is complete: it
holds exactly the darts of the graph, each at its vertex, each once. -/
theorem embedBlk_rotOk (inp : EmbedIn) (b0 : Nat) (fuel : Nat)
    (hW5 : ∀ v, ∀ b2 ∈ inp.blocksAt v, b2 ∈ blkIds inp)
    (hb0 : b0 ∈ blkIds inp)
    (hnd : (blkIds inp).Nodup)
    (hf : (blkIds inp).length ≤ fuel)
    (hreach : ∀ b ∈ blkIds inp, Reaches inp b0 b)
    (hW4 : ∀ blk ∈ inp.blocks, ∀ p ∈ blk.rot, ∀ e ∈ p.2,
      e ∈ edgeIds inp.g ∧ (esrc inp.g e = p.1 ∨ etgt inp.g e = p.1))
    (hsrc : ∀ e ∈ edgeIds inp.g, ¬ esrc inp.g e = etgt inp.g e ∧
      totE inp (esrc inp.g e) e = 1 ∧ totE inp (etgt inp.g e) e = 1) :
    RotOk inp.g (embedBlk inp b0 none embSt0 fuel).newOrder := by
  have hcnt := embedBlk_count_tot inp b0 fuel hW5 hb0 hnd hf hreach
  have hmemC : ∀ v d, d ∈ (embedBlk inp b0 none embSt0 fuel).newOrder v ↔
      totC inp v d ≠ 0 := by
    intro v d
    constructor
    · intro h
      have h2 : 0 < @List.count Dart instBEqOfDecidableEq d
          ((embedBlk inp b0 none embSt0 fuel).newOrder v) := (count_pos_mem _ _).mpr h
      have h3 := hcnt v d
      unfold newCount at h3
      omega
    · intro h
      have h3 := hcnt v d
      unfold newCount at h3
      have h4 : 0 < @List.count Dart instBEqOfDecidableEq d
          ((embedBlk inp b0 none embSt0 fuel).newOrder v) := by omega
      exact (count_pos_mem _ _).mp h4
  refine ⟨?_, ?_, ?_, ?_⟩
  · intro v d hd
    exact (totC_pos_shape inp hW4 v d ((hmemC v d).mp hd)).1
  · intro v d hd
    exact (totC_pos_shape inp hW4 v d ((hmemC v d).mp hd)).2
  · intro v
    have hgoal : ∀ d : Dart, @List.count Dart instBEqOfDecidableEq d
        ((embedBlk inp b0 none embSt0 fuel).newOrder v) ≤ 1 := by
      intro d
      have hc := hcnt v d
      unfold newCount at hc
      rw [hc]
      by_cases h0 : totC inp v d = 0
      · omega
      · obtain ⟨heid, hvtx⟩ := totC_pos_shape inp hW4 v d h0
        rcases d with ⟨e, s⟩
        obtain ⟨hne, h1, h2⟩ := hsrc e heid
        cases s
        · unfold vtxOf at hvtx
          simp only [Bool.false_eq_true, if_false] at hvtx
          rw [← hvtx, totC_false inp (etgt inp.g e) e hne]
          omega
        · unfold vtxOf at hvtx
          simp only [if_true] at hvtx
          rw [← hvtx, totC_true inp (esrc inp.g e) e rfl]
          omega
    exact List.nodup_iff_count_le_one.mpr hgoal
  · intro d hd
    have heid := (mem_allDarts inp.g d).mp hd
    rcases d with ⟨e, s⟩
    obtain ⟨hne, h1, h2⟩ := hsrc e heid
    cases s
    · apply (hmemC _ _).mpr
      show totC inp (vtxOf inp.g (e, false)) (e, false) ≠ 0
      unfold vtxOf
      simp only [Bool.false_eq_true, if_false]
      rw [totC_false inp (etgt inp.g e) e hne]
      omega
    · apply (hmemC _ _).mpr
      show totC inp (vtxOf inp.g (e, true)) (e, true) ≠ 0
      unfold vtxOf
      simp only [if_true]
      rw [totC_true inp (esrc inp.g e) e rfl]
      omega

/-- C1: for a connected input (every block of the decomposition reachable
from the root block) with a well-formed block decomposition — no
self-loops, every rotation entry incident to its vertex, every edge
appearing exactly once at each of its two endpoints over all blocks — the
rotation system emitted by the `embedBlock` reconstruction of
`EmbedderMaxFace::doCall` (and of `EmbedderMinDepthMaxFaceLayers::doCall`,
which differs only in the insertion start positions abstracted by
`EmbedIn.start`) is a valid combinatorial embedding: face tracing from any
adjacency entry returns to its start after at most `|allDarts|` steps, the
traced face boundary repeats no entry before closing, every entry of the
boundary walks back to the start, and the whole face walk from any of its
entries stays inside the same boundary — so each edge lies on exactly two
face boundaries, once per direction. -/
theorem C1_face_tracing_valid (inp : EmbedIn) (b0 : Nat) (fuel : Nat)
    (hW5 : ∀ v, ∀ b2 ∈ inp.blocksAt v, b2 ∈ blkIds inp)
    (hb0 : b0 ∈ blkIds inp)
    (hnd : (blkIds inp).Nodup)
    (hf : (blkIds inp).length ≤ fuel)
    (hreach : ∀ b ∈ blkIds inp, Reaches inp b0 b)
    (hW4 : ∀ blk ∈ inp.blocks, ∀ p ∈ blk.rot, ∀ e ∈ p.2,
      e ∈ edgeIds inp.g ∧ (esrc inp.g e = p.1 ∨ etgt inp.g e = p.1))
    (hsrc : ∀ e ∈ edgeIds inp.g, ¬ esrc inp.g e = etgt inp.g e ∧
      totE inp (esrc inp.g e) e = 1 ∧ totE inp (etgt inp.g e) e = 1) :
    ∀ d ∈ allDarts inp.g,
      ∃ k, 0 < k ∧ k ≤ (allDarts inp.g).length ∧
        (faceNext inp.g (embedBlk inp b0 none embSt0 fuel).newOrder)^[k] d = d ∧
        ((List.range k).map
          (fun i => (faceNext inp.g (embedBlk inp b0 none embSt0 fuel).newOrder)^[i] d)).Nodup ∧
        (∀ i, i < k →
          (faceNext inp.g (embedBlk inp b0 none embSt0 fuel).newOrder)^[k - i]
            ((faceNext inp.g (embedBlk inp b0 none embSt0 fuel).newOrder)^[i] d) = d) ∧
        (∀ i, i < k → ∀ m, ∃ j, j < k ∧
          (faceNext inp.g (embedBlk inp b0 none embSt0 fuel).newOrder)^[m]
            ((faceNext inp.g (embedBlk inp b0 none embSt0 fuel).newOrder)^[i] d)
            = (faceNext inp.g (embedBlk inp b0 none embSt0 fuel).newOrder)^[j] d) := by
  intro d hd
  have hrot : RotOk inp.g (embedBlk inp b0 none embSt0 fuel).newOrder :=
    embedBlk_rotOk inp b0 fuel hW5 hb0 hnd hf hreach hW4 hsrc
  obtain ⟨m, hm0, hmN, hme⟩ :=
    faceNext_return inp.g (embedBlk inp b0 none embSt0 fuel).newOrder hrot d hd
  have hex : ∃ k2, 0 < k2 ∧
      (faceNext inp.g (embedBlk inp b0 none embSt0 fuel).newOrder)^[k2] d = d :=
    ⟨m, hm0, hme⟩
  have hspec := Nat.find_spec hex
  have hkm : Nat.find hex ≤ m := Nat.find_min' hex ⟨hm0, hme⟩
  have hcan : ∀ i j, i < j → j < Nat.find hex →
      (faceNext inp.g (embedBlk inp b0 none embSt0 fuel).newOrder)^[j] d
        = (faceNext inp.g (embedBlk inp b0 none embSt0 fuel).newOrder)^[i] d → False := by
    intro i j hij hjk he
    have hji : (faceNext inp.g (embedBlk inp b0 none embSt0 fuel).newOrder)^[j - i] d = d := by
      apply faceNext_iterate_inj inp.g (embedBlk inp b0 none embSt0 fuel).newOrder hrot i _ d
        (faceNext_iterate_mem inp.g (embedBlk inp b0 none embSt0 fuel).newOrder hrot d hd
          (j - i)) hd
      rw [← Function.iterate_add_apply]
      have hsum : i + (j - i) = j := by omega
      rw [hsum]
      exact he
    exact Nat.find_min hex (show j - i < Nat.find hex by omega) ⟨by omega, hji⟩
  refine ⟨Nat.find hex, hspec.1, le_trans hkm hmN, hspec.2, ?_, ?_, ?_⟩
  · refine List.Nodup.map_on ?_ (List.nodup_range (Nat.find hex))
    intro i hi j hj he
    rw [List.mem_range] at hi hj
    by_contra hne
    rcases Nat.lt_or_ge i j with hlt | hge
    · exact hcan i j hlt hj he.symm
    · have hlt2 : j < i := by omega
      exact hcan j i hlt2 hi he
  · intro i hik
    rw [← Function.iterate_add_apply]
    have hsum : (Nat.find hex - i) + i = Nat.find hex := by omega
    rw [hsum]
    exact hspec.2
  · intro i hik m2
    refine ⟨(m2 + i) % Nat.find hex, Nat.mod_lt _ hspec.1, ?_⟩
    rw [← Function.iterate_add_apply]
    exact iterate_mod_period (faceNext inp.g (embedBlk inp b0 none embSt0 fuel).newOrder) d
      (Nat.find hex) hspec.1 hspec.2 (m2 + i)

theorem C1_face_tracing_valid_witness :
    ∃ k, 0 < k ∧ k ≤ (allDarts bwInp.g).length ∧
      (faceNext bwInp.g (embedBlk bwInp 10 none embSt0 2).newOrder)^[k] (0, true) = (0, true) ∧
      ((List.range k).map
        (fun i => (faceNext bwInp.g (embedBlk bwInp 10 none embSt0 2).newOrder)^[i]
          ((0, true) : Dart))).Nodup ∧
      (∀ i, i < k →
        (faceNext bwInp.g (embedBlk bwInp 10 none embSt0 2).newOrder)^[k - i]
          ((faceNext bwInp.g (embedBlk bwInp 10 none embSt0 2).newOrder)^[i] (0, true))
          = (0, true)) ∧
      (∀ i, i < k → ∀ m, ∃ j, j < k ∧
        (faceNext bwInp.g (embedBlk bwInp 10 none embSt0 2).newOrder)^[m]
          ((faceNext bwInp.g (embedBlk bwInp 10 none embSt0 2).newOrder)^[i] (0, true))
          = (faceNext bwInp.g (embedBlk bwInp 10 none embSt0 2).newOrder)^[j] (0, true)) :=
  C1_face_tracing_valid bwInp 10 2
    (fun v b2 hb2 => by
      revert hb2
      show b2 ∈ (if v = 0 then [10, 20] else []) → b2 ∈ blkIds bwInp
      by_cases h : v = 0
      · rw [if_pos h]
        intro hm
        rcases List.mem_cons.mp hm with rfl | hm2
        · exact List.mem_cons_self 10 [20]
        · rcases List.mem_cons.mp hm2 with rfl | hm3
          · exact List.mem_cons_of_mem 10 (List.mem_cons_self 20 [])
          · cases hm3
      · rw [if_neg h]
        intro hm
        cases hm)
    (by decide) (by decide) (by decide)
    (fun b hb => by
      have hb' : b ∈ [10, 20] := hb
      rcases List.mem_cons.mp hb' with rfl | hb2
      · exact Reaches.refl
      · rcases List.mem_cons.mp hb2 with rfl | hb3
        · exact Reaches.step 10 0 [1, 2] 20 Reaches.refl (by decide) rfl (by decide)
        · cases hb3)
    (by decide) (by decide) (0, true) (by decide)

